import Mathlib

/-!
Verification of the JSON-to-SQLite schema-inference and normalization engine
(src/json-to-sqlite.py) against its natural-language specification.

The engine is shallowly embedded: parsed JSON documents are a tagged variant
`JValue`; the SQLite connection is a `ConvState` holding the tables (each with
its ordered column list, its rows and its AUTOINCREMENT counter) together with
the in-memory `known_tables` registry; each stateful Python method becomes a
Lean function threading a `ConvState` and returning an `Except SqlError`
result alongside the (persisting) state, mirroring the fact that sqlite
mutations performed before an exception are not rolled back.

Recursive engine functions are defined with an explicit fuel parameter
(structural recursion on `Nat`) so that every definition evaluates inside the
kernel; the exported wrappers instantiate the fuel with the document size,
which is always sufficient (each recursive call strictly decreases the size
bound, as the lemmas below establish).
-/

namespace JsonToSqlite

/-- Tagged variant for values produced by the JSON parser (`json.load` /
`json.loads`): null, boolean, integer, float, string, object, array.
The float payload is irrelevant to every claim, so `real` carries none. -/
inductive JValue where
  | null : JValue
  | bool (b : Bool) : JValue
  | int (n : Int) : JValue
  | real : JValue
  | str (s : String) : JValue
  | obj (fields : List (String × JValue)) : JValue
  | arr (elems : List JValue) : JValue
deriving Repr

mutual
/-- Boolean equality on `JValue` (the derive handler does not support this
nested inductive, so equality is defined by hand). -/
def beqV : JValue → JValue → Bool
  | .null, .null => true
  | .bool a, .bool b => a == b
  | .int a, .int b => a == b
  | .real, .real => true
  | .str a, .str b => a == b
  | .obj a, .obj b => beqF a b
  | .arr a, .arr b => beqE a b
  | _, _ => false
/-- Boolean equality on field lists. -/
def beqF : List (String × JValue) → List (String × JValue) → Bool
  | [], [] => true
  | (k, v) :: r, (k', v') :: r' => k == k' && beqV v v' && beqF r r'
  | _, _ => false
/-- Boolean equality on element lists. -/
def beqE : List JValue → List JValue → Bool
  | [], [] => true
  | e :: r, e' :: r' => beqV e e' && beqE r r'
  | _, _ => false
end

mutual
theorem beqV_iff : ∀ a b, beqV a b = true ↔ a = b
  | .null, b => by cases b <;> simp [beqV]
  | .bool x, b => by cases b <;> simp [beqV]
  | .int x, b => by cases b <;> simp [beqV]
  | .real, b => by cases b <;> simp [beqV]
  | .str x, b => by cases b <;> simp [beqV]
  | .obj f, b => by
      cases b <;> simp [beqV]
      exact beqF_iff f _
  | .arr e, b => by
      cases b <;> simp [beqV]
      exact beqE_iff e _
theorem beqF_iff : ∀ a b, beqF a b = true ↔ a = b
  | [], b => by cases b <;> simp [beqF]
  | (k, v) :: r, b => by
      cases b with
      | nil => simp [beqF]
      | cons hd tl =>
        obtain ⟨k', v'⟩ := hd
        simp [beqF, beqV_iff v v', beqF_iff r tl, and_assoc]
theorem beqE_iff : ∀ a b, beqE a b = true ↔ a = b
  | [], b => by cases b <;> simp [beqE]
  | e :: r, b => by
      cases b with
      | nil => simp [beqE]
      | cons hd tl => simp [beqE, beqV_iff e hd, beqE_iff r tl]
end

instance : DecidableEq JValue := fun a b => decidable_of_iff _ (beqV_iff a b)

/-- Does the value satisfy Python's `isinstance(value, dict)`? -/
def isDict : JValue → Bool
  | .obj _ => true
  | _ => false

/-- Does the value satisfy Python's `isinstance(value, (dict, list))`? -/
def isDictOrList : JValue → Bool
  | .obj _ => true
  | .arr _ => true
  | _ => false

/-- Model of Python's `str.isalnum` restricted to ASCII (every key appearing
in the claims and in the reserved-word list is ASCII). -/
def py_isalnum (c : Char) : Bool := c.isAlpha || c.isDigit

/-- Model of Python's `str.lower` on a single character (ASCII case folding,
which is all the reserved-word comparison can observe). -/
def py_lower_char (c : Char) : Char :=
  if 'A' ≤ c && c ≤ 'Z' then Char.ofNat (c.toNat + 32) else c

/-- Model of Python's `str.lower`. -/
def py_lower (s : String) : String := String.mk (s.data.map py_lower_char)

/-- The reserved-keyword set of `_sanitize_name`, transcribed from the source. -/
def reserved_keywords : List String :=
  ["abort", "action", "add", "after", "all", "alter", "analyze", "and", "as", "asc",
   "attach", "autoincrement", "before", "begin", "between", "by", "cascade", "case",
   "cast", "check", "collate", "column", "commit", "conflict", "constraint", "create",
   "cross", "current", "current_date", "current_time", "current_timestamp", "database",
   "default", "deferrable", "deferred", "delete", "desc", "detach", "distinct", "drop",
   "each", "else", "end", "escape", "except", "exclusive", "exists", "explain", "fail",
   "for", "foreign", "from", "full", "glob", "group", "having", "if", "ignore",
   "immediate", "in", "index", "indexed", "initially", "inner", "insert", "instead",
   "intersect", "into", "is", "isnull", "join", "key", "left", "like", "limit", "match",
   "natural", "no", "not", "notnull", "null", "of", "offset", "on", "or", "order",
   "outer", "plan", "pragma", "primary", "query", "raise", "recursive", "references",
   "regexp", "reindex", "release", "rename", "replace", "restrict", "right", "rollback",
   "row", "savepoint", "select", "set", "table", "temp", "temporary", "then", "to",
   "transaction", "trigger", "type", "union", "unique", "update", "using", "vacuum",
   "values", "view", "virtual", "when", "where", "with", "without"]

/-- Character-level step of `_sanitize_name`: keep alphanumerics, replace
everything else with an underscore. -/
def sanitize_char (c : Char) : Char := if py_isalnum c then c else '_'

/-- Model of `JsonToSqlite._sanitize_name`: replace every non-alphanumeric
character with an underscore, then prefix with an underscore when the
lower-cased result is an SQLite reserved keyword. -/
def sanitize_name (name : String) : String :=
  if reserved_keywords.contains (py_lower (String.mk (name.data.map sanitize_char))) then
    "_" ++ String.mk (name.data.map sanitize_char)
  else String.mk (name.data.map sanitize_char)

/-- Sanitizer re-stated from the words of the specification (section 4.1):
replace every character that is not alphanumeric with an underscore; if the
case-insensitive result collides with a reserved word of the storage engine,
prefix the result with an underscore. Used only for comparison with the
definition transcribed from the source. -/
def sanitize_spec (name : String) : String :=
  if reserved_keywords.contains
      (py_lower (String.mk (name.data.map (fun c => if py_isalnum c then c else '_')))) then
    "_" ++ String.mk (name.data.map (fun c => if py_isalnum c then c else '_'))
  else String.mk (name.data.map (fun c => if py_isalnum c then c else '_'))

/-- Python's `isinstance(value, bool)`. -/
def isinstance_bool : JValue → Bool
  | .bool _ => true
  | _ => false

/-- Python's `isinstance(value, int)`. Booleans are a subclass of `int` in
Python, so this test also accepts booleans — the host representation
conflates the two. -/
def isinstance_int : JValue → Bool
  | .bool _ => true
  | .int _ => true
  | _ => false

/-- Python's `isinstance(value, float)` (a Python bool or int is not a
float). -/
def isinstance_float : JValue → Bool
  | .real => true
  | _ => false

/-- Model of `JsonToSqlite._get_sqlite_type`, mirroring the source's chain of
`isinstance` checks in order: bool before int (Python booleans pass the int
test too), then float, then dict-or-list, then the `TEXT` fallback. -/
def get_sqlite_type (value : JValue) : String :=
  if isinstance_bool value then "BOOLEAN"
  else if isinstance_int value then "INTEGER"
  else if isinstance_float value then "REAL"
  else if isDictOrList value then "REFERENCE"
  else "TEXT"

/-! ## Storage-engine and registry state -/

/-- Failure modes of the modelled storage engine, plus the Python-level
failures the engine code can hit (`AttributeError` from calling `.items()` on
a non-dict, `ValueError` from a non-array top level) and the fuel sentinel
(never reachable from the exported wrappers, which supply sufficient fuel). -/
inductive SqlError where
  | duplicateColumn (t c : String)
  | noSuchTable (t : String)
  | noSuchColumn (t c : String)
  | attributeError
  | valueError
  | fuelExhausted
deriving DecidableEq, Repr

/-- One SQLite table: its ordered column list (name, declared type), its rows
(rowid paired with the explicitly inserted cells) and the AUTOINCREMENT
counter that yields the next rowid. -/
structure Table where
  cols : List (String × String)
  rows : List (Int × List (String × JValue))
  nextId : Int
deriving DecidableEq, Repr

/-- Full converter state: the database (`tables`) plus the in-memory
`known_tables` registry mapping each table name to the column names the
converter has recorded for it. -/
structure ConvState where
  tables : List (String × Table)
  known : List (String × List String)
deriving DecidableEq, Repr

/-- State of a fresh converter on a fresh database. -/
def initState : ConvState := ⟨[], []⟩

/-- Association-list lookup (first binding wins, like a Python dict). -/
def lookupA {α : Type} : List (String × α) → String → Option α
  | [], _ => none
  | (k, v) :: rest, t => if k = t then some v else lookupA rest t

/-- Association-list update in place (no-op when the key is absent). -/
def updateA {α : Type} : List (String × α) → String → α → List (String × α)
  | [], _, _ => []
  | (k, v) :: rest, t, w => if k = t then (k, w) :: rest else (k, v) :: updateA rest t w

/-- Names of the tables present in the database. -/
def tableNames (s : ConvState) : List String := s.tables.map Prod.fst

/-- Column names of a table value. -/
def colNames (tb : Table) : List String := tb.cols.map Prod.fst

/-- Column names of a database table (empty when the table is absent). -/
def db_col_names (s : ConvState) (t : String) : List String :=
  match lookupA s.tables t with
  | some tb => colNames tb
  | none => []

/-- Declared (name, type) column pairs of a database table. -/
def db_cols (s : ConvState) (t : String) : List (String × String) :=
  match lookupA s.tables t with
  | some tb => tb.cols
  | none => []

/-- Table names recorded in the `known_tables` registry. -/
def known_table_names (s : ConvState) : List String := s.known.map Prod.fst

/-- Column names recorded in the registry for a table. -/
def known_cols (s : ConvState) (t : String) : List String :=
  (lookupA s.known t).getD []

/-- Number of rows of a database table (0 when the table is absent). -/
def row_count (s : ConvState) (t : String) : Nat :=
  match lookupA s.tables t with
  | some tb => tb.rows.length
  | none => 0

/-- Rows of a database table (empty when the table is absent). -/
def table_rows (s : ConvState) (t : String) : List (Int × List (String × JValue)) :=
  match lookupA s.tables t with
  | some tb => tb.rows
  | none => []

/-- Storage-engine `CREATE TABLE IF NOT EXISTS`: registers a fresh empty
table with the given columns, or does nothing if the name already exists. -/
def db_create_table_if_not_exists (s : ConvState) (t : String)
    (cols : List (String × String)) : ConvState :=
  match lookupA s.tables t with
  | some _ => s
  | none => { s with tables := s.tables ++ [(t, ⟨cols, [], 1⟩)] }

/-- Storage-engine `ALTER TABLE ... ADD COLUMN`: fails with a distinguishable
duplicate-column condition when the column exists, and with a missing-table
condition when the table does not. -/
def db_add_column (s : ConvState) (t c ty : String) : ConvState × Except SqlError Unit :=
  match lookupA s.tables t with
  | none => (s, .error (.noSuchTable t))
  | some tb =>
    if decide (c ∈ colNames tb) then (s, .error (.duplicateColumn t c))
    else ({ s with tables := updateA s.tables t ({ tb with cols := tb.cols ++ [(c, ty)] }) },
          .ok ())

/-- Storage-engine parameterized `INSERT` (an empty cell list models
`INSERT ... DEFAULT VALUES`): every named column must exist; on success the
row is appended and the fresh AUTOINCREMENT rowid is returned. -/
def db_insert_row (s : ConvState) (t : String) (cells : List (String × JValue)) :
    ConvState × Except SqlError Int :=
  match lookupA s.tables t with
  | none => (s, .error (.noSuchTable t))
  | some tb =>
    match (cells.map Prod.fst).find? (fun c => !decide (c ∈ colNames tb)) with
    | some c => (s, .error (.noSuchColumn t c))
    | none =>
      let tb' := { tb with rows := tb.rows ++ [(tb.nextId, cells)], nextId := tb.nextId + 1 }
      ({ s with tables := updateA s.tables t tb' }, .ok tb.nextId)

/-- Registers a table in `known_tables` with an empty column set
(`self.known_tables[table_name] = set()`). -/
def register_table (s : ConvState) (t : String) : ConvState :=
  { s with known := s.known ++ [(t, [])] }

/-- Records a column in the registry (`self.known_tables[table_name].add`). -/
def add_known_col (s : ConvState) (t c : String) : ConvState :=
  match lookupA s.known t with
  | some cols => { s with known := updateA s.known t (cols ++ [c]) }
  | none => s

/-- Model of the `try`/`except` around `ALTER TABLE ... ADD COLUMN`
(source lines 106-114): a successful add also records the column in the
registry; a duplicate-column failure is swallowed (without recording the
column); every other failure propagates. -/
def try_add_column (s : ConvState) (tbl col ty : String) : ConvState × Except SqlError Unit :=
  match db_add_column s tbl col ty with
  | (s', .ok _) => (add_known_col s' tbl col, .ok ())
  | (s', .error (.duplicateColumn _ _)) => (s', .ok ())
  | (s', .error e) => (s', .error e)

/-! ## Parent-reference column computation -/

/-- Left-greedy split on the two-character separator `__`, exactly Python's
`s.split('__')`. -/
def split_dunder : List Char → List (List Char)
  | [] => [[]]
  | [c] => [[c]]
  | c :: d :: rest =>
    if c = '_' ∧ d = '_' then [] :: split_dunder rest
    else
      match split_dunder (d :: rest) with
      | [] => [[c]]
      | p :: ps => (c :: p) :: ps

/-- Join with the separator `__`, exactly Python's `'__'.join(parts)`. -/
def join_dunder : List (List Char) → List Char
  | [] => []
  | [p] => p
  | p :: q :: ps => p ++ '_' :: '_' :: join_dunder (q :: ps)

/-- The parent-reference column name `_insert_data` uses at insertion time
(source lines 139-140 and 154-155):
`'__'.join(table_name.split('__')[:-1]) + '_id'`. -/
def parent_ref_col (tbl : String) : String :=
  String.mk (join_dunder (split_dunder tbl.data).dropLast) ++ "_id"

/-! ## Field partitioning (`_insert_data` lines 120-129) -/

/-- Python dict assignment `d[k] = v`: overwrites the value in place when the
key exists (keeping its position), else appends. -/
def upsert : List (String × JValue) → String → JValue → List (String × JValue)
  | [], k, v => [(k, v)]
  | (k', v') :: rest, k, v =>
    if k' = k then (k, v) :: rest else (k', v') :: upsert rest k v

/-- Loop of `_insert_data` building `simple_data` and `nested_data`, keyed by
sanitized column name. -/
def partition_go (simple nested : List (String × JValue)) :
    List (String × JValue) → List (String × JValue) × List (String × JValue)
  | [] => (simple, nested)
  | (k, v) :: rest =>
    let col := sanitize_name k
    if isDictOrList v then partition_go simple (upsert nested col v) rest
    else partition_go (upsert simple col v) nested rest

/-- Separates a document's fields into `(simple_data, nested_data)`. -/
def partition_fields (fields : List (String × JValue)) :
    List (String × JValue) × List (String × JValue) :=
  partition_go [] [] fields

/-! ## Size measures (fuel bounds for the recursive engine functions) -/

mutual
/-- Size of a field list (strictly positive). -/
def sizeF : List (String × JValue) → Nat
  | [] => 1
  | (_, v) :: rest => 1 + sizeV v + sizeF rest
/-- Size of a value (strictly positive). -/
def sizeV : JValue → Nat
  | .obj fields => 1 + sizeF fields
  | .arr elems => 1 + sizeE elems
  | _ => 1
/-- Size of an element list (strictly positive). -/
def sizeE : List JValue → Nat
  | [] => 1
  | e :: es => 1 + sizeV e + sizeE es
end

/-! ## Schema registry (`_create_table_if_not_exists`) -/

/-- Columns passed to `CREATE TABLE`: the synthetic primary key plus, when a
parent is given, the parent-reference column `{parent_table}_id` (source
lines 71-75). -/
def base_cols (parent : Option String) : List (String × String) :=
  ("row__id", "INTEGER PRIMARY KEY AUTOINCREMENT") ::
    (match parent with
     | some p => [(p ++ "_id", "INTEGER")]
     | none => [])

mutual
/-- Fueled model of `JsonToSqlite._create_table_if_not_exists`. The table
name is sanitized; an unseen table is registered and created with the
synthetic primary key plus, when a parent is given, the parent-reference
column `{parent_table}_id`; then every field is processed. Calling it on a
non-dict value models Python raising `AttributeError` at `data.items()`
(after the table-creation step, matching the statement order). -/
def create_table_fuel : Nat → ConvState → String → JValue → Option String →
    ConvState × Except SqlError Unit
  | 0, s, _, _, _ => (s, .error .fuelExhausted)
  | n+1, s, tableName, data, parent =>
    let tbl := sanitize_name tableName
    let s1 :=
      if decide (tbl ∈ known_table_names s) then s
      else db_create_table_if_not_exists (register_table s tbl) tbl (base_cols parent)
    match data with
    | .obj fields => ensure_fields_fuel n s1 tbl fields
    | _ => (s1, .error .attributeError)
/-- Fueled model of the field loop of `_create_table_if_not_exists` (source
lines 84-114): a field whose sanitized name is already known is skipped; a
`REFERENCE`-classified value recurses into the child table (for an array,
only when it is non-empty with a dict first element, using that element as
the representative schema); otherwise the column is added via the
duplicate-tolerant `ALTER TABLE`. -/
def ensure_fields_fuel : Nat → ConvState → String → List (String × JValue) →
    ConvState × Except SqlError Unit
  | 0, s, _, _ => (s, .error .fuelExhausted)
  | _+1, s, _, [] => (s, .ok ())
  | n+1, s, tbl, (k, v) :: rest =>
    let col := sanitize_name k
    if decide (col ∈ known_cols s tbl) then ensure_fields_fuel n s tbl rest
    else if get_sqlite_type v = "REFERENCE" then
      match v with
      | .obj _ =>
        match create_table_fuel n s (tbl ++ "__" ++ col) v (some tbl) with
        | (s', .ok _) => ensure_fields_fuel n s' tbl rest
        | (s', .error e) => (s', .error e)
      | .arr (e0 :: _) =>
        if isDict e0 then
          match create_table_fuel n s (tbl ++ "__" ++ col) e0 (some tbl) with
          | (s', .ok _) => ensure_fields_fuel n s' tbl rest
          | (s', .error e) => (s', .error e)
        else ensure_fields_fuel n s tbl rest
      | _ => ensure_fields_fuel n s tbl rest
    else
      match try_add_column s tbl col (get_sqlite_type v) with
      | (s', .ok _) => ensure_fields_fuel n s' tbl rest
      | (s', .error e) => (s', .error e)
end

/-- Model of `JsonToSqlite._create_table_if_not_exists` with sufficient fuel. -/
def create_table_if_not_exists (s : ConvState) (tableName : String) (data : JValue)
    (parent : Option String) : ConvState × Except SqlError Unit :=
  create_table_fuel (sizeV data) s tableName data parent

/-! ## Record writer (`_insert_data`) -/

/-- The row-insertion step of `_insert_data` (source lines 131-165): with
scalar fields, insert them, appending the parent-reference column and the
parent id when a parent id is given; with no scalar fields, insert a
parent-reference-only row, or a `DEFAULT VALUES` row at the root. -/
def insert_row_step (s : ConvState) (tbl : String) (simple : List (String × JValue))
    (parentId : Option Int) : ConvState × Except SqlError Int :=
  match simple with
  | [] =>
    match parentId with
    | some pid => db_insert_row s tbl [(parent_ref_col tbl, .int pid)]
    | none => db_insert_row s tbl []
  | _ :: _ =>
    match parentId with
    | some pid => db_insert_row s tbl (simple ++ [(parent_ref_col tbl, .int pid)])
    | none => db_insert_row s tbl simple

mutual
/-- Fueled model of `JsonToSqlite._insert_data`: sanitize the table name,
partition the fields, insert the row, then recurse into the nested values
using the fresh rowid as parent id. Mutations made before a failure persist
(no per-record rollback), and the failure propagates to the caller. Calling
it on a non-dict value models Python raising `AttributeError` at
`data.items()` before any insertion. -/
def insert_data_fuel : Nat → ConvState → String → JValue → Option Int →
    ConvState × Except SqlError Int
  | 0, s, _, _, _ => (s, .error .fuelExhausted)
  | n+1, s, tableName, data, parentId =>
    let tbl := sanitize_name tableName
    match data with
    | .obj fields =>
      let parts := partition_fields fields
      match insert_row_step s tbl parts.1 parentId with
      | (s1, .error e) => (s1, .error e)
      | (s1, .ok rid) =>
        match insert_nested_fuel n s1 tbl rid parts.2 with
        | (s2, .error e) => (s2, .error e)
        | (s2, .ok _) => (s2, .ok rid)
    | _ => (s, .error .attributeError)
/-- Fueled model of the nested-data loop of `_insert_data` (source lines
167-174): a dict gets one recursive insert; a non-empty array with a dict
first element gets one recursive insert per element in order; anything else
is skipped. -/
def insert_nested_fuel : Nat → ConvState → String → Int → List (String × JValue) →
    ConvState × Except SqlError Unit
  | 0, s, _, _, _ => (s, .error .fuelExhausted)
  | _+1, s, _, _, [] => (s, .ok ())
  | n+1, s, tbl, rid, (col, v) :: rest =>
    let child := tbl ++ "__" ++ col
    match v with
    | .obj _ =>
      match insert_data_fuel n s child v (some rid) with
      | (s', .ok _) => insert_nested_fuel n s' tbl rid rest
      | (s', .error e) => (s', .error e)
    | .arr (e0 :: es) =>
      if isDict e0 then
        match insert_each_fuel n s child rid (e0 :: es) with
        | (s', .ok _) => insert_nested_fuel n s' tbl rid rest
        | (s', .error e) => (s', .error e)
      else insert_nested_fuel n s tbl rid rest
    | _ => insert_nested_fuel n s tbl rid rest
/-- Per-element loop (`for item in value: self._insert_data(...)`): stops at
the first failing element, propagating its error. -/
def insert_each_fuel : Nat → ConvState → String → Int → List JValue →
    ConvState × Except SqlError Unit
  | 0, s, _, _, _ => (s, .error .fuelExhausted)
  | _+1, s, _, _, [] => (s, .ok ())
  | n+1, s, child, rid, e :: es =>
    match insert_data_fuel n s child e (some rid) with
    | (s', .ok _) => insert_each_fuel n s' child rid es
    | (s', .error er) => (s', .error er)
end

/-- Model of `JsonToSqlite._insert_data` with sufficient fuel. -/
def insert_data (s : ConvState) (tableName : String) (data : JValue)
    (parentId : Option Int) : ConvState × Except SqlError Int :=
  insert_data_fuel (sizeV data) s tableName data parentId

/-! ## Ingestion drivers -/

/-- Schema pass of `_process_json_file` (source lines 207-209): plain loop
with no per-item protection, so a failure aborts the pass and propagates. -/
def schema_pass_array (s : ConvState) (root : String) :
    List JValue → ConvState × Except SqlError Unit
  | [] => (s, .ok ())
  | d :: ds =>
    match create_table_if_not_exists s root d none with
    | (s', .ok _) => schema_pass_array s' root ds
    | (s', .error _e) => (s', .error _e)

/-- Write pass of `_process_json_file` (source lines 212-216): each item's
failure is caught and logged, and the loop continues. -/
def write_pass_array (s : ConvState) (root : String) : List JValue → ConvState
  | [] => s
  | d :: ds => write_pass_array (insert_data s root d none).1 root ds

/-- Model of `JsonToSqlite._process_json_file` on the parsed input: a
non-array top level raises `ValueError`; otherwise the schema pass runs to
completion over every element (propagating any failure), and only then the
write pass runs. -/
def process_json_file (s : ConvState) (root : String) (data : JValue) :
    ConvState × Except SqlError Unit :=
  match data with
  | .arr items =>
    match schema_pass_array s root items with
    | (s', .error e) => (s', .error e)
    | (s', .ok _) => (write_pass_array s' root items, .ok ())
  | _ => (s, .error .valueError)

/-- Schema pass of `_process_jsonlines_file` (source lines 235-243): each
line is parsed independently (`none` models a line that fails to parse) and
any per-line failure, parse or otherwise, is caught and skipped. -/
def schema_pass_lines (s : ConvState) (root : String) : List (Option JValue) → ConvState
  | [] => s
  | none :: ls => schema_pass_lines s root ls
  | some d :: ls => schema_pass_lines (create_table_if_not_exists s root d none).1 root ls

/-- Write pass of `_process_jsonlines_file` (source lines 246-254): parse
failures and write failures are caught and skipped. -/
def write_pass_lines (s : ConvState) (root : String) : List (Option JValue) → ConvState
  | [] => s
  | none :: ls => write_pass_lines s root ls
  | some d :: ls => write_pass_lines (insert_data s root d none).1 root ls

/-- Model of `JsonToSqlite._process_jsonlines_file`: the full schema pass
over every line, then the full write pass over the same lines. -/
def process_jsonlines_file (s : ConvState) (root : String)
    (lines : List (Option JValue)) : ConvState :=
  write_pass_lines (schema_pass_lines s root lines) root lines

/-- Input-shape detection of `process_file` (source lines 189-196): the
file's first character — `f.read(1)` — is compared with `[`; an empty file
yields the empty string, which also fails the comparison. -/
def detects_array (text : List Char) : Bool :=
  match text with
  | c :: _ => c == '['
  | [] => false

/-- Python's `str.isspace` on the ASCII whitespace characters. -/
def py_isspace (c : Char) : Bool :=
  c == ' ' || c == '\t' || c == '\n' || c == '\r' || c == '\x0b' || c == '\x0c'

/-- First non-whitespace character of a stream. Modelled from the spec:
sections 4.4 and 6 describe detection as peeking the first non-whitespace
byte; this definition exists to compare that description with the source's
`detects_array`. -/
def first_non_ws : List Char → Option Char
  | [] => none
  | c :: rest => if py_isspace c then first_non_ws rest else some c

instance {ε α : Type} [DecidableEq ε] [DecidableEq α] : DecidableEq (Except ε α) := fun x y =>
  match x, y with
  | .ok a, .ok b =>
    if h : a = b then isTrue (by rw [h]) else isFalse (by intro hc; cases hc; exact h rfl)
  | .error a, .error b =>
    if h : a = b then isTrue (by rw [h]) else isFalse (by intro hc; cases hc; exact h rfl)
  | .ok _, .error _ => isFalse (by intro hc; cases hc)
  | .error _, .ok _ => isFalse (by intro hc; cases hc)

/-! ## Static analysis of documents (used to state the claims) -/

/-- String prefix test, written out to keep every helper executable. -/
def leads : List Char → List Char → Bool
  | [], _ => true
  | _ :: _, [] => false
  | a :: as, b :: bs => a == b && leads as bs

/-- `str_leads a b` holds when `a` is a prefix of the string `b`. -/
def str_leads (a b : String) : Bool := leads a.data b.data

/-- Does the character list contain two consecutive underscores? -/
def has_dunder : List Char → Bool
  | [] => false
  | [_] => false
  | c :: d :: rest => (c == '_' && d == '_') || has_dunder (d :: rest)

/-- Is every character a fixed point of the sanitizer's character map? -/
def chars_fixed (t : String) : Bool := t.data.all (fun c => sanitize_char c == c)

theorem one_le_sizeF (l : List (String × JValue)) : 1 ≤ sizeF l := by
  cases l <;> simp [sizeF] <;> omega

theorem one_le_sizeV (v : JValue) : 1 ≤ sizeV v := by
  cases v <;> simp [sizeV] <;> omega

theorem one_le_sizeE (l : List JValue) : 1 ≤ sizeE l := by
  cases l <;> simp [sizeE] <;> omega

theorem sizeF_upsert (l : List (String × JValue)) (k : String) (v : JValue) :
    sizeF (upsert l k v) ≤ sizeF l + 1 + sizeV v := by
  induction l with
  | nil =>
    simp [upsert, sizeF]
    omega
  | cons kv rest ih =>
    obtain ⟨k', v'⟩ := kv
    by_cases hk : k' = k
    · simp only [upsert, if_pos hk, sizeF]
      have := one_le_sizeV v'
      omega
    · simp only [upsert, if_neg hk, sizeF]
      omega

theorem sizeF_partition_go (fields : List (String × JValue)) :
    ∀ simple nested,
    sizeF (partition_go simple nested fields).1 ≤ sizeF simple + sizeF fields - 1 ∧
    sizeF (partition_go simple nested fields).2 ≤ sizeF nested + sizeF fields - 1 := by
  induction fields with
  | nil =>
    intro simple nested
    simp [partition_go, sizeF]
  | cons kv rest ih =>
    intro simple nested
    obtain ⟨k, v⟩ := kv
    simp only [partition_go, sizeF]
    by_cases hc : isDictOrList v = true
    · rw [if_pos hc]
      obtain ⟨h1, h2⟩ := ih simple (upsert nested (sanitize_name k) v)
      have hu := sizeF_upsert nested (sanitize_name k) v
      have := one_le_sizeF rest
      constructor <;> omega
    · rw [if_neg hc]
      obtain ⟨h1, h2⟩ := ih (upsert simple (sanitize_name k) v) nested
      have hu := sizeF_upsert simple (sanitize_name k) v
      have := one_le_sizeF rest
      constructor <;> omega

theorem sizeF_partition_nested (fields : List (String × JValue)) :
    sizeF (partition_fields fields).2 ≤ sizeF fields := by
  have h := (sizeF_partition_go fields [] []).2
  simp only [sizeF] at h
  unfold partition_fields
  omega

theorem sizeF_partition_simple (fields : List (String × JValue)) :
    sizeF (partition_fields fields).1 ≤ sizeF fields := by
  have h := (sizeF_partition_go fields [] []).1
  simp only [sizeF] at h
  unfold partition_fields
  omega

mutual
/-- Raw field occurrences of a document relative to a table path: one triple
`(table, sanitized column, composite?)` per field in document order, where
`composite?` is true exactly for the values the engine decomposes into a
child table (a dict, or a non-empty array with a dict first element);
dropped arrays yield no occurrence. -/
def occs_fields (tbl : String) : List (String × JValue) → List (String × String × Bool)
  | [] => []
  | (k, v) :: rest =>
    (match v with
     | .obj g => (tbl, sanitize_name k, true) ::
         occs_fields (tbl ++ "__" ++ sanitize_name k) g
     | .arr (e0 :: es) =>
       if isDict e0 then
         (tbl, sanitize_name k, true) ::
           (occs_val (tbl ++ "__" ++ sanitize_name k) e0 ++
             occs_elems (tbl ++ "__" ++ sanitize_name k) es)
       else []
     | .arr [] => []
     | _ => [(tbl, sanitize_name k, false)]) ++ occs_fields tbl rest
/-- Occurrences contributed by one element of a decomposed array. -/
def occs_val (child : String) : JValue → List (String × String × Bool)
  | .obj g => occs_fields child g
  | _ => []
/-- Occurrences contributed by the remaining elements of a decomposed
array. -/
def occs_elems (child : String) : List JValue → List (String × String × Bool)
  | [] => []
  | e :: es => occs_val child e ++ occs_elems child es
end

/-- Raw occurrences of one document rooted at `root`. -/
def doc_occs (root : String) (d : JValue) : List (String × String × Bool) :=
  match d with
  | .obj fields => occs_fields root fields
  | _ => []

/-- Raw occurrences of a whole input array. -/
def all_occs (root : String) (ds : List JValue) : List (String × String × Bool) :=
  ds.flatMap (doc_occs root)

/-- No table/column position is presented both as a scalar and as a
decomposed composite anywhere in the occurrence list. -/
def no_conflict (occs : List (String × String × Bool)) : Prop :=
  ∀ o ∈ occs, o.2.2 = false → (o.1, o.2.1, true) ∉ occs

instance (occs : List (String × String × Bool)) : Decidable (no_conflict occs) := by
  unfold no_conflict
  infer_instance

mutual
/-- Child tables the write pass will target from the nested entries of one
row, in processing order (following `_insert_data`'s nested loop, including
every element of a decomposed array). -/
def demands_nested (tbl : String) : List (String × JValue) → List String
  | [] => []
  | (col, v) :: rest =>
    (match v with
     | .obj g => (tbl ++ "__" ++ col) :: demands_obj (tbl ++ "__" ++ col) g
     | .arr (e0 :: es) =>
       if isDict e0 then
         (tbl ++ "__" ++ col) :: demands_elems (tbl ++ "__" ++ col) (e0 :: es)
       else []
     | _ => []) ++ demands_nested tbl rest
  termination_by l => sizeF l
  decreasing_by all_goals (simp [sizeF, sizeV, sizeE]; try omega)
/-- Child tables demanded when a document is written into a table. -/
def demands_obj (tbl : String) (fields : List (String × JValue)) : List String :=
  demands_nested tbl (partition_fields fields).2
  termination_by 1 + sizeF fields
  decreasing_by
    have := sizeF_partition_nested fields
    omega
/-- Child tables demanded by the elements of a decomposed array. -/
def demands_elems (child : String) : List JValue → List String
  | [] => []
  | e :: es =>
    (match e with
     | .obj g => demands_obj child g
     | _ => []) ++ demands_elems child es
  termination_by l => sizeE l
  decreasing_by all_goals (simp [sizeF, sizeV, sizeE]; try omega)
end

/-- Every child table `write_record` will target while writing document `d`
into the table `root` (transitively, for all nesting depths). -/
def write_demands (root : String) (d : JValue) : List String :=
  match d with
  | .obj fields => demands_obj root fields
  | _ => []

/-- Settledness of a field list at a table: every field is either already
recorded in the registry, or present in the database and registry in the
form the schema pass would (re-)establish — scalar columns exist in the
database, decomposed child tables are registered and recursively settled.
Running the schema pass on a settled document changes nothing. -/
inductive Settled (s : ConvState) : String → List (String × JValue) → Prop where
  | nil (tbl : String) : Settled s tbl []
  | cons_known (tbl k : String) (v : JValue) (rest : List (String × JValue))
      (hk : sanitize_name k ∈ known_cols s tbl) (hrest : Settled s tbl rest) :
      Settled s tbl ((k, v) :: rest)
  | cons_obj (tbl k : String) (g rest : List (String × JValue))
      (ht : tbl ++ "__" ++ sanitize_name k ∈ known_table_names s)
      (hg : Settled s (tbl ++ "__" ++ sanitize_name k) g)
      (hrest : Settled s tbl rest) :
      Settled s tbl ((k, .obj g) :: rest)
  | cons_arr_obj (tbl k : String) (g : List (String × JValue)) (es : List JValue)
      (rest : List (String × JValue))
      (ht : tbl ++ "__" ++ sanitize_name k ∈ known_table_names s)
      (hg : Settled s (tbl ++ "__" ++ sanitize_name k) g)
      (hrest : Settled s tbl rest) :
      Settled s tbl ((k, .arr (.obj g :: es)) :: rest)
  | cons_arr_skip (tbl k : String) (elems : List JValue) (rest : List (String × JValue))
      (hskip : elems = [] ∨ ∀ e0 es, elems = e0 :: es → isDict e0 = false)
      (hrest : Settled s tbl rest) :
      Settled s tbl ((k, .arr elems) :: rest)
  | cons_scalar (tbl k : String) (v : JValue) (rest : List (String × JValue))
      (hv : isDictOrList v = false)
      (hc : sanitize_name k ∈ db_col_names s tbl)
      (hrest : Settled s tbl rest) :
      Settled s tbl ((k, v) :: rest)

mutual
/-- Array-uniformity: every decomposed array in the document (at any depth)
has all its elements equal to its first element. -/
def uniform_fields : List (String × JValue) → Bool
  | [] => true
  | (_, v) :: rest => uniform_val v && uniform_fields rest
/-- Array-uniformity of a single value. -/
def uniform_val : JValue → Bool
  | .obj g => uniform_fields g
  | .arr (e0 :: es) =>
    if isDict e0 then es.all (fun e => e == e0) && uniform_val e0
    else true
  | _ => true
end

/-- Array-uniformity of a document. -/
def doc_uniform (d : JValue) : Bool :=
  match d with
  | .obj fields => uniform_fields fields
  | _ => true

/-- Is the value a Python dict (JSON object)? Prop form of `isDict`. -/
def is_doc (d : JValue) : Prop := isDict d = true

/-- The registry is consistent with the database: every known table exists
and every known column exists in it. -/
def wf_state (s : ConvState) : Bool :=
  s.known.all fun kt =>
    decide (kt.1 ∈ tableNames s) &&
      kt.2.all fun c => decide (c ∈ db_col_names s kt.1)

/-- Number of input lines that parsed successfully to a JSON object. -/
def count_obj_lines (lines : List (Option JValue)) : Nat :=
  (lines.filter fun l =>
    match l with
    | some (.obj _) => true
    | _ => false).length

/-! ## Association-list lemmas -/

theorem lookupA_append_of_some {α : Type} {l : List (String × α)} {u : String} {v : α}
    (t : String) (x : α) (h : lookupA l u = some v) :
    lookupA (l ++ [(t, x)]) u = some v := by
  induction l with
  | nil => simp [lookupA] at h
  | cons kv rest ih =>
    obtain ⟨k, w⟩ := kv
    by_cases hk : k = u <;> simp_all [lookupA]

theorem lookupA_append_of_none {α : Type} {l : List (String × α)} {u : String}
    (t : String) (x : α) (h : lookupA l u = none) :
    lookupA (l ++ [(t, x)]) u = if t = u then some x else none := by
  induction l with
  | nil => simp [lookupA]
  | cons kv rest ih =>
    obtain ⟨k, w⟩ := kv
    by_cases hk : k = u <;> simp_all [lookupA]

theorem updateA_keys {α : Type} (l : List (String × α)) (t : String) (x : α) :
    (updateA l t x).map Prod.fst = l.map Prod.fst := by
  induction l with
  | nil => simp [updateA]
  | cons kv rest ih =>
    obtain ⟨k, w⟩ := kv
    by_cases hk : k = t <;> simp_all [updateA]

theorem lookupA_updateA_self {α : Type} {l : List (String × α)} {t : String} {v : α}
    (x : α) (h : lookupA l t = some v) :
    lookupA (updateA l t x) t = some x := by
  induction l with
  | nil => simp [lookupA] at h
  | cons kv rest ih =>
    obtain ⟨k, w⟩ := kv
    by_cases hk : k = t <;> simp_all [lookupA, updateA]

theorem lookupA_updateA_ne {α : Type} {l : List (String × α)} {t u : String}
    (x : α) (h : u ≠ t) :
    lookupA (updateA l t x) u = lookupA l u := by
  induction l with
  | nil => simp [updateA]
  | cons kv rest ih =>
    obtain ⟨k, w⟩ := kv
    by_cases hk : k = t
    · subst hk
      have hku : ¬ k = u := fun hc => h (hc.symm)
      simp [updateA, lookupA, hku]
    · by_cases hu : k = u <;> simp_all [updateA, lookupA]

theorem updateA_of_none {α : Type} {l : List (String × α)} {t : String}
    (x : α) (h : lookupA l t = none) :
    updateA l t x = l := by
  induction l with
  | nil => simp [updateA]
  | cons kv rest ih =>
    obtain ⟨k, w⟩ := kv
    by_cases hk : k = t <;> simp_all [lookupA, updateA]

theorem lookupA_none_iff_keys {α : Type} (l : List (String × α)) (u : String) :
    lookupA l u = none ↔ u ∉ l.map Prod.fst := by
  induction l with
  | nil => simp [lookupA]
  | cons kv rest ih =>
    obtain ⟨k, w⟩ := kv
    by_cases hk : k = u
    · subst hk
      simp [lookupA]
    · have hku : ¬ u = k := fun hc => hk (hc.symm)
      simp [lookupA, hk, hku, ih]

theorem lookupA_some_of_mem_keys {α : Type} {l : List (String × α)} {u : String}
    (h : u ∈ l.map Prod.fst) : ∃ v, lookupA l u = some v := by
  rcases hl : lookupA l u with _ | v
  · exact absurd ((lookupA_none_iff_keys l u).mp hl) (not_not_intro h)
  · exact ⟨v, rfl⟩

theorem mem_keys_of_lookupA_some {α : Type} {l : List (String × α)} {u : String} {v : α}
    (h : lookupA l u = some v) : u ∈ l.map Prod.fst := by
  by_contra hc
  rw [(lookupA_none_iff_keys l u).mpr hc] at h
  cases h

/-! ## Lemmas on the split and join of `__`-separated paths -/

theorem split_dunder_ne_nil : ∀ (l : List Char), split_dunder l ≠ []
  | [] => by simp [split_dunder]
  | [c] => by simp [split_dunder]
  | c :: d :: rest => by
    rw [split_dunder]
    by_cases h : c = '_' ∧ d = '_'
    · simp [h]
    · simp only [if_neg h]
      rcases hs : split_dunder (d :: rest) with _ | ⟨p, ps⟩ <;> simp

theorem split_dunder_no_dunder : ∀ {l : List Char}, has_dunder l = false → split_dunder l = [l]
  | [], _ => rfl
  | [c], _ => rfl
  | c :: d :: rest, h => by
    rw [has_dunder] at h
    simp only [Bool.or_eq_false_iff, Bool.and_eq_false_iff, beq_eq_false_iff_ne] at h
    have hcd : ¬ (c = '_' ∧ d = '_') := by
      rcases h.1 with hc | hd
      · exact fun hand => hc hand.1
      · exact fun hand => hd hand.2
    rw [split_dunder, if_neg hcd, split_dunder_no_dunder h.2]

/-- Whether the character list ends with an underscore. -/
def last_underscore : List Char → Bool
  | [] => false
  | [c] => c == '_'
  | _ :: d :: rest => last_underscore (d :: rest)

theorem last_underscore_tail {c d : Char} {rest : List Char}
    (h : last_underscore (c :: d :: rest) = false) :
    last_underscore (d :: rest) = false := h

theorem split_dunder_append :
    ∀ {P : List Char}, last_underscore P = false →
    ∀ {f : List Char}, has_dunder f = false →
    split_dunder (P ++ '_' :: '_' :: f) = split_dunder P ++ [f]
  | [], _, f, hf => by
    simp [split_dunder, split_dunder_no_dunder hf]
  | [c], hP, f, hf => by
    have hc : ¬ c = '_' := by
      simp [last_underscore] at hP
      exact hP
    simp [split_dunder, split_dunder_no_dunder hf, hc]
  | c :: d :: rest, hP, f, hf => by
    have hdr : last_underscore (d :: rest) = false := last_underscore_tail hP
    rw [List.cons_append, List.cons_append, split_dunder]
    by_cases hcd : c = '_' ∧ d = '_'
    · obtain ⟨hc, hd⟩ := hcd
      subst hc
      subst hd
      have hrne : rest ≠ [] := by
        intro hr
        subst hr
        simp [last_underscore] at hP
      have hrlast : last_underscore rest = false := by
        cases rest with
        | nil => exact absurd rfl hrne
        | cons a as => exact hdr
      rw [if_pos ⟨rfl, rfl⟩, split_dunder_append hrlast hf, split_dunder, if_pos ⟨rfl, rfl⟩]
      rfl
    · rw [if_neg hcd]
      have ihd := split_dunder_append hdr hf (f := f)
      rw [List.cons_append] at ihd
      rw [ihd]
      rcases hs : split_dunder (d :: rest) with _ | ⟨q, qs⟩
      · exact absurd hs (split_dunder_ne_nil (d :: rest))
      · rw [split_dunder, if_neg hcd, hs]
        rfl

theorem join_dunder_split : ∀ (l : List Char), join_dunder (split_dunder l) = l
  | [] => rfl
  | [c] => rfl
  | c :: d :: rest => by
    rw [split_dunder]
    by_cases hcd : c = '_' ∧ d = '_'
    · obtain ⟨hc, hd⟩ := hcd
      subst hc
      subst hd
      rw [if_pos ⟨rfl, rfl⟩]
      rcases hs : split_dunder rest with _ | ⟨q, qs⟩
      · exact absurd hs (split_dunder_ne_nil rest)
      · have ih := join_dunder_split rest
        rw [hs] at ih
        rw [join_dunder, List.nil_append, ih]
    · rw [if_neg hcd]
      have ih := join_dunder_split (d :: rest)
      rcases hs : split_dunder (d :: rest) with _ | ⟨q, qs⟩
      · exact absurd hs (split_dunder_ne_nil (d :: rest))
      · rw [hs] at ih
        cases qs with
        | nil =>
          rw [join_dunder] at ih
          rw [join_dunder, ih]
        | cons q' qs' =>
          rw [join_dunder] at ih
          rw [join_dunder, List.cons_append, ih]

theorem string_mk_data (P : String) : String.mk P.data = P := by
  cases P
  rfl

theorem parent_ref_col_append {P f : String} (hP : last_underscore P.data = false)
    (hf : has_dunder f.data = false) :
    parent_ref_col (P ++ "__" ++ f) = P ++ "_id" := by
  have hd : (P ++ "__" ++ f).data = P.data ++ '_' :: '_' :: f.data := by
    rw [String.data_append, String.data_append, List.append_assoc]
    rfl
  unfold parent_ref_col
  rw [hd, split_dunder_append hP hf, List.dropLast_concat, join_dunder_split,
    string_mk_data]

theorem db_insert_row_ok {s : ConvState} {t : String} {cells : List (String × JValue)}
    {s' : ConvState} {rid : Int} (h : db_insert_row s t cells = (s', .ok rid)) :
    table_rows s' t = table_rows s t ++ [(rid, cells)] ∧
    (∀ u, u ≠ t → table_rows s' u = table_rows s u) ∧
    db_cols s' t = db_cols s t ∧
    (∀ u, u ≠ t → db_cols s' u = db_cols s u) ∧
    tableNames s' = tableNames s ∧ s'.known = s.known := by
  unfold db_insert_row at h
  split at h
  · simp at h
  · rename_i tb hl
    split at h
    · simp at h
    · simp only [Prod.mk.injEq] at h
      obtain ⟨hs', hrid⟩ := h
      have hrid' : rid = tb.nextId := by
        cases hrid
        rfl
      subst hs'
      subst hrid'
      refine ⟨?_, ?_, ?_, ?_, ?_, rfl⟩
      · simp only [table_rows, lookupA_updateA_self _ hl, hl]
      · intro u hu
        simp only [table_rows, lookupA_updateA_ne _ hu]
      · simp only [db_cols, lookupA_updateA_self _ hl, hl]
      · intro u hu
        simp only [db_cols, lookupA_updateA_ne _ hu]
      · simp only [tableNames, updateA_keys]

theorem db_insert_row_error {s : ConvState} {t : String} {cells : List (String × JValue)}
    {s' : ConvState} {e : SqlError} (h : db_insert_row s t cells = (s', .error e)) :
    s' = s := by
  unfold db_insert_row at h
  split at h
  · simp only [Prod.mk.injEq] at h
    exact h.1.symm
  · rename_i tb hl
    split at h
    · simp only [Prod.mk.injEq] at h
      exact h.1.symm
    · simp at h

/-! ## Claim C2: the parent-reference column -/

/-- Claim C2 counterexample: for the field name `a!!b` (sanitized to `a__b`)
nested under the root, the parent-reference column declared at
table-creation time is `root_id`, but at insertion time `_insert_data`
reconstructs the parent path by splitting on `__` and uses `root__a_id`, so
the child insertion fails with a missing-column error: the column name used
at insertion time differs from the one declared at creation time. -/
theorem c2_counterexample :
    db_cols (create_table_if_not_exists initState "root"
        (.obj [("a!!b", .obj [("x", .int 1)])]) none).1 "root__a__b" =
      [("row__id", "INTEGER PRIMARY KEY AUTOINCREMENT"), ("root_id", "INTEGER"),
       ("x", "INTEGER")] ∧
    parent_ref_col "root__a__b" = "root__a_id" ∧
    (insert_data (create_table_if_not_exists initState "root"
        (.obj [("a!!b", .obj [("x", .int 1)])]) none).1 "root"
        (.obj [("a!!b", .obj [("x", .int 1)])]) none).2 =
      .error (.noSuchColumn "root__a__b" "root__a_id") := by
  refine ⟨by decide, by decide, by decide⟩

/-- Claim C2 as amended: for every child table `{P}__{f}` whose parent path
`P` does not end in an underscore and whose sanitized field name `f` contains
no two consecutive underscores, the parent-reference column used at
insertion time equals the one declared at table-creation time, namely
`{P}_id`; and every row inserted for such a child carries the cell
`({P}_id, parent_row_id)`. For sanitized names violating these conditions
(that is, names containing `__`), the reconstruction
`'__'.join(table_name.split('__')[:-1]) + '_id'` breaks the equality, as the
counterexample shows. -/
theorem c2_theorem (P f : String) (s s' : ConvState)
    (simple : List (String × JValue)) (pid : Int) (rid : Int)
    (hP : last_underscore P.data = false) (hf : has_dunder f.data = false) :
    parent_ref_col (P ++ "__" ++ f) = P ++ "_id" ∧
    (insert_row_step s (P ++ "__" ++ f) simple (some pid) = (s', .ok rid) →
      ∃ cells,
        table_rows s' (P ++ "__" ++ f) = table_rows s (P ++ "__" ++ f) ++ [(rid, cells)] ∧
        (P ++ "_id", JValue.int pid) ∈ cells) := by
  have href := parent_ref_col_append hP hf
  refine ⟨href, ?_⟩
  intro hstep
  unfold insert_row_step at hstep
  cases simple with
  | nil =>
    refine ⟨[(parent_ref_col (P ++ "__" ++ f), .int pid)],
      (db_insert_row_ok hstep).1, ?_⟩
    rw [href]
    simp
  | cons kv rest =>
    refine ⟨(kv :: rest) ++ [(parent_ref_col (P ++ "__" ++ f), .int pid)],
      (db_insert_row_ok hstep).1, ?_⟩
    rw [href]
    simp

/-- Witness for C2 (amended) at the parent path `root` and field `addr`. -/
theorem c2_witness : parent_ref_col ("root" ++ "__" ++ "addr") = "root" ++ "_id" := by
  have h := c2_theorem "root" "addr" initState initState [] 0 0 (by decide) (by decide)
  exact h.1

/-! ## Claim C7: the identifier sanitizer -/

/-- Claim C7: the identifier sanitizer is a pure function that, for every
input string, replaces every non-alphanumeric character with an underscore
and then, if the result compared case-insensitively is a reserved word of the
storage engine, prefixes it with an underscore; in particular `select` maps
to `_select` and `a-b!c` maps to `a_b_c`. The first conjunct compares the
transcription of the source with the sanitizer re-stated from the
specification's words; the remaining conjuncts are the claim's examples. -/
theorem c7_theorem :
    (∀ name : String, sanitize_name name = sanitize_spec name) ∧
    sanitize_name "select" = "_select" ∧
    sanitize_name "a-b!c" = "a_b_c" := by
  refine ⟨fun name => rfl, by decide, by decide⟩

/-! ## Claim C8: the value type classifier -/

/-- Claim C8: the classifier checks boolean before integer, so every boolean
value is classified `BOOLEAN` and never `INTEGER`, even though the host
language's boolean passes the integer `isinstance` test; and every object and
every array is classified composite (`REFERENCE`). -/
theorem c8_theorem :
    (∀ b : Bool, isinstance_int (.bool b) = true ∧
      get_sqlite_type (.bool b) = "BOOLEAN" ∧ get_sqlite_type (.bool b) ≠ "INTEGER") ∧
    (∀ fields, get_sqlite_type (.obj fields) = "REFERENCE") ∧
    (∀ elems, get_sqlite_type (.arr elems) = "REFERENCE") := by
  refine ⟨fun b => ⟨rfl, rfl, ?_⟩, fun fields => rfl, fun elems => rfl⟩
  intro h
  have : ("BOOLEAN" : String) = "INTEGER" := h
  simp at this

/-! ## Claim C10: null and other residual values are stored as TEXT -/

/-- Claim C10: every value that is not a boolean, integer, real, object or
array — that is, JSON null and strings — is classified `TEXT`; hence a field
whose first observed value is null fixes the column's declared type to
`TEXT`, and null values are inserted into the row as ordinary scalar
values. -/
theorem c10_theorem :
    (∀ v : JValue, (v = .null ∨ ∃ sv, v = .str sv) → get_sqlite_type v = "TEXT") ∧
    db_cols (create_table_if_not_exists initState "root"
        (.obj [("f", .null)]) none).1 "root" =
      [("row__id", "INTEGER PRIMARY KEY AUTOINCREMENT"), ("f", "TEXT")] ∧
    table_rows (insert_data (create_table_if_not_exists initState "root"
        (.obj [("f", .null)]) none).1 "root" (.obj [("f", .null)]) none).1 "root" =
      [(1, [("f", .null)])] := by
  refine ⟨?_, by decide, by decide⟩
  rintro v (rfl | ⟨sv, rfl⟩) <;> rfl

/-- Witness for C10 at the concrete input `null`. -/
theorem c10_witness : get_sqlite_type .null = "TEXT" :=
  c10_theorem.1 .null (Or.inl rfl)

/-! ## Claim C6: input-shape detection -/

/-- Claim C6 counterexample: on the input text `" [...]"` — whose first
non-whitespace character is `[` — the source's detection (`f.read(1)`, the
first character) does not select array processing, contradicting the claim
that detection inspects the first non-whitespace character for every input
file, including files whose first byte is whitespace. -/
theorem c6_counterexample :
    first_non_ws (' ' :: '[' :: ']' :: []) = some '[' ∧
    detects_array (' ' :: '[' :: ']' :: []) = false := by decide

/-- Claim C6 as amended: input shape is detected by inspecting the first
character of the input stream (with no whitespace skipping): the input is
processed as a single JSON array exactly when the very first character is
`[`; otherwise — including for an empty file or a file whose first byte is
whitespace — it is processed as newline-delimited documents. -/
theorem c6_theorem : ∀ text : List Char,
    detects_array text = true ↔ (∃ rest, text = '[' :: rest) := by
  intro text
  cases text with
  | nil => simp [detects_array]
  | cons c rest => simp [detects_array]

/-- Witness for C6 (amended) at a concrete array-shaped input. -/
theorem c6_witness : detects_array ('[' :: ']' :: []) = true :=
  (c6_theorem ('[' :: ']' :: [])).mpr ⟨(']' :: []), rfl⟩

/-! ## Sanitizer support lemmas -/

theorem mem_reserved_iff (y : String) :
    reserved_keywords.contains y = true ↔ y ∈ reserved_keywords := by
  simp [List.contains]

theorem py_isalnum_underscore : py_isalnum '_' = false := by decide

theorem sanitize_char_idem (c : Char) :
    sanitize_char (sanitize_char c) = sanitize_char c := by
  by_cases h : py_isalnum c = true <;>
    simp [sanitize_char, h, py_isalnum_underscore]

theorem chars_fixed_append (a b : String) (ha : chars_fixed a = true)
    (hb : chars_fixed b = true) : chars_fixed (a ++ b) = true := by
  simp only [chars_fixed, String.data_append, List.all_append, Bool.and_eq_true]
  exact ⟨ha, hb⟩

theorem chars_fixed_mapped (l : List Char) :
    chars_fixed (String.mk (l.map sanitize_char)) = true := by
  simp only [chars_fixed, List.all_map]
  rw [List.all_eq_true]
  intro c _
  simp [Function.comp, sanitize_char_idem]

theorem map_id_of_chars_fixed {t : String} (h : chars_fixed t = true) :
    t.data.map sanitize_char = t.data := by
  simp only [chars_fixed, List.all_eq_true] at h
  have : ∀ c ∈ t.data, sanitize_char c = c := by
    intro c hc
    have := h c hc
    simpa using this
  calc t.data.map sanitize_char = t.data.map id := List.map_congr_left this
    _ = t.data := List.map_id t.data

theorem chars_fixed_sanitize (name : String) :
    chars_fixed (sanitize_name name) = true := by
  unfold sanitize_name
  by_cases h : reserved_keywords.contains
      (py_lower (String.mk (name.data.map sanitize_char))) = true
  · simp only [h, if_true]
    exact chars_fixed_append _ _ (by decide) (chars_fixed_mapped name.data)
  · simp only [h, if_false, Bool.false_eq_true]
    exact chars_fixed_mapped name.data

set_option maxRecDepth 4000 in
theorem reserved_no_dunder : ∀ w ∈ reserved_keywords, has_dunder w.data = false := by
  decide

set_option maxRecDepth 4000 in
theorem reserved_head_ne_underscore :
    ∀ w ∈ reserved_keywords, w.data.head? ≠ some '_' := by
  decide

theorem py_lower_char_underscore : py_lower_char '_' = '_' := by decide

theorem has_dunder_map_lower : ∀ {l : List Char}, has_dunder l = true →
    has_dunder (l.map py_lower_char) = true
  | [], h => by simp [has_dunder] at h
  | [c], h => by simp [has_dunder] at h
  | c :: d :: rest, h => by
    rw [has_dunder] at h
    simp only [Bool.or_eq_true, Bool.and_eq_true, beq_iff_eq] at h
    rw [List.map_cons, List.map_cons, has_dunder]
    rcases h with ⟨hc, hd⟩ | h
    · subst hc
      subst hd
      simp [py_lower_char_underscore]
    · have ih := has_dunder_map_lower h
      rw [List.map_cons] at ih
      simp [ih]

theorem has_dunder_append_sep : ∀ (a b : List Char), has_dunder (a ++ '_' :: '_' :: b) = true
  | [], b => by simp [has_dunder]
  | [c], b => by
    rw [List.cons_append, List.nil_append, has_dunder]
    simp [has_dunder]
  | c :: d :: rest, b => by
    rw [List.cons_append, List.cons_append, has_dunder]
    have ih := has_dunder_append_sep (d :: rest) b
    rw [List.cons_append] at ih
    simp [ih]

theorem sanitize_of_fixed_dunder {t : String} (hf : chars_fixed t = true)
    (hd : has_dunder t.data = true) : sanitize_name t = t := by
  unfold sanitize_name
  rw [map_id_of_chars_fixed hf, string_mk_data]
  have hc : ¬ reserved_keywords.contains (py_lower t) = true := by
    intro hcc
    have hmem := (mem_reserved_iff _).mp hcc
    have hld : has_dunder (py_lower t).data = true := by
      unfold py_lower
      exact has_dunder_map_lower hd
    have := reserved_no_dunder _ hmem
    rw [this] at hld
    cases hld
  rw [if_neg hc]

theorem sanitize_head_result (x : String) :
    sanitize_name x = String.mk (x.data.map sanitize_char) ∨
    sanitize_name x = "_" ++ String.mk (x.data.map sanitize_char) := by
  unfold sanitize_name
  by_cases h : reserved_keywords.contains
      (py_lower (String.mk (x.data.map sanitize_char))) = true
  · rw [if_pos h]
    exact Or.inr rfl
  · rw [if_neg h]
    exact Or.inl rfl

theorem not_reserved_head_underscore (m : String) :
    ¬ reserved_keywords.contains (py_lower ("_" ++ m)) = true := by
  intro hcc
  have hmem := (mem_reserved_iff _).mp hcc
  have hhead : (py_lower ("_" ++ m)).data.head? = some '_' := by
    unfold py_lower
    rw [String.data_append]
    cases m with
    | mk l =>
      simp [py_lower_char_underscore]
  exact reserved_head_ne_underscore _ hmem hhead

theorem underscore_append_ne (m : String) : "_" ++ m ≠ m := by
  intro he
  have hlen := congrArg (fun z : String => z.data.length) he
  simp only [String.data_append] at hlen
  have : ("_" : String).data.length = 1 := rfl
  rw [List.length_append, this] at hlen
  omega

theorem sanitize_fixed_not_reserved {y : String} (hf : chars_fixed y = true)
    (hr : ¬ reserved_keywords.contains (py_lower y) = true) :
    sanitize_name y = y := by
  unfold sanitize_name
  rw [map_id_of_chars_fixed hf, string_mk_data]
  rw [if_neg hr]

theorem sanitize_idem (x : String) :
    sanitize_name (sanitize_name x) = sanitize_name x := by
  have hfix : chars_fixed (sanitize_name x) = true := chars_fixed_sanitize x
  apply sanitize_fixed_not_reserved hfix
  rcases sanitize_head_result x with hform | hform
  · rw [hform]
    intro hcc
    have hcase : sanitize_name x = "_" ++ String.mk (x.data.map sanitize_char) := by
      unfold sanitize_name
      rw [if_pos hcc]
    rw [hform] at hcase
    exact underscore_append_ne _ hcase.symm
  · rw [hform]
    exact not_reserved_head_underscore _

theorem child_sanitize_fixed {tbl col : String} (ht : chars_fixed tbl = true)
    (hc : chars_fixed col = true) :
    sanitize_name (tbl ++ "__" ++ col) = tbl ++ "__" ++ col := by
  apply sanitize_of_fixed_dunder
  · exact chars_fixed_append _ _ (chars_fixed_append _ _ ht (by decide)) hc
  · have hd : (tbl ++ "__" ++ col).data = tbl.data ++ '_' :: '_' :: col.data := by
      rw [String.data_append, String.data_append, List.append_assoc]
      rfl
    rw [hd]
    exact has_dunder_append_sep _ _

/-! ## Registry well-formedness and state monotonicity -/

theorem lookupA_mem {α : Type} : ∀ {l : List (String × α)} {u : String} {v : α},
    lookupA l u = some v → (u, v) ∈ l
  | [], _, _, h => by simp [lookupA] at h
  | (k, w) :: rest, u, v, h => by
    rw [lookupA] at h
    by_cases hk : k = u
    · rw [if_pos hk] at h
      cases h
      subst hk
      exact List.mem_cons_self _ _
    · rw [if_neg hk] at h
      exact List.mem_cons_of_mem _ (lookupA_mem h)

theorem mem_updateA {α : Type} : ∀ {l : List (String × α)} {t : String} {w : α} {kt},
    kt ∈ updateA l t w → kt ∈ l ∨ kt = (t, w)
  | [], _, _, _, h => by simp [updateA] at h
  | (k, v) :: rest, t, w, kt, h => by
    rw [updateA] at h
    by_cases hk : k = t
    · rw [if_pos hk] at h
      subst hk
      rcases List.mem_cons.mp h with h1 | h1
      · exact Or.inr h1
      · exact Or.inl (List.mem_cons_of_mem _ h1)
    · rw [if_neg hk] at h
      rcases List.mem_cons.mp h with h1 | h1
      · exact Or.inl (h1 ▸ List.mem_cons_self _ _)
      · rcases mem_updateA h1 with h2 | h2
        · exact Or.inl (List.mem_cons_of_mem _ h2)
        · exact Or.inr h2

theorem known_cols_spec {s : ConvState} {t c : String} (h : c ∈ known_cols s t) :
    ∃ cols, lookupA s.known t = some cols ∧ c ∈ cols := by
  unfold known_cols at h
  rcases hl : lookupA s.known t with _ | cols
  · rw [hl] at h
    simp at h
  · rw [hl] at h
    exact ⟨cols, rfl, h⟩

theorem wf_spec {s : ConvState} (hwf : wf_state s = true) {t : String}
    {cols : List String} (hmem : (t, cols) ∈ s.known) :
    t ∈ tableNames s ∧ ∀ c ∈ cols, c ∈ db_col_names s t := by
  rw [wf_state, List.all_eq_true] at hwf
  have := hwf (t, cols) hmem
  simp only [Bool.and_eq_true, decide_eq_true_eq, List.all_eq_true] at this
  exact ⟨this.1, fun c hc => by
    have := this.2 c hc
    simpa using this⟩

theorem wf_known_col {s : ConvState} {t c : String} (hwf : wf_state s = true)
    (h : c ∈ known_cols s t) : c ∈ db_col_names s t := by
  obtain ⟨cols, hl, hc⟩ := known_cols_spec h
  exact (wf_spec hwf (lookupA_mem hl)).2 c hc

theorem wf_known_tbl {s : ConvState} {t : String} (hwf : wf_state s = true)
    (h : t ∈ known_table_names s) : t ∈ tableNames s := by
  obtain ⟨cols, hl⟩ := lookupA_some_of_mem_keys h
  exact (wf_spec hwf (lookupA_mem hl)).1

/-- Monotone evolution of the converter state along a schema-pass step:
tables, columns and the registry only grow, and no rows change. -/
def step_mono (s s' : ConvState) : Prop :=
  (∀ t, t ∈ tableNames s → t ∈ tableNames s') ∧
  (∀ t c, c ∈ db_col_names s t → c ∈ db_col_names s' t) ∧
  (∀ t, t ∈ known_table_names s → t ∈ known_table_names s') ∧
  (∀ t c, c ∈ known_cols s t → c ∈ known_cols s' t) ∧
  (∀ t, table_rows s' t = table_rows s t)

theorem step_mono_refl (s : ConvState) : step_mono s s :=
  ⟨fun _ h => h, fun _ _ h => h, fun _ h => h, fun _ _ h => h, fun _ => rfl⟩

theorem step_mono_trans {s s' s'' : ConvState} (h1 : step_mono s s')
    (h2 : step_mono s' s'') : step_mono s s'' :=
  ⟨fun t h => h2.1 t (h1.1 t h),
   fun t c h => h2.2.1 t c (h1.2.1 t c h),
   fun t h => h2.2.2.1 t (h1.2.2.1 t h),
   fun t c h => h2.2.2.2.1 t c (h1.2.2.2.1 t c h),
   fun t => (h2.2.2.2.2 t).trans (h1.2.2.2.2 t)⟩

theorem wf_entry_transfer {s s' : ConvState} (hwf : wf_state s = true)
    (hmono : step_mono s s')
    (hkn : ∀ kt ∈ s'.known, kt ∈ s.known ∨
      (kt.1 ∈ tableNames s' ∧ ∀ c ∈ kt.2, c ∈ db_col_names s' kt.1)) :
    wf_state s' = true := by
  rw [wf_state, List.all_eq_true]
  intro kt hkt
  simp only [Bool.and_eq_true, decide_eq_true_eq, List.all_eq_true]
  rcases hkn kt hkt with hold | hnew
  · have := wf_spec hwf hold
    exact ⟨hmono.1 _ this.1, fun c hc => by
      have := this.2 c hc
      simp [hmono.2.1 _ _ this]⟩
  · exact ⟨hnew.1, fun c hc => by simp [hnew.2 c hc]⟩

theorem db_col_names_of_some {s : ConvState} {t : String} {tb : Table}
    (h : lookupA s.tables t = some tb) : db_col_names s t = colNames tb := by
  unfold db_col_names
  rw [h]

theorem db_col_names_of_none {s : ConvState} {t : String}
    (h : lookupA s.tables t = none) : db_col_names s t = [] := by
  unfold db_col_names
  rw [h]

theorem table_rows_of_some {s : ConvState} {t : String} {tb : Table}
    (h : lookupA s.tables t = some tb) : table_rows s t = tb.rows := by
  unfold table_rows
  rw [h]

theorem table_rows_of_none {s : ConvState} {t : String}
    (h : lookupA s.tables t = none) : table_rows s t = [] := by
  unfold table_rows
  rw [h]

theorem known_cols_of_some {s : ConvState} {t : String} {cols : List String}
    (h : lookupA s.known t = some cols) : known_cols s t = cols := by
  unfold known_cols
  rw [h]
  rfl

theorem known_cols_of_none {s : ConvState} {t : String}
    (h : lookupA s.known t = none) : known_cols s t = [] := by
  unfold known_cols
  rw [h]
  rfl

/-- Characterization of the register-then-create step taken by
`_create_table_if_not_exists` on an unseen table. -/
theorem register_create_spec (s : ConvState) (tbl : String) (cols : List (String × String))
    (hwf : wf_state s = true) (hnk : tbl ∉ known_table_names s) :
    step_mono s (db_create_table_if_not_exists (register_table s tbl) tbl cols) ∧
    wf_state (db_create_table_if_not_exists (register_table s tbl) tbl cols) = true ∧
    tbl ∈ tableNames (db_create_table_if_not_exists (register_table s tbl) tbl cols) ∧
    tbl ∈ known_table_names (db_create_table_if_not_exists (register_table s tbl) tbl cols) ∧
    known_cols (db_create_table_if_not_exists (register_table s tbl) tbl cols) tbl = [] ∧
    (∀ t, t ∈ tableNames (db_create_table_if_not_exists (register_table s tbl) tbl cols) →
      t ∈ tableNames s ∨ t = tbl) ∧
    (∀ t, t ≠ tbl →
      db_col_names (db_create_table_if_not_exists (register_table s tbl) tbl cols) t =
        db_col_names s t) ∧
    (∀ t, t ≠ tbl →
      known_cols (db_create_table_if_not_exists (register_table s tbl) tbl cols) t =
        known_cols s t) := by
  have hnkl : lookupA s.known tbl = none := (lookupA_none_iff_keys _ _).mpr hnk
  have hklook : ∀ t, lookupA (s.known ++ [(tbl, [])]) t =
      match lookupA s.known t with
      | some v => some v
      | none => if tbl = t then some [] else none := by
    intro t
    rcases hl : lookupA s.known t with _ | v
    · exact lookupA_append_of_none _ _ hl
    · exact lookupA_append_of_some _ _ hl
  rcases hdb : lookupA s.tables tbl with _ | tb
  · -- the table is absent from the database: it is appended
    have hs1 : db_create_table_if_not_exists (register_table s tbl) tbl cols =
        ⟨s.tables ++ [(tbl, (⟨cols, [], 1⟩ : Table))], s.known ++ [(tbl, [])]⟩ := by
      unfold db_create_table_if_not_exists register_table
      simp only [hdb]
    rw [hs1]
    have hlook : ∀ t, lookupA (s.tables ++ [(tbl, (⟨cols, [], 1⟩ : Table))]) t =
        match lookupA s.tables t with
        | some v => some v
        | none => if tbl = t then some (⟨cols, [], 1⟩ : Table) else none := by
      intro t
      rcases hl : lookupA s.tables t with _ | v
      · exact lookupA_append_of_none _ _ hl
      · exact lookupA_append_of_some _ _ hl
    have htabs_names : tableNames (⟨s.tables ++ [(tbl, (⟨cols, [], 1⟩ : Table))],
        s.known ++ [(tbl, [])]⟩ : ConvState) = tableNames s ++ [tbl] := by
      show (s.tables ++ [(tbl, (⟨cols, [], 1⟩ : Table))]).map Prod.fst = _
      rw [List.map_append]
      rfl
    have hknames : known_table_names (⟨s.tables ++ [(tbl, (⟨cols, [], 1⟩ : Table))],
        s.known ++ [(tbl, [])]⟩ : ConvState) = known_table_names s ++ [tbl] := by
      show (s.known ++ [(tbl, [])]).map Prod.fst = _
      rw [List.map_append]
      rfl
    have hkc_other : ∀ t, t ≠ tbl →
        known_cols (⟨s.tables ++ [(tbl, (⟨cols, [], 1⟩ : Table))],
          s.known ++ [(tbl, [])]⟩ : ConvState) t = known_cols s t := by
      intro t ht
      have hne : ¬ tbl = t := fun hc => ht hc.symm
      show (lookupA (s.known ++ [(tbl, [])]) t).getD [] = _
      rw [hklook t]
      rcases hl : lookupA s.known t with _ | v
      · simp [hne, known_cols_of_none hl]
      · simp [known_cols_of_some hl]
    have hdbc_other : ∀ t, t ≠ tbl →
        db_col_names (⟨s.tables ++ [(tbl, (⟨cols, [], 1⟩ : Table))],
          s.known ++ [(tbl, [])]⟩ : ConvState) t = db_col_names s t := by
      intro t ht
      have hne : ¬ tbl = t := fun hc => ht hc.symm
      show db_col_names _ t = _
      unfold db_col_names
      show (match lookupA (s.tables ++ [(tbl, (⟨cols, [], 1⟩ : Table))]) t with
        | some tb => colNames tb
        | none => []) = _
      rw [hlook t]
      rcases hl : lookupA s.tables t with _ | v
      · simp [hne]
      · rfl
    have hrows : ∀ t, table_rows (⟨s.tables ++ [(tbl, (⟨cols, [], 1⟩ : Table))],
        s.known ++ [(tbl, [])]⟩ : ConvState) t = table_rows s t := by
      intro t
      unfold table_rows
      show (match lookupA (s.tables ++ [(tbl, (⟨cols, [], 1⟩ : Table))]) t with
        | some tb => tb.rows
        | none => []) = _
      rw [hlook t]
      rcases hl : lookupA s.tables t with _ | v
      · by_cases ht : tbl = t <;> simp [ht]
      · rfl
    have hmono : step_mono s (⟨s.tables ++ [(tbl, (⟨cols, [], 1⟩ : Table))],
        s.known ++ [(tbl, [])]⟩ : ConvState) := by
      refine ⟨?_, ?_, ?_, ?_, hrows⟩
      · intro t ht
        rw [htabs_names]
        exact List.mem_append_left _ ht
      · intro t c hc
        by_cases ht : t = tbl
        · subst ht
          rw [db_col_names_of_none hdb] at hc
          simp at hc
        · rw [hdbc_other t ht]
          exact hc
      · intro t ht
        rw [hknames]
        exact List.mem_append_left _ ht
      · intro t c hc
        by_cases ht : t = tbl
        · subst ht
          rw [known_cols_of_none hnkl] at hc
          simp at hc
        · rw [hkc_other t ht]
          exact hc
    have htblmem : tbl ∈ tableNames (⟨s.tables ++ [(tbl, (⟨cols, [], 1⟩ : Table))],
        s.known ++ [(tbl, [])]⟩ : ConvState) := by
      rw [htabs_names]
      exact List.mem_append_right _ (by simp)
    refine ⟨hmono, ?_, htblmem, ?_, ?_, ?_, hdbc_other, hkc_other⟩
    · apply wf_entry_transfer hwf hmono
      intro kt hkt
      rcases List.mem_append.mp hkt with hold | hnew
      · exact Or.inl hold
      · simp at hnew
        subst hnew
        exact Or.inr ⟨htblmem, by simp⟩
    · rw [hknames]
      exact List.mem_append_right _ (by simp)
    · show (lookupA (s.known ++ [(tbl, [])]) tbl).getD [] = []
      rw [hklook tbl, hnkl]
      simp
    · intro t ht
      rw [htabs_names] at ht
      rcases List.mem_append.mp ht with h1 | h1
      · exact Or.inl h1
      · simp at h1
        exact Or.inr h1
  · -- the table already exists in the database: CREATE IF NOT EXISTS is a no-op
    have hs1 : db_create_table_if_not_exists (register_table s tbl) tbl cols =
        ⟨s.tables, s.known ++ [(tbl, [])]⟩ := by
      unfold db_create_table_if_not_exists register_table
      simp only [hdb]
    rw [hs1]
    have hknames : known_table_names (⟨s.tables, s.known ++ [(tbl, [])]⟩ : ConvState) =
        known_table_names s ++ [tbl] := by
      show (s.known ++ [(tbl, [])]).map Prod.fst = _
      rw [List.map_append]
      rfl
    have hkc_other : ∀ t, t ≠ tbl →
        known_cols (⟨s.tables, s.known ++ [(tbl, [])]⟩ : ConvState) t = known_cols s t := by
      intro t ht
      have hne : ¬ tbl = t := fun hc => ht hc.symm
      show (lookupA (s.known ++ [(tbl, [])]) t).getD [] = _
      rw [hklook t]
      rcases hl : lookupA s.known t with _ | v
      · simp [hne, known_cols_of_none hl]
      · simp [known_cols_of_some hl]
    have htblmem : tbl ∈ tableNames (⟨s.tables, s.known ++ [(tbl, [])]⟩ : ConvState) :=
      mem_keys_of_lookupA_some hdb
    have hmono : step_mono s (⟨s.tables, s.known ++ [(tbl, [])]⟩ : ConvState) := by
      refine ⟨fun t ht => ht, fun t c hc => hc, ?_, ?_, fun t => rfl⟩
      · intro t ht
        rw [hknames]
        exact List.mem_append_left _ ht
      · intro t c hc
        by_cases ht : t = tbl
        · subst ht
          rw [known_cols_of_none hnkl] at hc
          simp at hc
        · rw [hkc_other t ht]
          exact hc
    refine ⟨hmono, ?_, htblmem, ?_, ?_, fun t ht => Or.inl ht, fun t _ => rfl, hkc_other⟩
    · apply wf_entry_transfer hwf hmono
      intro kt hkt
      rcases List.mem_append.mp hkt with hold | hnew
      · exact Or.inl hold
      · simp at hnew
        subst hnew
        exact Or.inr ⟨htblmem, by simp⟩
    · rw [hknames]
      exact List.mem_append_right _ (by simp)
    · show (lookupA (s.known ++ [(tbl, [])]) tbl).getD [] = []
      rw [hklook tbl, hnkl]
      simp

/-- Characterization of the duplicate-tolerant `ALTER TABLE ... ADD COLUMN`
step: on an existing table it always succeeds, the column is present
afterwards, no rows change, and a duplicate add leaves the state exactly
unchanged. -/
theorem try_add_column_spec (s : ConvState) (tbl col ty : String)
    (hwf : wf_state s = true) (htbl : tbl ∈ tableNames s) :
    ∃ s', try_add_column s tbl col ty = (s', .ok ()) ∧
      step_mono s s' ∧ wf_state s' = true ∧
      tableNames s' = tableNames s ∧
      known_table_names s' = known_table_names s ∧
      col ∈ db_col_names s' tbl ∧
      (∀ t, t ≠ tbl → db_col_names s' t = db_col_names s t) ∧
      (∀ u, u ∈ db_col_names s' tbl → u ∈ db_col_names s tbl ∨ u = col) ∧
      (col ∈ db_col_names s tbl → s' = s) := by
  obtain ⟨tb, hdb⟩ := lookupA_some_of_mem_keys htbl
  by_cases hc : col ∈ colNames tb
  · -- duplicate column: swallowed, state unchanged
    have heq : try_add_column s tbl col ty = (s, .ok ()) := by
      unfold try_add_column db_add_column
      simp only [hdb]
      rw [if_pos (by simp [hc])]
    refine ⟨s, heq, step_mono_refl s, hwf, rfl, rfl, ?_, fun t _ => rfl,
      fun u hu => Or.inl hu, fun _ => rfl⟩
    rw [db_col_names_of_some hdb]
    exact hc
  · -- fresh column: added to the table and recorded in the registry
    have hadd : db_add_column s tbl col ty =
        ((⟨updateA s.tables tbl ({ tb with cols := tb.cols ++ [(col, ty)] }),
          s.known⟩ : ConvState), .ok ()) := by
      unfold db_add_column
      simp only [hdb]
      rw [if_neg (by simp [hc])]
    have hdb2 : lookupA (updateA s.tables tbl ({ tb with cols := tb.cols ++ [(col, ty)] }))
        tbl = some ({ tb with cols := tb.cols ++ [(col, ty)] }) :=
      lookupA_updateA_self _ hdb
    have hmk : ∀ kn : List (String × List String),
        (⟨updateA s.tables tbl ({ tb with cols := tb.cols ++ [(col, ty)] }), kn⟩ :
          ConvState).tables =
        updateA s.tables tbl ({ tb with cols := tb.cols ++ [(col, ty)] }) := fun _ => rfl
    have hcols2 : ∀ (s2 : ConvState),
        s2.tables = updateA s.tables tbl ({ tb with cols := tb.cols ++ [(col, ty)] }) →
        db_col_names s2 tbl = colNames tb ++ [col] := by
      intro s2 h2
      unfold db_col_names
      rw [h2, hdb2]
      show colNames ({ tb with cols := tb.cols ++ [(col, ty)] }) = _
      unfold colNames
      rw [List.map_append]
      rfl
    have hcols_other : ∀ (s2 : ConvState),
        s2.tables = updateA s.tables tbl ({ tb with cols := tb.cols ++ [(col, ty)] }) →
        ∀ t, t ≠ tbl → db_col_names s2 t = db_col_names s t := by
      intro s2 h2 t ht
      unfold db_col_names
      rw [h2, lookupA_updateA_ne _ ht]
    have hrows2 : ∀ (s2 : ConvState),
        s2.tables = updateA s.tables tbl ({ tb with cols := tb.cols ++ [(col, ty)] }) →
        ∀ t, table_rows s2 t = table_rows s t := by
      intro s2 h2 t
      by_cases ht : t = tbl
      · subst ht
        unfold table_rows
        rw [h2, hdb2, hdb]
      · unfold table_rows
        rw [h2, lookupA_updateA_ne _ ht]
    have htn2 : ∀ (s2 : ConvState),
        s2.tables = updateA s.tables tbl ({ tb with cols := tb.cols ++ [(col, ty)] }) →
        tableNames s2 = tableNames s := by
      intro s2 h2
      show s2.tables.map Prod.fst = s.tables.map Prod.fst
      rw [h2, updateA_keys]
    have hmono_tabs : ∀ (s2 : ConvState),
        s2.tables = updateA s.tables tbl ({ tb with cols := tb.cols ++ [(col, ty)] }) →
        (∀ t, t ∈ tableNames s → t ∈ tableNames s2) ∧
        (∀ t c, c ∈ db_col_names s t → c ∈ db_col_names s2 t) := by
      intro s2 h2
      constructor
      · intro t ht
        rw [htn2 s2 h2]
        exact ht
      · intro t c hcc
        by_cases ht : t = tbl
        · subst ht
          rw [hcols2 s2 h2]
          rw [db_col_names_of_some hdb] at hcc
          exact List.mem_append_left _ hcc
        · rw [hcols_other s2 h2 t ht]
          exact hcc
    rcases hkl : lookupA s.known tbl with _ | cols0
    · -- the registry has no binding for this table: `add_known_col` is a no-op
      have heq : try_add_column s tbl col ty =
          ((⟨updateA s.tables tbl ({ tb with cols := tb.cols ++ [(col, ty)] }),
            s.known⟩ : ConvState), .ok ()) := by
        unfold try_add_column
        rw [hadd]
        unfold add_known_col
        simp only [hkl]
      refine ⟨_, heq, ?_, ?_, htn2 _ (hmk s.known), rfl, ?_, hcols_other _ (hmk s.known),
        ?_, ?_⟩
      · obtain ⟨hm1, hm2⟩ := hmono_tabs _ (hmk s.known)
        exact ⟨hm1, hm2, fun t ht => ht, fun t c hcc => hcc, hrows2 _ (hmk s.known)⟩
      · apply wf_entry_transfer hwf
        · obtain ⟨hm1, hm2⟩ := hmono_tabs _ (hmk s.known)
          exact ⟨hm1, hm2, fun t ht => ht, fun t c hcc => hcc, hrows2 _ (hmk s.known)⟩
        · intro kt hkt
          exact Or.inl hkt
      · rw [hcols2 _ (hmk s.known)]
        exact List.mem_append_right _ (by simp)
      · intro u hu
        rw [hcols2 _ (hmk s.known)] at hu
        rcases List.mem_append.mp hu with h1 | h1
        · exact Or.inl (by rw [db_col_names_of_some hdb]; exact h1)
        · simp at h1
          exact Or.inr h1
      · intro hmem
        rw [db_col_names_of_some hdb] at hmem
        exact absurd hmem hc
    · -- the registry records the new column
      have heq : try_add_column s tbl col ty =
          (⟨updateA s.tables tbl ({ tb with cols := tb.cols ++ [(col, ty)] }),
            updateA s.known tbl (cols0 ++ [col])⟩, .ok ()) := by
        unfold try_add_column
        rw [hadd]
        unfold add_known_col
        simp only [hkl]
      have hk2 : lookupA (updateA s.known tbl (cols0 ++ [col])) tbl =
          some (cols0 ++ [col]) := lookupA_updateA_self _ hkl
      have hkc2 : ∀ t, t ≠ tbl →
          known_cols (⟨updateA s.tables tbl ({ tb with cols := tb.cols ++ [(col, ty)] }),
            updateA s.known tbl (cols0 ++ [col])⟩ : ConvState) t = known_cols s t := by
        intro t ht
        unfold known_cols
        show (lookupA (updateA s.known tbl (cols0 ++ [col])) t).getD [] = _
        rw [lookupA_updateA_ne _ ht]
      have hmono : step_mono s
          (⟨updateA s.tables tbl ({ tb with cols := tb.cols ++ [(col, ty)] }),
            updateA s.known tbl (cols0 ++ [col])⟩ : ConvState) := by
        obtain ⟨hm1, hm2⟩ := hmono_tabs _ (hmk (updateA s.known tbl (cols0 ++ [col])))
        refine ⟨hm1, hm2, ?_, ?_, hrows2 _ (hmk (updateA s.known tbl (cols0 ++ [col])))⟩
        · intro t ht
          show t ∈ (updateA s.known tbl (cols0 ++ [col])).map Prod.fst
          rw [updateA_keys]
          exact ht
        · intro t c hcc
          by_cases ht : t = tbl
          · subst ht
            obtain ⟨cs, hls, hcs⟩ := known_cols_spec hcc
            rw [hls] at hkl
            cases hkl
            rw [known_cols_of_some hk2]
            exact List.mem_append_left _ hcs
          · rw [hkc2 t ht]
            exact hcc
      refine ⟨_, heq, hmono, ?_, htn2 _ (hmk (updateA s.known tbl (cols0 ++ [col]))), ?_,
        ?_, hcols_other _ (hmk (updateA s.known tbl (cols0 ++ [col]))), ?_, ?_⟩
      · apply wf_entry_transfer hwf hmono
        intro kt hkt
        rcases mem_updateA hkt with hold | hnew
        · exact Or.inl hold
        · subst hnew
          refine Or.inr ⟨?_, ?_⟩
          · show tbl ∈ tableNames _
            rw [htn2 _ (hmk (updateA s.known tbl (cols0 ++ [col])))]
            exact htbl
          · intro c hcc
            rcases List.mem_append.mp hcc with h1 | h1
            · have hkmem := lookupA_mem hkl
              have := (wf_spec hwf hkmem).2 c h1
              exact hmono.2.1 tbl c this
            · simp at h1
              rw [h1, hcols2 _ (hmk (updateA s.known tbl (cols0 ++ [col])))]
              exact List.mem_append_right _ (by simp)
      · show (updateA s.known tbl (cols0 ++ [col])).map Prod.fst = s.known.map Prod.fst
        exact updateA_keys _ _ _
      · rw [hcols2 _ (hmk (updateA s.known tbl (cols0 ++ [col])))]
        exact List.mem_append_right _ (by simp)
      · intro u hu
        rw [hcols2 _ (hmk (updateA s.known tbl (cols0 ++ [col])))] at hu
        rcases List.mem_append.mp hu with h1 | h1
        · exact Or.inl (by rw [db_col_names_of_some hdb]; exact h1)
        · simp at h1
          exact Or.inr h1
      · intro hmem
        rw [db_col_names_of_some hdb] at hmem
        exact absurd hmem hc

theorem Settled.mono {s s' : ConvState} (hm : step_mono s s') :
    ∀ {tbl : String} {fields : List (String × JValue)},
    Settled s tbl fields → Settled s' tbl fields := by
  intro tbl fields h
  induction h with
  | nil tbl => exact .nil tbl
  | cons_known tbl k v rest hk _ ih =>
    exact .cons_known tbl k v rest (hm.2.2.2.1 _ _ hk) ih
  | cons_obj tbl k g rest ht _ _ ihg ihrest =>
    exact .cons_obj tbl k g rest (hm.2.2.1 _ ht) ihg ihrest
  | cons_arr_obj tbl k g es rest ht _ _ ihg ihrest =>
    exact .cons_arr_obj tbl k g es rest (hm.2.2.1 _ ht) ihg ihrest
  | cons_arr_skip tbl k elems rest hskip _ ih =>
    exact .cons_arr_skip tbl k elems rest hskip ih
  | cons_scalar tbl k v rest hv hc _ ih =>
    exact .cons_scalar tbl k v rest hv (hm.2.1 _ _ hc) ih

theorem get_ref_iff (v : JValue) :
    get_sqlite_type v = "REFERENCE" ↔ isDictOrList v = true := by
  cases v <;>
    simp [get_sqlite_type, isinstance_bool, isinstance_int, isinstance_float, isDictOrList]

/-- Main induction on the schema registry (`_create_table_if_not_exists` and
its field loop): with sufficient fuel and a well-formed starting state, the
pass never fails on a dict document, preserves well-formedness, grows tables,
columns and registry monotonically, changes no rows, leaves the processed
document settled, and materializes a column for every scalar field. -/
theorem schema_main : ∀ n : Nat,
    (∀ s tname data parent, sizeV data ≤ n → wf_state s = true →
      step_mono s (create_table_fuel n s tname data parent).1 ∧
      wf_state (create_table_fuel n s tname data parent).1 = true ∧
      sanitize_name tname ∈ tableNames (create_table_fuel n s tname data parent).1 ∧
      sanitize_name tname ∈ known_table_names (create_table_fuel n s tname data parent).1 ∧
      (∀ fields, data = .obj fields →
        (create_table_fuel n s tname data parent).2 = .ok () ∧
        Settled (create_table_fuel n s tname data parent).1 (sanitize_name tname) fields ∧
        (∀ k v, (k, v) ∈ fields → isDictOrList v = false →
          sanitize_name k ∈
            db_col_names (create_table_fuel n s tname data parent).1 (sanitize_name tname)))) ∧
    (∀ s tbl fields, sizeF fields ≤ n → wf_state s = true → tbl ∈ tableNames s →
      chars_fixed tbl = true →
      (ensure_fields_fuel n s tbl fields).2 = .ok () ∧
      step_mono s (ensure_fields_fuel n s tbl fields).1 ∧
      wf_state (ensure_fields_fuel n s tbl fields).1 = true ∧
      Settled (ensure_fields_fuel n s tbl fields).1 tbl fields ∧
      (∀ k v, (k, v) ∈ fields → isDictOrList v = false →
        sanitize_name k ∈ db_col_names (ensure_fields_fuel n s tbl fields).1 tbl)) := by
  intro n
  induction n with
  | zero =>
    constructor
    · intro s tname data parent hsz _
      exact absurd hsz (by have := one_le_sizeV data; omega)
    · intro s tbl fields hsz _ _ _
      exact absurd hsz (by have := one_le_sizeF fields; omega)
  | succ n ih =>
    obtain ⟨ihP, ihQ⟩ := ih
    constructor
    · -- create_table_fuel (n+1)
      intro s tname data parent hsz hwf
      have hfixt : chars_fixed (sanitize_name tname) = true := chars_fixed_sanitize tname
      -- characterize the registration step
      by_cases hkn : sanitize_name tname ∈ known_table_names s
      · -- already registered: the state is unchanged before the field loop
        have hs1 : ∀ d : JValue, create_table_fuel (n+1) s tname d parent =
            (match d with
             | .obj fields => ensure_fields_fuel n s (sanitize_name tname) fields
             | _ => (s, .error .attributeError)) := by
          intro d
          simp only [create_table_fuel]
          rw [if_pos (decide_eq_true hkn)]
        have htbl : sanitize_name tname ∈ tableNames s := wf_known_tbl hwf hkn
        cases data with
        | obj fields =>
          have hszf : sizeF fields ≤ n := by
            simp only [sizeV] at hsz
            omega
          have hq := ihQ s (sanitize_name tname) fields hszf hwf htbl hfixt
          rw [hs1 (.obj fields)]
          refine ⟨hq.2.1, hq.2.2.1, hq.2.1.1 _ htbl, hq.2.1.2.2.1 _ hkn, ?_⟩
          intro fields' heq
          cases heq
          exact ⟨hq.1, hq.2.2.2.1, hq.2.2.2.2⟩
        | null =>
          rw [hs1 .null]
          exact ⟨step_mono_refl s, hwf, htbl, hkn, fun fields h => by cases h⟩
        | bool b =>
          rw [hs1 (.bool b)]
          exact ⟨step_mono_refl s, hwf, htbl, hkn, fun fields h => by cases h⟩
        | int m =>
          rw [hs1 (.int m)]
          exact ⟨step_mono_refl s, hwf, htbl, hkn, fun fields h => by cases h⟩
        | real =>
          rw [hs1 .real]
          exact ⟨step_mono_refl s, hwf, htbl, hkn, fun fields h => by cases h⟩
        | str str =>
          rw [hs1 (.str str)]
          exact ⟨step_mono_refl s, hwf, htbl, hkn, fun fields h => by cases h⟩
        | arr elems =>
          rw [hs1 (.arr elems)]
          exact ⟨step_mono_refl s, hwf, htbl, hkn, fun fields h => by cases h⟩
      · -- unseen table: register it and create it, then run the field loop
        have hreg := register_create_spec s (sanitize_name tname) (base_cols parent)
          hwf hkn
        obtain ⟨hm1, hwf1, htbl1, hktbl1, _, _, _, _⟩ := hreg
        have hs1 : ∀ d : JValue, create_table_fuel (n+1) s tname d parent =
            (match d with
             | .obj fields => ensure_fields_fuel n
                 (db_create_table_if_not_exists (register_table s (sanitize_name tname))
                   (sanitize_name tname) (base_cols parent)) (sanitize_name tname) fields
             | _ => (db_create_table_if_not_exists (register_table s (sanitize_name tname))
                 (sanitize_name tname) (base_cols parent), .error .attributeError)) := by
          intro d
          simp only [create_table_fuel]
          rw [if_neg (by simp [hkn])]
        cases data with
        | obj fields =>
          have hszf : sizeF fields ≤ n := by
            simp only [sizeV] at hsz
            omega
          have hq := ihQ _ (sanitize_name tname) fields hszf hwf1 htbl1 hfixt
          rw [hs1 (.obj fields)]
          refine ⟨step_mono_trans hm1 hq.2.1, hq.2.2.1, hq.2.1.1 _ htbl1,
            hq.2.1.2.2.1 _ hktbl1, ?_⟩
          intro fields' heq
          cases heq
          exact ⟨hq.1, hq.2.2.2.1, hq.2.2.2.2⟩
        | null =>
          rw [hs1 .null]
          exact ⟨hm1, hwf1, htbl1, hktbl1, fun fields h => by cases h⟩
        | bool b =>
          rw [hs1 (.bool b)]
          exact ⟨hm1, hwf1, htbl1, hktbl1, fun fields h => by cases h⟩
        | int m =>
          rw [hs1 (.int m)]
          exact ⟨hm1, hwf1, htbl1, hktbl1, fun fields h => by cases h⟩
        | real =>
          rw [hs1 .real]
          exact ⟨hm1, hwf1, htbl1, hktbl1, fun fields h => by cases h⟩
        | str str =>
          rw [hs1 (.str str)]
          exact ⟨hm1, hwf1, htbl1, hktbl1, fun fields h => by cases h⟩
        | arr elems =>
          rw [hs1 (.arr elems)]
          exact ⟨hm1, hwf1, htbl1, hktbl1, fun fields h => by cases h⟩
    · -- ensure_fields_fuel (n+1)
      intro s tbl fields hsz hwf htbl hfix
      cases fields with
      | nil =>
        refine ⟨rfl, step_mono_refl s, hwf, .nil tbl, ?_⟩
        intro k v h
        cases h
      | cons kv rest =>
        obtain ⟨k, v⟩ := kv
        have hszr : sizeF rest ≤ n := by
          have := one_le_sizeV v
          simp only [sizeF] at hsz
          omega
        have hszv : sizeV v ≤ n := by
          have := one_le_sizeF rest
          simp only [sizeF] at hsz
          omega
        by_cases hk : sanitize_name k ∈ known_cols s tbl
        · -- column already known: the field is skipped
          have hunf : ensure_fields_fuel (n+1) s tbl ((k, v) :: rest) =
              ensure_fields_fuel n s tbl rest := by
            show (if decide (sanitize_name k ∈ known_cols s tbl) then
                ensure_fields_fuel n s tbl rest
              else _) = _
            rw [if_pos (decide_eq_true hk)]
          rw [hunf]
          have hq := ihQ s tbl rest hszr hwf htbl hfix
          refine ⟨hq.1, hq.2.1, hq.2.2.1, ?_, ?_⟩
          · exact .cons_known tbl k v rest (hq.2.1.2.2.2.1 _ _ hk) hq.2.2.2.1
          · intro k' v' hmem hscal
            rcases List.mem_cons.mp hmem with heq | hmem'
            · cases heq
              have := wf_known_col hwf hk
              exact hq.2.1.2.1 _ _ this
            · exact hq.2.2.2.2 k' v' hmem' hscal
        · by_cases href : get_sqlite_type v = "REFERENCE"
          · -- composite value
            cases v with
            | obj g =>
              rcases hres : create_table_fuel n s (tbl ++ "__" ++ sanitize_name k)
                  (.obj g) (some tbl) with ⟨s1, r1⟩
              have hp := ihP s (tbl ++ "__" ++ sanitize_name k) (.obj g) (some tbl)
                hszv hwf
              rw [hres] at hp
              obtain ⟨hok, hset, _⟩ := hp.2.2.2.2 g rfl
              have hchild : sanitize_name (tbl ++ "__" ++ sanitize_name k) =
                  tbl ++ "__" ++ sanitize_name k :=
                child_sanitize_fixed hfix (chars_fixed_sanitize k)
              have hunf : ensure_fields_fuel (n+1) s tbl ((k, .obj g) :: rest) =
                  ensure_fields_fuel n s1 tbl rest := by
                show (if decide (sanitize_name k ∈ known_cols s tbl) then
                    ensure_fields_fuel n s tbl rest
                  else if get_sqlite_type (.obj g) = "REFERENCE" then
                    match create_table_fuel n s (tbl ++ "__" ++ sanitize_name k)
                        (.obj g) (some tbl) with
                    | (s', .ok _) => ensure_fields_fuel n s' tbl rest
                    | (s', .error e) => (s', .error e)
                  else _) = _
                rw [if_neg (by simp [hk]), if_pos href, hres]
                have hok2 : r1 = Except.ok () := hok
                simp only [hok2]
              rw [hunf]
              have hq := ihQ s1 tbl rest hszr hp.2.1 (hp.1.1 _ htbl) hfix
              refine ⟨hq.1, step_mono_trans hp.1 hq.2.1, hq.2.2.1, ?_, ?_⟩
              · refine .cons_obj tbl k g rest ?_ ?_ hq.2.2.2.1
                · have := hp.2.2.2.1
                  rw [hchild] at this
                  exact hq.2.1.2.2.1 _ this
                · have := hset
                  rw [hchild] at this
                  exact this.mono hq.2.1
              · intro k' v' hmem hscal
                rcases List.mem_cons.mp hmem with heq | hmem'
                · cases heq
                  simp [isDictOrList] at hscal
                · exact hq.2.2.2.2 k' v' hmem' hscal
            | arr elems =>
              cases elems with
              | nil =>
                have hunf : ensure_fields_fuel (n+1) s tbl ((k, .arr []) :: rest) =
                    ensure_fields_fuel n s tbl rest := by
                  show (if decide (sanitize_name k ∈ known_cols s tbl) then
                      ensure_fields_fuel n s tbl rest
                    else if get_sqlite_type (.arr []) = "REFERENCE" then
                      ensure_fields_fuel n s tbl rest
                    else _) = _
                  rw [if_neg (by simp [hk]), if_pos href]
                rw [hunf]
                have hq := ihQ s tbl rest hszr hwf htbl hfix
                refine ⟨hq.1, hq.2.1, hq.2.2.1, ?_, ?_⟩
                · exact .cons_arr_skip tbl k [] rest (Or.inl rfl) hq.2.2.2.1
                · intro k' v' hmem hscal
                  rcases List.mem_cons.mp hmem with heq | hmem'
                  · cases heq
                    simp [isDictOrList] at hscal
                  · exact hq.2.2.2.2 k' v' hmem' hscal
              | cons e0 es =>
                by_cases hdict : isDict e0 = true
                · obtain ⟨g, rfl⟩ : ∃ g, e0 = .obj g := by
                    cases e0 <;> simp [isDict] at hdict <;> exact ⟨_, rfl⟩
                  have hsze : sizeV (.obj g) ≤ n := by
                    simp only [sizeF, sizeV, sizeE] at hsz
                    have := one_le_sizeF rest
                    have := one_le_sizeE es
                    simp only [sizeV]
                    omega
                  rcases hres : create_table_fuel n s (tbl ++ "__" ++ sanitize_name k)
                      (.obj g) (some tbl) with ⟨s1, r1⟩
                  have hp := ihP s (tbl ++ "__" ++ sanitize_name k) (.obj g) (some tbl)
                    hsze hwf
                  rw [hres] at hp
                  obtain ⟨hok, hset, _⟩ := hp.2.2.2.2 g rfl
                  have hchild : sanitize_name (tbl ++ "__" ++ sanitize_name k) =
                      tbl ++ "__" ++ sanitize_name k :=
                    child_sanitize_fixed hfix (chars_fixed_sanitize k)
                  have hunf : ensure_fields_fuel (n+1) s tbl
                      ((k, .arr (.obj g :: es)) :: rest) =
                      ensure_fields_fuel n s1 tbl rest := by
                    show (if decide (sanitize_name k ∈ known_cols s tbl) then
                        ensure_fields_fuel n s tbl rest
                      else if get_sqlite_type (.arr (.obj g :: es)) = "REFERENCE" then
                        if isDict (.obj g) then
                          match create_table_fuel n s (tbl ++ "__" ++ sanitize_name k)
                              (.obj g) (some tbl) with
                          | (s', .ok _) => ensure_fields_fuel n s' tbl rest
                          | (s', .error e) => (s', .error e)
                        else ensure_fields_fuel n s tbl rest
                      else _) = _
                    rw [if_neg (by simp [hk]), if_pos href, if_pos (by simp [isDict]),
                      hres]
                    have hok2 : r1 = Except.ok () := hok
                    simp only [hok2]
                  rw [hunf]
                  have hq := ihQ s1 tbl rest hszr hp.2.1 (hp.1.1 _ htbl) hfix
                  refine ⟨hq.1, step_mono_trans hp.1 hq.2.1, hq.2.2.1, ?_, ?_⟩
                  · refine .cons_arr_obj tbl k g es rest ?_ ?_ hq.2.2.2.1
                    · have := hp.2.2.2.1
                      rw [hchild] at this
                      exact hq.2.1.2.2.1 _ this
                    · have := hset
                      rw [hchild] at this
                      exact this.mono hq.2.1
                  · intro k' v' hmem hscal
                    rcases List.mem_cons.mp hmem with heq | hmem'
                    · cases heq
                      simp [isDictOrList] at hscal
                    · exact hq.2.2.2.2 k' v' hmem' hscal
                · have hunf : ensure_fields_fuel (n+1) s tbl
                      ((k, .arr (e0 :: es)) :: rest) =
                      ensure_fields_fuel n s tbl rest := by
                    show (if decide (sanitize_name k ∈ known_cols s tbl) then
                        ensure_fields_fuel n s tbl rest
                      else if get_sqlite_type (.arr (e0 :: es)) = "REFERENCE" then
                        if isDict e0 then
                          match create_table_fuel n s (tbl ++ "__" ++ sanitize_name k)
                              e0 (some tbl) with
                          | (s', .ok _) => ensure_fields_fuel n s' tbl rest
                          | (s', .error e) => (s', .error e)
                        else ensure_fields_fuel n s tbl rest
                      else _) = _
                    rw [if_neg (by simp [hk]), if_pos href, if_neg (by simp [hdict])]
                  rw [hunf]
                  have hq := ihQ s tbl rest hszr hwf htbl hfix
                  refine ⟨hq.1, hq.2.1, hq.2.2.1, ?_, ?_⟩
                  · refine .cons_arr_skip tbl k (e0 :: es) rest (Or.inr ?_) hq.2.2.2.1
                    intro e0' es' heq
                    cases heq
                    simpa using hdict
                  · intro k' v' hmem hscal
                    rcases List.mem_cons.mp hmem with heq | hmem'
                    · cases heq
                      simp [isDictOrList] at hscal
                    · exact hq.2.2.2.2 k' v' hmem' hscal
            | null => simp [get_sqlite_type, isinstance_bool, isinstance_int,
                isinstance_float, isDictOrList] at href
            | bool b => simp [get_sqlite_type, isinstance_bool, isinstance_int,
                isinstance_float, isDictOrList] at href
            | int m => simp [get_sqlite_type, isinstance_bool, isinstance_int,
                isinstance_float, isDictOrList] at href
            | real => simp [get_sqlite_type, isinstance_bool, isinstance_int,
                isinstance_float, isDictOrList] at href
            | str str => simp [get_sqlite_type, isinstance_bool, isinstance_int,
                isinstance_float, isDictOrList] at href
          · -- scalar value: duplicate-tolerant ADD COLUMN
            obtain ⟨s', heq, hm', hwf', htn', hktn', hcol', hother', hgrow', hdup'⟩ :=
              try_add_column_spec s tbl (sanitize_name k) (get_sqlite_type v) hwf htbl
            have hscalv : isDictOrList v = false := by
              rcases hb : isDictOrList v with _ | _
              · rfl
              · exact absurd ((get_ref_iff v).mpr hb) href
            have hunf : ensure_fields_fuel (n+1) s tbl ((k, v) :: rest) =
                ensure_fields_fuel n s' tbl rest := by
              cases v with
              | obj g => simp [isDictOrList] at hscalv
              | arr elems => simp [isDictOrList] at hscalv
              | null =>
                show (if decide (sanitize_name k ∈ known_cols s tbl) then
                    ensure_fields_fuel n s tbl rest
                  else if get_sqlite_type .null = "REFERENCE" then _
                  else
                    match try_add_column s tbl (sanitize_name k)
                        (get_sqlite_type .null) with
                    | (s', .ok _) => ensure_fields_fuel n s' tbl rest
                    | (s', .error e) => (s', .error e)) = _
                rw [if_neg (by simp [hk]), if_neg href, heq]
              | bool b =>
                show (if decide (sanitize_name k ∈ known_cols s tbl) then
                    ensure_fields_fuel n s tbl rest
                  else if get_sqlite_type (.bool b) = "REFERENCE" then _
                  else
                    match try_add_column s tbl (sanitize_name k)
                        (get_sqlite_type (.bool b)) with
                    | (s', .ok _) => ensure_fields_fuel n s' tbl rest
                    | (s', .error e) => (s', .error e)) = _
                rw [if_neg (by simp [hk]), if_neg href, heq]
              | int m =>
                show (if decide (sanitize_name k ∈ known_cols s tbl) then
                    ensure_fields_fuel n s tbl rest
                  else if get_sqlite_type (.int m) = "REFERENCE" then _
                  else
                    match try_add_column s tbl (sanitize_name k)
                        (get_sqlite_type (.int m)) with
                    | (s', .ok _) => ensure_fields_fuel n s' tbl rest
                    | (s', .error e) => (s', .error e)) = _
                rw [if_neg (by simp [hk]), if_neg href, heq]
              | real =>
                show (if decide (sanitize_name k ∈ known_cols s tbl) then
                    ensure_fields_fuel n s tbl rest
                  else if get_sqlite_type .real = "REFERENCE" then _
                  else
                    match try_add_column s tbl (sanitize_name k)
                        (get_sqlite_type .real) with
                    | (s', .ok _) => ensure_fields_fuel n s' tbl rest
                    | (s', .error e) => (s', .error e)) = _
                rw [if_neg (by simp [hk]), if_neg href, heq]
              | str str =>
                show (if decide (sanitize_name k ∈ known_cols s tbl) then
                    ensure_fields_fuel n s tbl rest
                  else if get_sqlite_type (.str str) = "REFERENCE" then _
                  else
                    match try_add_column s tbl (sanitize_name k)
                        (get_sqlite_type (.str str)) with
                    | (s', .ok _) => ensure_fields_fuel n s' tbl rest
                    | (s', .error e) => (s', .error e)) = _
                rw [if_neg (by simp [hk]), if_neg href, heq]
            rw [hunf]
            have hq := ihQ s' tbl rest hszr hwf' (by rw [htn']; exact htbl) hfix
            refine ⟨hq.1, step_mono_trans hm' hq.2.1, hq.2.2.1, ?_, ?_⟩
            · exact .cons_scalar tbl k v rest hscalv (hq.2.1.2.1 _ _ hcol') hq.2.2.2.1
            · intro k' v' hmem hscal
              rcases List.mem_cons.mp hmem with heqm | hmem'
              · cases heqm
                exact hq.2.1.2.1 _ _ hcol'
              · exact hq.2.2.2.2 k' v' hmem' hscal

/-- Re-running the schema pass over a settled document is an exact no-op:
the state is returned unchanged and no error is raised. -/
theorem settled_noop : ∀ n : Nat,
    (∀ s tname fields parent, sizeV (JValue.obj fields) ≤ n → wf_state s = true →
      sanitize_name tname ∈ known_table_names s →
      Settled s (sanitize_name tname) fields →
      create_table_fuel n s tname (.obj fields) parent = (s, .ok ())) ∧
    (∀ s tbl fields, sizeF fields ≤ n → wf_state s = true →
      Settled s tbl fields → chars_fixed tbl = true →
      ensure_fields_fuel n s tbl fields = (s, .ok ())) := by
  intro n
  induction n with
  | zero =>
    constructor
    · intro s tname fields parent hsz _ _ _
      exact absurd hsz (by have := one_le_sizeV (JValue.obj fields); omega)
    · intro s tbl fields hsz _ _ _
      exact absurd hsz (by have := one_le_sizeF fields; omega)
  | succ n ih =>
    obtain ⟨ihP, ihQ⟩ := ih
    constructor
    · intro s tname fields parent hsz hwf hkn hset
      have hszf : sizeF fields ≤ n := by
        simp only [sizeV] at hsz
        omega
      simp only [create_table_fuel]
      rw [if_pos (decide_eq_true hkn)]
      exact ihQ s (sanitize_name tname) fields hszf hwf hset (chars_fixed_sanitize tname)
    · intro s tbl fields hsz hwf hset hfix
      cases hset with
      | nil => rfl
      | cons_known _ k v rest hk hrest =>
        have hszr : sizeF rest ≤ n := by
          have := one_le_sizeV v
          simp only [sizeF] at hsz
          omega
        simp only [ensure_fields_fuel]
        rw [if_pos (decide_eq_true hk)]
        exact ihQ s tbl rest hszr hwf hrest hfix
      | cons_obj _ k g rest ht hg hrest =>
        have hszr : sizeF rest ≤ n := by
          have := one_le_sizeV (JValue.obj g)
          simp only [sizeF] at hsz
          omega
        have hszv : sizeV (JValue.obj g) ≤ n := by
          have := one_le_sizeF rest
          simp only [sizeF] at hsz
          omega
        have hchild : sanitize_name (tbl ++ "__" ++ sanitize_name k) =
            tbl ++ "__" ++ sanitize_name k :=
          child_sanitize_fixed hfix (chars_fixed_sanitize k)
        by_cases hk : sanitize_name k ∈ known_cols s tbl
        · simp only [ensure_fields_fuel]
          rw [if_pos (decide_eq_true hk)]
          exact ihQ s tbl rest hszr hwf hrest hfix
        · have hcre : create_table_fuel n s (tbl ++ "__" ++ sanitize_name k)
              (.obj g) (some tbl) = (s, .ok ()) := by
            apply ihP s _ g (some tbl) hszv hwf
            · rw [hchild]
              exact ht
            · rw [hchild]
              exact hg
          simp only [ensure_fields_fuel]
          rw [if_neg (by simp [hk]),
            if_pos (by simp [get_sqlite_type, isinstance_bool, isinstance_int,
              isinstance_float, isDictOrList] : get_sqlite_type (.obj g) = "REFERENCE"),
            hcre]
          exact ihQ s tbl rest hszr hwf hrest hfix
      | cons_arr_obj _ k g es rest ht hg hrest =>
        have hszr : sizeF rest ≤ n := by
          have := one_le_sizeV (JValue.arr (.obj g :: es))
          simp only [sizeF] at hsz
          omega
        have hszv : sizeV (JValue.obj g) ≤ n := by
          have := one_le_sizeF rest
          have := one_le_sizeE es
          simp only [sizeF, sizeV, sizeE] at hsz
          simp only [sizeV]
          omega
        have hchild : sanitize_name (tbl ++ "__" ++ sanitize_name k) =
            tbl ++ "__" ++ sanitize_name k :=
          child_sanitize_fixed hfix (chars_fixed_sanitize k)
        by_cases hk : sanitize_name k ∈ known_cols s tbl
        · simp only [ensure_fields_fuel]
          rw [if_pos (decide_eq_true hk)]
          exact ihQ s tbl rest hszr hwf hrest hfix
        · have hcre : create_table_fuel n s (tbl ++ "__" ++ sanitize_name k)
              (.obj g) (some tbl) = (s, .ok ()) := by
            apply ihP s _ g (some tbl) hszv hwf
            · rw [hchild]
              exact ht
            · rw [hchild]
              exact hg
          simp only [ensure_fields_fuel]
          rw [if_neg (by simp [hk]),
            if_pos (by simp [get_sqlite_type, isinstance_bool, isinstance_int,
              isinstance_float, isDictOrList] :
                get_sqlite_type (.arr (.obj g :: es)) = "REFERENCE"),
            if_pos (by simp [isDict] : isDict (.obj g) = true), hcre]
          exact ihQ s tbl rest hszr hwf hrest hfix
      | cons_arr_skip _ k elems rest hskip hrest =>
        have hszr : sizeF rest ≤ n := by
          have := one_le_sizeV (JValue.arr elems)
          simp only [sizeF] at hsz
          omega
        by_cases hk : sanitize_name k ∈ known_cols s tbl
        · simp only [ensure_fields_fuel]
          rw [if_pos (decide_eq_true hk)]
          exact ihQ s tbl rest hszr hwf hrest hfix
        · cases elems with
          | nil =>
            simp only [ensure_fields_fuel]
            rw [if_neg (by simp [hk]),
              if_pos (by simp [get_sqlite_type, isinstance_bool, isinstance_int,
                isinstance_float, isDictOrList] :
                  get_sqlite_type (.arr []) = "REFERENCE")]
            exact ihQ s tbl rest hszr hwf hrest hfix
          | cons e0 es =>
            have hd : isDict e0 = false := by
              rcases hskip with h | h
              · cases h
              · exact h e0 es rfl
            simp only [ensure_fields_fuel]
            rw [if_neg (by simp [hk]),
              if_pos (by simp [get_sqlite_type, isinstance_bool, isinstance_int,
                isinstance_float, isDictOrList] :
                  get_sqlite_type (.arr (e0 :: es)) = "REFERENCE"),
              if_neg (by simp [hd])]
            exact ihQ s tbl rest hszr hwf hrest hfix
      | cons_scalar _ k v rest hv hc hrest =>
        have hszr : sizeF rest ≤ n := by
          have := one_le_sizeV v
          simp only [sizeF] at hsz
          omega
        by_cases hk : sanitize_name k ∈ known_cols s tbl
        · simp only [ensure_fields_fuel]
          rw [if_pos (decide_eq_true hk)]
          exact ihQ s tbl rest hszr hwf hrest hfix
        · have htbl : tbl ∈ tableNames s := by
            obtain ⟨cs, hls, hcs⟩ : ∃ tb0, lookupA s.tables tbl = some tb0 ∧
                sanitize_name k ∈ colNames tb0 := by
              unfold db_col_names at hc
              rcases hl : lookupA s.tables tbl with _ | tb0
              · rw [hl] at hc
                simp at hc
              · rw [hl] at hc
                exact ⟨tb0, rfl, hc⟩
            exact mem_keys_of_lookupA_some hls
          obtain ⟨s', heq, _, _, _, _, _, _, _, hdup⟩ :=
            try_add_column_spec s tbl (sanitize_name k) (get_sqlite_type v) hwf htbl
          have heq' : try_add_column s tbl (sanitize_name k) (get_sqlite_type v) =
              (s, .ok ()) := by
            rw [heq, hdup hc]
          have href : ¬ get_sqlite_type v = "REFERENCE" := by
            intro hr
            rw [(get_ref_iff v).mp hr] at hv
            cases hv
          cases v with
          | obj g => simp [isDictOrList] at hv
          | arr elems => simp [isDictOrList] at hv
          | null =>
            simp only [ensure_fields_fuel]
            rw [if_neg (by simp [hk]), if_neg href, heq']
            exact ihQ s tbl rest hszr hwf hrest hfix
          | bool b =>
            simp only [ensure_fields_fuel]
            rw [if_neg (by simp [hk]), if_neg href, heq']
            exact ihQ s tbl rest hszr hwf hrest hfix
          | int m =>
            simp only [ensure_fields_fuel]
            rw [if_neg (by simp [hk]), if_neg href, heq']
            exact ihQ s tbl rest hszr hwf hrest hfix
          | real =>
            simp only [ensure_fields_fuel]
            rw [if_neg (by simp [hk]), if_neg href, heq']
            exact ihQ s tbl rest hszr hwf hrest hfix
          | str str =>
            simp only [ensure_fields_fuel]
            rw [if_neg (by simp [hk]), if_neg href, heq']
            exact ihQ s tbl rest hszr hwf hrest hfix

/-! ## Claim C5: idempotent schema mutation -/

/-- Claim C5: a "column already exists" failure from `ADD COLUMN` is treated
as benign success and never propagated; any other schema-mutation failure is
propagated; hence processing the same document twice — from any well-formed
state, including one with a pre-existing database — never raises from schema
mutation, and the second run leaves the state (in particular every table's
column set) exactly as the first run left it. -/
theorem c5_theorem :
    (∀ s tbl col ty s2, db_add_column s tbl col ty = (s2, .error (.duplicateColumn tbl col)) →
      try_add_column s tbl col ty = (s2, .ok ())) ∧
    (∀ s tbl col ty s2 e, db_add_column s tbl col ty = (s2, .error e) →
      (∀ t c, e ≠ .duplicateColumn t c) →
      try_add_column s tbl col ty = (s2, .error e)) ∧
    (∀ s tname fields parent, wf_state s = true →
      ∃ s1, create_table_if_not_exists s tname (.obj fields) parent = (s1, .ok ()) ∧
        wf_state s1 = true ∧
        create_table_if_not_exists s1 tname (.obj fields) parent = (s1, .ok ())) := by
  refine ⟨?_, ?_, ?_⟩
  · intro s tbl col ty s2 h
    unfold try_add_column
    rw [h]
  · intro s tbl col ty s2 e h hne
    unfold try_add_column
    rw [h]
    cases e with
    | duplicateColumn t c => exact absurd rfl (hne t c)
    | noSuchTable t => rfl
    | noSuchColumn t c => rfl
    | attributeError => rfl
    | valueError => rfl
    | fuelExhausted => rfl
  · intro s tname fields parent hwf
    have hp := (schema_main (sizeV (.obj fields))).1 s tname (.obj fields) parent
      (le_refl _) hwf
    obtain ⟨hok, hset, _⟩ := hp.2.2.2.2 fields rfl
    refine ⟨(create_table_fuel (sizeV (.obj fields)) s tname (.obj fields) parent).1,
      ?_, hp.2.1, ?_⟩
    · show create_table_fuel (sizeV (.obj fields)) s tname (.obj fields) parent = _
      have : create_table_fuel (sizeV (.obj fields)) s tname (.obj fields) parent =
          ((create_table_fuel (sizeV (.obj fields)) s tname (.obj fields) parent).1,
           (create_table_fuel (sizeV (.obj fields)) s tname (.obj fields) parent).2) := rfl
      rw [this, hok]
    · show create_table_fuel (sizeV (.obj fields)) _ tname (.obj fields) parent = _
      exact (settled_noop (sizeV (.obj fields))).1 _ tname fields parent (le_refl _)
        hp.2.1 hp.2.2.2.1 hset

/-- Witness for C5: a concrete duplicate-column failure is swallowed, and a
concrete document processed twice from a fresh state raises nothing and
leaves the state of the first run unchanged. -/
theorem c5_witness :
    (try_add_column
      (create_table_if_not_exists initState "root" (.obj [("a", .int 1)]) none).1
      "root" "a" "INTEGER" =
      ((create_table_if_not_exists initState "root" (.obj [("a", .int 1)]) none).1,
        .ok ())) ∧
    ∃ s1, create_table_if_not_exists initState "root" (.obj [("a", .int 1)]) none =
        (s1, .ok ()) ∧
      wf_state s1 = true ∧
      create_table_if_not_exists s1 "root" (.obj [("a", .int 1)]) none = (s1, .ok ()) :=
  ⟨c5_theorem.1 _ "root" "a" "INTEGER" _ (by decide),
   c5_theorem.2.2 initState "root" [("a", .int 1)] none (by decide)⟩

/-! ## Claim C1: schema-pass coverage of the write pass's child tables -/

mutual
/-- Over-approximation of the write pass's child-table demands computed over
the raw field list (before the sanitized-name dictionary collapse): it
contains every table `write_record` can target. -/
def rdemands_fields (tbl : String) : List (String × JValue) → List String
  | [] => []
  | (k, v) :: rest =>
    (match v with
     | .obj g => (tbl ++ "__" ++ sanitize_name k) ::
         rdemands_fields (tbl ++ "__" ++ sanitize_name k) g
     | .arr (e0 :: es) =>
       if isDict e0 then
         (tbl ++ "__" ++ sanitize_name k) ::
           (rdemands_val (tbl ++ "__" ++ sanitize_name k) e0 ++
             rdemands_elems (tbl ++ "__" ++ sanitize_name k) es)
       else []
     | _ => []) ++ rdemands_fields tbl rest
/-- Demands of one array element. -/
def rdemands_val (child : String) : JValue → List String
  | .obj g => rdemands_fields child g
  | _ => []
/-- Demands of the remaining array elements. -/
def rdemands_elems (child : String) : List JValue → List String
  | [] => []
  | e :: es => rdemands_val child e ++ rdemands_elems child es
end

theorem sizeV_lt_of_mem : ∀ {fields : List (String × JValue)} {k : String} {v : JValue},
    (k, v) ∈ fields → sizeV v < sizeF fields
  | [], _, _, h => by simp at h
  | (k', v') :: rest, k, v, h => by
    rcases List.mem_cons.mp h with heq | hmem
    · cases heq
      simp only [sizeF]
      have := one_le_sizeF rest
      omega
    · have := sizeV_lt_of_mem hmem
      simp only [sizeF]
      have h1 := one_le_sizeV v'
      omega

theorem sizeV_lt_of_mem_elems : ∀ {es : List JValue} {e : JValue},
    e ∈ es → sizeV e < sizeE es
  | [], _, h => by simp at h
  | e' :: rest, e, h => by
    rcases List.mem_cons.mp h with heq | hmem
    · cases heq
      simp only [sizeE]
      have := one_le_sizeE rest
      omega
    · have := sizeV_lt_of_mem_elems hmem
      simp only [sizeE]
      have h1 := one_le_sizeV e'
      omega

theorem mem_upsert {l : List (String × JValue)} {k c : String} {w v : JValue}
    (h : (c, v) ∈ upsert l k w) : (c, v) ∈ l ∨ (c = k ∧ v = w) := by
  induction l with
  | nil =>
    simp [upsert] at h
    exact Or.inr h
  | cons kv rest ih =>
    obtain ⟨k', v'⟩ := kv
    rw [upsert] at h
    by_cases hk : k' = k
    · rw [if_pos hk] at h
      rcases List.mem_cons.mp h with heq | hmem
      · cases heq
        exact Or.inr ⟨rfl, rfl⟩
      · exact Or.inl (List.mem_cons_of_mem _ hmem)
    · rw [if_neg hk] at h
      rcases List.mem_cons.mp h with heq | hmem
      · exact Or.inl (heq ▸ List.mem_cons_self _ _)
      · rcases ih hmem with h1 | h1
        · exact Or.inl (List.mem_cons_of_mem _ h1)
        · exact Or.inr h1

theorem partition_go_nested_sub :
    ∀ (fields : List (String × JValue)) (simple nested : List (String × JValue))
      {c : String} {v : JValue},
    (c, v) ∈ (partition_go simple nested fields).2 →
    (c, v) ∈ nested ∨ ∃ k, (k, v) ∈ fields ∧ sanitize_name k = c
  | [], simple, nested, c, v, h => Or.inl h
  | (k', v') :: rest, simple, nested, c, v, h => by
    rw [partition_go] at h
    by_cases hc : isDictOrList v' = true
    · rw [if_pos hc] at h
      rcases partition_go_nested_sub rest _ _ h with h1 | ⟨k2, hk2, hs2⟩
      · rcases mem_upsert h1 with h2 | ⟨h2, h3⟩
        · exact Or.inl h2
        · exact Or.inr ⟨k', ⟨by rw [h3]; exact List.mem_cons_self _ _, by rw [h2]⟩⟩
      · exact Or.inr ⟨k2, List.mem_cons_of_mem _ hk2, hs2⟩
    · rw [if_neg hc] at h
      rcases partition_go_nested_sub rest _ _ h with h1 | ⟨k2, hk2, hs2⟩
      · exact Or.inl h1
      · exact Or.inr ⟨k2, List.mem_cons_of_mem _ hk2, hs2⟩

theorem partition_nested_sub {fields : List (String × JValue)} {c : String} {v : JValue}
    (h : (c, v) ∈ (partition_fields fields).2) :
    ∃ k, (k, v) ∈ fields ∧ sanitize_name k = c := by
  rcases partition_go_nested_sub fields [] [] h with h1 | h1
  · simp at h1
  · exact h1

theorem rdemands_fields_cons_sub (tbl k' : String) (v' : JValue)
    (rest : List (String × JValue)) (t : String)
    (h : t ∈ rdemands_fields tbl rest) : t ∈ rdemands_fields tbl ((k', v') :: rest) := by
  cases v' with
  | obj g =>
    rw [rdemands_fields]
    exact List.mem_append_right _ h
  | arr elems =>
    cases elems with
    | nil =>
      rw [rdemands_fields]
      · exact List.mem_append_right _ h
      all_goals simp
    | cons e0 es =>
      rw [rdemands_fields]
      exact List.mem_append_right _ h
  | null =>
    rw [rdemands_fields]
    · exact List.mem_append_right _ h
    all_goals simp
  | bool b =>
    rw [rdemands_fields]
    · exact List.mem_append_right _ h
    all_goals simp
  | int m =>
    rw [rdemands_fields]
    · exact List.mem_append_right _ h
    all_goals simp
  | real =>
    rw [rdemands_fields]
    · exact List.mem_append_right _ h
    all_goals simp
  | str s2 =>
    rw [rdemands_fields]
    · exact List.mem_append_right _ h
    all_goals simp

theorem rdemands_obj_sub :
    ∀ {fields : List (String × JValue)} (tbl : String) {k : String}
      {g : List (String × JValue)},
    (k, .obj g) ∈ fields →
    (tbl ++ "__" ++ sanitize_name k) ∈ rdemands_fields tbl fields ∧
    (∀ t, t ∈ rdemands_fields (tbl ++ "__" ++ sanitize_name k) g →
      t ∈ rdemands_fields tbl fields)
  | [], _, _, _, h => by simp at h
  | (k', v') :: rest, tbl, k, g, h => by
    rcases List.mem_cons.mp h with heq | hmem
    · cases heq
      rw [rdemands_fields]
      constructor
      · exact List.mem_append_left _ (List.mem_cons_self _ _)
      · intro t ht
        exact List.mem_append_left _ (List.mem_cons_of_mem _ ht)
    · have ih := rdemands_obj_sub tbl hmem
      exact ⟨rdemands_fields_cons_sub tbl k' v' rest _ ih.1,
        fun t ht => rdemands_fields_cons_sub tbl k' v' rest t (ih.2 t ht)⟩

theorem rdemands_arr_sub :
    ∀ {fields : List (String × JValue)} (tbl : String) {k : String}
      {e0 : JValue} {es : List JValue},
    (k, .arr (e0 :: es)) ∈ fields → isDict e0 = true →
    (tbl ++ "__" ++ sanitize_name k) ∈ rdemands_fields tbl fields ∧
    (∀ t, t ∈ rdemands_val (tbl ++ "__" ++ sanitize_name k) e0 ++
        rdemands_elems (tbl ++ "__" ++ sanitize_name k) es →
      t ∈ rdemands_fields tbl fields)
  | [], _, _, _, _, h, _ => by simp at h
  | (k', v') :: rest, tbl, k, e0, es, h, hd => by
    rcases List.mem_cons.mp h with heq | hmem
    · cases heq
      rw [rdemands_fields, if_pos hd]
      constructor
      · exact List.mem_append_left _ (List.mem_cons_self _ _)
      · intro t ht
        exact List.mem_append_left _ (List.mem_cons_of_mem _ ht)
    · have ih := rdemands_arr_sub tbl hmem hd
      exact ⟨rdemands_fields_cons_sub tbl k' v' rest _ ih.1,
        fun t ht => rdemands_fields_cons_sub tbl k' v' rest t (ih.2 t ht)⟩

/-- Bridge between the faithful write-pass demand list (computed over the
partitioned `nested_data` dictionary) and the raw over-approximation. -/
theorem demands_bridge : ∀ n : Nat,
    (∀ tbl fields, sizeF fields ≤ n →
      ∀ t ∈ demands_obj tbl fields, t ∈ rdemands_fields tbl fields) ∧
    (∀ child es, sizeE es ≤ n →
      ∀ t ∈ demands_elems child es, t ∈ rdemands_elems child es) := by
  intro n
  induction n using Nat.strong_induction_on with
  | _ n ih =>
    constructor
    · intro tbl fields hsz t ht
      rw [demands_obj] at ht
      -- inner induction over the partitioned entries
      suffices hgen : ∀ l : List (String × JValue),
          (∀ c v, (c, v) ∈ l → ∃ k, (k, v) ∈ fields ∧ sanitize_name k = c) →
          ∀ t ∈ demands_nested tbl l, t ∈ rdemands_fields tbl fields by
        exact hgen _ (fun c v hcv => partition_nested_sub hcv) t ht
      intro l
      induction l with
      | nil =>
        intro _ t ht
        rw [demands_nested] at ht
        simp at ht
      | cons cv restl ihl =>
        obtain ⟨c, v⟩ := cv
        intro hsub t ht
        have htail := ihl (fun c' v' hcv => hsub c' v' (List.mem_cons_of_mem _ hcv))
        obtain ⟨k, hkmem, hks⟩ := hsub c v (List.mem_cons_self _ _)
        subst hks
        cases v with
        | obj g =>
          rw [demands_nested] at ht
          rcases List.mem_append.mp ht with hhead | htl
          · have hd := rdemands_obj_sub tbl hkmem
            rcases List.mem_cons.mp hhead with hteq | hrec
            · rw [hteq]
              exact hd.1
            · have hszg : sizeF g < n := by
                have h1 := sizeV_lt_of_mem hkmem
                simp only [sizeV] at h1
                omega
              have := ((ih (sizeF g) hszg).1 _ g (le_refl _)) t hrec
              exact hd.2 t this
          · exact htail t htl
        | arr elems =>
          cases elems with
          | nil =>
            rw [demands_nested] at ht
            rcases List.mem_append.mp ht with hhead | htl
            · simp at hhead
            · exact htail t htl
            all_goals simp
          | cons e0 es =>
            rw [demands_nested] at ht
            rcases List.mem_append.mp ht with hhead | htl
            · by_cases hd0 : isDict e0 = true
              · rw [if_pos hd0] at hhead
                have hd := rdemands_arr_sub tbl hkmem hd0
                rcases List.mem_cons.mp hhead with hteq | hrec
                · rw [hteq]
                  exact hd.1
                · obtain ⟨g, rfl⟩ : ∃ g, e0 = .obj g := by
                    cases e0 with
                    | obj g => exact ⟨g, rfl⟩
                    | null => exact absurd hd0 (by simp [isDict])
                    | bool b => exact absurd hd0 (by simp [isDict])
                    | int m => exact absurd hd0 (by simp [isDict])
                    | real => exact absurd hd0 (by simp [isDict])
                    | str s2 => exact absurd hd0 (by simp [isDict])
                    | arr l2 => exact absurd hd0 (by simp [isDict])
                  rw [demands_elems] at hrec
                  rcases List.mem_append.mp hrec with hv | hes
                  · have hszg : sizeF g < n := by
                      have h1 := sizeV_lt_of_mem hkmem
                      simp only [sizeV, sizeE] at h1
                      have := one_le_sizeE es
                      omega
                    have hin := ((ih (sizeF g) hszg).1 _ g (le_refl _)) t hv
                    refine hd.2 t (List.mem_append_left _ ?_)
                    rw [rdemands_val]
                    exact hin
                  · have hszes : sizeE es < n := by
                      have h1 := sizeV_lt_of_mem hkmem
                      simp only [sizeV, sizeE] at h1
                      have h2 := one_le_sizeV (JValue.obj g)
                      omega
                    have hin := ((ih (sizeE es) hszes).2 _ es (le_refl _)) t hes
                    exact hd.2 t (List.mem_append_right _ hin)
              · rw [if_neg hd0] at hhead
                simp at hhead
            · exact htail t htl
        | null =>
          rw [demands_nested] at ht
          rcases List.mem_append.mp ht with hhead | htl
          · simp at hhead
          · exact htail t htl
          all_goals simp
        | bool b =>
          rw [demands_nested] at ht
          rcases List.mem_append.mp ht with hhead | htl
          · simp at hhead
          · exact htail t htl
          all_goals simp
        | int m =>
          rw [demands_nested] at ht
          rcases List.mem_append.mp ht with hhead | htl
          · simp at hhead
          · exact htail t htl
          all_goals simp
        | real =>
          rw [demands_nested] at ht
          rcases List.mem_append.mp ht with hhead | htl
          · simp at hhead
          · exact htail t htl
          all_goals simp
        | str s2 =>
          rw [demands_nested] at ht
          rcases List.mem_append.mp ht with hhead | htl
          · simp at hhead
          · exact htail t htl
          all_goals simp
    · intro child es hsz t ht
      cases es with
      | nil =>
        rw [demands_elems] at ht
        simp at ht
      | cons e es' =>
        have htail : sizeE es' < n := by
          simp only [sizeE] at hsz
          have := one_le_sizeV e
          omega
        cases e with
        | obj g =>
          rw [demands_elems] at ht
          rcases List.mem_append.mp ht with hv | hes
          · have hszg : sizeF g < n := by
              simp only [sizeE, sizeV] at hsz
              have := one_le_sizeE es'
              omega
            have hin := ((ih (sizeF g) hszg).1 _ g (le_refl _)) t hv
            rw [rdemands_elems]
            refine List.mem_append_left _ ?_
            rw [rdemands_val]
            exact hin
          · rw [rdemands_elems]
            exact List.mem_append_right _
              (((ih (sizeE es') htail).2 _ es' (le_refl _)) t hes)
        | null =>
          rw [demands_elems] at ht
          rcases List.mem_append.mp ht with hv | hes
          · simp at hv
          · rw [rdemands_elems]
            exact List.mem_append_right _
              (((ih (sizeE es') htail).2 _ es' (le_refl _)) t hes)
          all_goals simp
        | bool b =>
          rw [demands_elems] at ht
          rcases List.mem_append.mp ht with hv | hes
          · simp at hv
          · rw [rdemands_elems]
            exact List.mem_append_right _
              (((ih (sizeE es') htail).2 _ es' (le_refl _)) t hes)
          all_goals simp
        | int m =>
          rw [demands_elems] at ht
          rcases List.mem_append.mp ht with hv | hes
          · simp at hv
          · rw [rdemands_elems]
            exact List.mem_append_right _
              (((ih (sizeE es') htail).2 _ es' (le_refl _)) t hes)
          all_goals simp
        | real =>
          rw [demands_elems] at ht
          rcases List.mem_append.mp ht with hv | hes
          · simp at hv
          · rw [rdemands_elems]
            exact List.mem_append_right _
              (((ih (sizeE es') htail).2 _ es' (le_refl _)) t hes)
          all_goals simp
        | str s2 =>
          rw [demands_elems] at ht
          rcases List.mem_append.mp ht with hv | hes
          · simp at hv
          · rw [rdemands_elems]
            exact List.mem_append_right _
              (((ih (sizeE es') htail).2 _ es' (le_refl _)) t hes)
          all_goals simp
        | arr elems =>
          rw [demands_elems] at ht
          rcases List.mem_append.mp ht with hv | hes
          · simp at hv
          · rw [rdemands_elems]
            exact List.mem_append_right _
              (((ih (sizeE es') htail).2 _ es' (le_refl _)) t hes)
          all_goals simp

/-- The registry's recorded columns all come from scalar occurrences in the
occurrence list `R`. -/
def known_sub (s : ConvState) (R : List (String × String × Bool)) : Prop :=
  ∀ t c, c ∈ known_cols s t → (t, c, false) ∈ R

theorem add_known_col_mem {s : ConvState} {tbl col : String} {t c : String}
    (h : c ∈ known_cols (add_known_col s tbl col) t) :
    c ∈ known_cols s t ∨ (t = tbl ∧ c = col) := by
  unfold add_known_col at h
  rcases hl : lookupA s.known tbl with _ | cols
  · simp only [hl] at h
    exact Or.inl h
  · simp only [hl] at h
    by_cases ht : t = tbl
    · subst ht
      have hk2 : known_cols ({ s with known := updateA s.known t (cols ++ [col]) } : ConvState)
          t = cols ++ [col] :=
        known_cols_of_some (lookupA_updateA_self _ hl)
      rw [hk2] at h
      rcases List.mem_append.mp h with h1 | h1
      · rw [known_cols_of_some hl]
        exact Or.inl h1
      · simp at h1
        exact Or.inr ⟨rfl, h1⟩
    · have hk2 : known_cols ({ s with known := updateA s.known tbl (cols ++ [col]) } :
          ConvState) t = known_cols s t := by
        show (lookupA (updateA s.known tbl (cols ++ [col])) t).getD [] = _
        rw [lookupA_updateA_ne _ ht]
        rfl
      rw [hk2] at h
      exact Or.inl h

theorem try_add_column_known {s : ConvState} {tbl col ty : String} {t c : String}
    (h : c ∈ known_cols (try_add_column s tbl col ty).1 t) :
    c ∈ known_cols s t ∨ (t = tbl ∧ c = col) := by
  unfold try_add_column at h
  rcases hdb : db_add_column s tbl col ty with ⟨s', r⟩
  have hkeq : s'.known = s.known := by
    unfold db_add_column at hdb
    rcases hl : lookupA s.tables tbl with _ | tb
    · simp only [hl] at hdb
      cases hdb
      rfl
    · simp only [hl] at hdb
      by_cases hcc : decide (col ∈ colNames tb) = true
      · rw [if_pos hcc] at hdb
        cases hdb
        rfl
      · rw [if_neg hcc] at hdb
        cases hdb
        rfl
  have hkc : ∀ u, known_cols s' u = known_cols s u := by
    intro u
    show (lookupA s'.known u).getD [] = (lookupA s.known u).getD []
    rw [hkeq]
  rw [hdb] at h
  cases r with
  | ok u =>
    have h2 : c ∈ known_cols (add_known_col s' tbl col) t := h
    rcases add_known_col_mem h2 with h3 | h3
    · rw [hkc t] at h3
      exact Or.inl h3
    · exact Or.inr h3
  | error e =>
    cases e with
    | duplicateColumn a b =>
      have h2 : c ∈ known_cols s' t := h
      rw [hkc t] at h2
      exact Or.inl h2
    | noSuchTable a =>
      have h2 : c ∈ known_cols s' t := h
      rw [hkc t] at h2
      exact Or.inl h2
    | noSuchColumn a b =>
      have h2 : c ∈ known_cols s' t := h
      rw [hkc t] at h2
      exact Or.inl h2
    | attributeError =>
      have h2 : c ∈ known_cols s' t := h
      rw [hkc t] at h2
      exact Or.inl h2
    | valueError =>
      have h2 : c ∈ known_cols s' t := h
      rw [hkc t] at h2
      exact Or.inl h2
    | fuelExhausted =>
      have h2 : c ∈ known_cols s' t := h
      rw [hkc t] at h2
      exact Or.inl h2

theorem occs_fields_cons_sub (tbl k : String) (v : JValue)
    (rest : List (String × JValue)) (o : String × String × Bool)
    (h : o ∈ occs_fields tbl rest) : o ∈ occs_fields tbl ((k, v) :: rest) := by
  cases v with
  | obj g =>
    rw [occs_fields]
    exact List.mem_append_right _ h
  | arr elems =>
    cases elems with
    | nil =>
      rw [occs_fields]
      exact List.mem_append_right _ h
    | cons e0 es =>
      rw [occs_fields]
      exact List.mem_append_right _ h
  | null =>
    rw [occs_fields]
    · exact List.mem_append_right _ h
    all_goals simp
  | bool b =>
    rw [occs_fields]
    · exact List.mem_append_right _ h
    all_goals simp
  | int m =>
    rw [occs_fields]
    · exact List.mem_append_right _ h
    all_goals simp
  | real =>
    rw [occs_fields]
    · exact List.mem_append_right _ h
    all_goals simp
  | str s2 =>
    rw [occs_fields]
    · exact List.mem_append_right _ h
    all_goals simp

theorem occs_cons_scalar_head {tbl k : String} {v : JValue}
    {rest : List (String × JValue)} (hscal : isDictOrList v = false) :
    (tbl, sanitize_name k, false) ∈ occs_fields tbl ((k, v) :: rest) := by
  cases v with
  | obj g => simp [isDictOrList] at hscal
  | arr elems => simp [isDictOrList] at hscal
  | null =>
    rw [occs_fields]
    · exact List.mem_append_left _ (List.mem_cons_self _ _)
    all_goals simp
  | bool b =>
    rw [occs_fields]
    · exact List.mem_append_left _ (List.mem_cons_self _ _)
    all_goals simp
  | int m =>
    rw [occs_fields]
    · exact List.mem_append_left _ (List.mem_cons_self _ _)
    all_goals simp
  | real =>
    rw [occs_fields]
    · exact List.mem_append_left _ (List.mem_cons_self _ _)
    all_goals simp
  | str s2 =>
    rw [occs_fields]
    · exact List.mem_append_left _ (List.mem_cons_self _ _)
    all_goals simp

theorem occs_cons_obj_sub (tbl k : String) (g rest : List (String × JValue)) :
    (tbl, sanitize_name k, true) ∈ occs_fields tbl ((k, .obj g) :: rest) ∧
    (∀ o ∈ occs_fields (tbl ++ "__" ++ sanitize_name k) g,
      o ∈ occs_fields tbl ((k, .obj g) :: rest)) := by
  rw [occs_fields]
  constructor
  · exact List.mem_append_left _ (List.mem_cons_self _ _)
  · intro o ho
    exact List.mem_append_left _ (List.mem_cons_of_mem _ ho)

theorem occs_cons_arr_sub (tbl k : String) (e0 : JValue) (es : List JValue)
    (rest : List (String × JValue)) (hd : isDict e0 = true) :
    (tbl, sanitize_name k, true) ∈ occs_fields tbl ((k, .arr (e0 :: es)) :: rest) ∧
    (∀ o ∈ occs_val (tbl ++ "__" ++ sanitize_name k) e0 ++
        occs_elems (tbl ++ "__" ++ sanitize_name k) es,
      o ∈ occs_fields tbl ((k, .arr (e0 :: es)) :: rest)) := by
  rw [occs_fields, if_pos hd]
  constructor
  · exact List.mem_append_left _ (List.mem_cons_self _ _)
  · intro o ho
    exact List.mem_append_left _ (List.mem_cons_of_mem _ ho)

theorem rdemands_cons_skip {tbl k : String} {v : JValue} {rest : List (String × JValue)}
    (hskip : isDictOrList v = false ∨ v = .arr [] ∨
      ∃ e0 es, v = .arr (e0 :: es) ∧ isDict e0 = false)
    {t : String} (h : t ∈ rdemands_fields tbl ((k, v) :: rest)) :
    t ∈ rdemands_fields tbl rest := by
  cases v with
  | obj g =>
    rcases hskip with h1 | h1 | ⟨e0, es, h1, _⟩
    · simp [isDictOrList] at h1
    · cases h1
    · cases h1
  | arr elems =>
    cases elems with
    | nil =>
      rw [rdemands_fields] at h
      · simpa using h
      all_goals simp
    | cons e0 es =>
      rcases hskip with h1 | h1 | ⟨e0', es', h1, h2⟩
      · simp [isDictOrList] at h1
      · cases h1
      · have he : e0' = e0 ∧ es' = es := by
          have := h1
          injection this with h3
          injection h3 with h4 h5
          exact ⟨h4.symm, h5.symm⟩
        rw [rdemands_fields, if_neg (by rw [he.1] at h2; simp [h2])] at h
        simpa using h
  | null =>
    rw [rdemands_fields] at h
    · simpa using h
    all_goals simp
  | bool b =>
    rw [rdemands_fields] at h
    · simpa using h
    all_goals simp
  | int m =>
    rw [rdemands_fields] at h
    · simpa using h
    all_goals simp
  | real =>
    rw [rdemands_fields] at h
    · simpa using h
    all_goals simp
  | str s2 =>
    rw [rdemands_fields] at h
    · simpa using h
    all_goals simp

theorem rdemands_elems_all_eq {child : String} {e0 : JValue} :
    ∀ {es : List JValue}, (∀ e ∈ es, e = e0) →
    ∀ t ∈ rdemands_elems child es, t ∈ rdemands_val child e0
  | [], _, t, ht => by
    rw [rdemands_elems] at ht
    simp at ht
  | e :: es, hall, t, ht => by
    rw [rdemands_elems] at ht
    rcases List.mem_append.mp ht with h1 | h2
    · rw [hall e (List.mem_cons_self _ _)] at h1
      exact h1
    · exact rdemands_elems_all_eq (fun e' he' => hall e' (List.mem_cons_of_mem _ he')) t h2

/-- Coverage induction: when every occurrence of the processed data sits in a
conflict-free occurrence list `R`, the registry stays inside the scalar
occurrences of `R`, and the schema pass materializes every child table the
write pass will demand (arrays being uniform so that the first element is a
faithful representative). -/
theorem cover_main : ∀ n : Nat,
    (∀ s tname data parent R, sizeV data ≤ n → wf_state s = true →
      no_conflict R → known_sub s R →
      (∀ fields, data = .obj fields →
        (∀ o ∈ occs_fields (sanitize_name tname) fields, o ∈ R) ∧
        uniform_fields fields = true) →
      known_sub (create_table_fuel n s tname data parent).1 R ∧
      (∀ fields, data = .obj fields →
        ∀ t ∈ rdemands_fields (sanitize_name tname) fields,
          t ∈ tableNames (create_table_fuel n s tname data parent).1)) ∧
    (∀ s tbl fields R, sizeF fields ≤ n → wf_state s = true → tbl ∈ tableNames s →
      chars_fixed tbl = true → no_conflict R → known_sub s R →
      (∀ o ∈ occs_fields tbl fields, o ∈ R) → uniform_fields fields = true →
      known_sub (ensure_fields_fuel n s tbl fields).1 R ∧
      (∀ t ∈ rdemands_fields tbl fields,
        t ∈ tableNames (ensure_fields_fuel n s tbl fields).1)) := by
  intro n
  induction n with
  | zero =>
    constructor
    · intro s tname data parent R hsz _ _ _ _
      exact absurd hsz (by have := one_le_sizeV data; omega)
    · intro s tbl fields R hsz _ _ _ _ _ _ _
      exact absurd hsz (by have := one_le_sizeF fields; omega)
  | succ n ih =>
    obtain ⟨ihPc, ihQc⟩ := ih
    constructor
    · -- create_table_fuel (n+1)
      intro s tname data parent R hsz hwf hnc hsub hocc
      have hfixt : chars_fixed (sanitize_name tname) = true := chars_fixed_sanitize tname
      by_cases hkn : sanitize_name tname ∈ known_table_names s
      · have hs1 : ∀ d : JValue, create_table_fuel (n+1) s tname d parent =
            (match d with
             | .obj fields => ensure_fields_fuel n s (sanitize_name tname) fields
             | _ => (s, .error .attributeError)) := by
          intro d
          simp only [create_table_fuel]
          rw [if_pos (decide_eq_true hkn)]
        have htbl : sanitize_name tname ∈ tableNames s := wf_known_tbl hwf hkn
        cases data with
        | obj fields =>
          have hszf : sizeF fields ≤ n := by
            simp only [sizeV] at hsz
            omega
          have hq := ihQc s (sanitize_name tname) fields R hszf hwf htbl hfixt hnc hsub
            (hocc fields rfl).1 (hocc fields rfl).2
          rw [hs1 (.obj fields)]
          refine ⟨hq.1, ?_⟩
          intro fields' heq
          cases heq
          exact hq.2
        | null =>
          rw [hs1 .null]
          exact ⟨hsub, fun fields h => by cases h⟩
        | bool b =>
          rw [hs1 (.bool b)]
          exact ⟨hsub, fun fields h => by cases h⟩
        | int m =>
          rw [hs1 (.int m)]
          exact ⟨hsub, fun fields h => by cases h⟩
        | real =>
          rw [hs1 .real]
          exact ⟨hsub, fun fields h => by cases h⟩
        | str str =>
          rw [hs1 (.str str)]
          exact ⟨hsub, fun fields h => by cases h⟩
        | arr elems =>
          rw [hs1 (.arr elems)]
          exact ⟨hsub, fun fields h => by cases h⟩
      · have hreg := register_create_spec s (sanitize_name tname) (base_cols parent)
          hwf hkn
        obtain ⟨hm1, hwf1, htbl1, hktbl1, hkc_nil, _, _, hkc_other⟩ := hreg
        have hks1 : known_sub (db_create_table_if_not_exists
            (register_table s (sanitize_name tname)) (sanitize_name tname)
            (base_cols parent)) R := by
          intro t c hc
          by_cases ht : t = sanitize_name tname
          · subst ht
            rw [hkc_nil] at hc
            simp at hc
          · rw [hkc_other t ht] at hc
            exact hsub t c hc
        have hs1 : ∀ d : JValue, create_table_fuel (n+1) s tname d parent =
            (match d with
             | .obj fields => ensure_fields_fuel n
                 (db_create_table_if_not_exists (register_table s (sanitize_name tname))
                   (sanitize_name tname) (base_cols parent)) (sanitize_name tname) fields
             | _ => (db_create_table_if_not_exists (register_table s (sanitize_name tname))
                 (sanitize_name tname) (base_cols parent), .error .attributeError)) := by
          intro d
          simp only [create_table_fuel]
          rw [if_neg (by simp [hkn])]
        cases data with
        | obj fields =>
          have hszf : sizeF fields ≤ n := by
            simp only [sizeV] at hsz
            omega
          have hq := ihQc _ (sanitize_name tname) fields R hszf hwf1 htbl1 hfixt hnc hks1
            (hocc fields rfl).1 (hocc fields rfl).2
          rw [hs1 (.obj fields)]
          refine ⟨hq.1, ?_⟩
          intro fields' heq
          cases heq
          exact hq.2
        | null =>
          rw [hs1 .null]
          exact ⟨hks1, fun fields h => by cases h⟩
        | bool b =>
          rw [hs1 (.bool b)]
          exact ⟨hks1, fun fields h => by cases h⟩
        | int m =>
          rw [hs1 (.int m)]
          exact ⟨hks1, fun fields h => by cases h⟩
        | real =>
          rw [hs1 .real]
          exact ⟨hks1, fun fields h => by cases h⟩
        | str str =>
          rw [hs1 (.str str)]
          exact ⟨hks1, fun fields h => by cases h⟩
        | arr elems =>
          rw [hs1 (.arr elems)]
          exact ⟨hks1, fun fields h => by cases h⟩
    · -- ensure_fields_fuel (n+1)
      intro s tbl fields R hsz hwf htbl hfix hnc hsub ho hu
      cases fields with
      | nil =>
        refine ⟨hsub, ?_⟩
        intro t ht
        rw [rdemands_fields] at ht
        simp at ht
      | cons kv rest =>
        obtain ⟨k, v⟩ := kv
        have hszr : sizeF rest ≤ n := by
          have := one_le_sizeV v
          simp only [sizeF] at hsz
          omega
        have hszv : sizeV v ≤ n := by
          have := one_le_sizeF rest
          simp only [sizeF] at hsz
          omega
        have horest : ∀ o ∈ occs_fields tbl rest, o ∈ R :=
          fun o hoo => ho o (occs_fields_cons_sub tbl k v rest o hoo)
        have hu2 : uniform_val v = true ∧ uniform_fields rest = true := by
          rw [uniform_fields] at hu
          simp only [Bool.and_eq_true] at hu
          exact hu
        have hurest := hu2.2
        by_cases hk : sanitize_name k ∈ known_cols s tbl
        · -- column already known: the field is skipped
          have hunf : ensure_fields_fuel (n+1) s tbl ((k, v) :: rest) =
              ensure_fields_fuel n s tbl rest := by
            show (if decide (sanitize_name k ∈ known_cols s tbl) then
                ensure_fields_fuel n s tbl rest
              else _) = _
            rw [if_pos (decide_eq_true hk)]
          rw [hunf]
          have hq := ihQc s tbl rest R hszr hwf htbl hfix hnc hsub horest hurest
          refine ⟨hq.1, ?_⟩
          intro t ht
          cases v with
          | obj g =>
            exact absurd (ho _ (occs_cons_obj_sub tbl k g rest).1)
              (hnc _ (hsub tbl _ hk) rfl)
          | arr elems =>
            cases elems with
            | nil => exact hq.2 t (rdemands_cons_skip (Or.inr (Or.inl rfl)) ht)
            | cons e0 es =>
              by_cases hdict : isDict e0 = true
              · exact absurd (ho _ (occs_cons_arr_sub tbl k e0 es rest hdict).1)
                  (hnc _ (hsub tbl _ hk) rfl)
              · exact hq.2 t (rdemands_cons_skip
                  (Or.inr (Or.inr ⟨e0, es, rfl, by simpa using hdict⟩)) ht)
          | null => exact hq.2 t (rdemands_cons_skip (Or.inl (by simp [isDictOrList])) ht)
          | bool b => exact hq.2 t (rdemands_cons_skip (Or.inl (by simp [isDictOrList])) ht)
          | int m => exact hq.2 t (rdemands_cons_skip (Or.inl (by simp [isDictOrList])) ht)
          | real => exact hq.2 t (rdemands_cons_skip (Or.inl (by simp [isDictOrList])) ht)
          | str s2 => exact hq.2 t (rdemands_cons_skip (Or.inl (by simp [isDictOrList])) ht)
        · by_cases href : get_sqlite_type v = "REFERENCE"
          · -- composite value
            cases v with
            | obj g =>
              rcases hres : create_table_fuel n s (tbl ++ "__" ++ sanitize_name k)
                  (.obj g) (some tbl) with ⟨s1, r1⟩
              have hp := (schema_main n).1 s (tbl ++ "__" ++ sanitize_name k) (.obj g)
                (some tbl) hszv hwf
              rw [hres] at hp
              obtain ⟨hok, _, _⟩ := hp.2.2.2.2 g rfl
              have hchild : sanitize_name (tbl ++ "__" ++ sanitize_name k) =
                  tbl ++ "__" ++ sanitize_name k :=
                child_sanitize_fixed hfix (chars_fixed_sanitize k)
              have hargs : ∀ fields', JValue.obj g = JValue.obj fields' →
                  (∀ o ∈ occs_fields (sanitize_name (tbl ++ "__" ++ sanitize_name k))
                    fields', o ∈ R) ∧
                  uniform_fields fields' = true := by
                intro fields' heq
                cases heq
                constructor
                · rw [hchild]
                  exact fun o hoo => ho o ((occs_cons_obj_sub tbl k g rest).2 o hoo)
                · have huv := hu2.1
                  rw [uniform_val] at huv
                  exact huv
              have hpc := ihPc s (tbl ++ "__" ++ sanitize_name k) (.obj g) (some tbl) R
                hszv hwf hnc hsub hargs
              rw [hres] at hpc
              have hcov_inner := hpc.2 g rfl
              rw [hchild] at hcov_inner
              have hunf : ensure_fields_fuel (n+1) s tbl ((k, .obj g) :: rest) =
                  ensure_fields_fuel n s1 tbl rest := by
                show (if decide (sanitize_name k ∈ known_cols s tbl) then
                    ensure_fields_fuel n s tbl rest
                  else if get_sqlite_type (.obj g) = "REFERENCE" then
                    match create_table_fuel n s (tbl ++ "__" ++ sanitize_name k)
                        (.obj g) (some tbl) with
                    | (s', .ok _) => ensure_fields_fuel n s' tbl rest
                    | (s', .error e) => (s', .error e)
                  else _) = _
                rw [if_neg (by simp [hk]), if_pos href, hres]
                have hok2 : r1 = Except.ok () := hok
                simp only [hok2]
              rw [hunf]
              have hq2 := (schema_main n).2 s1 tbl rest hszr hp.2.1 (hp.1.1 _ htbl) hfix
              have hqc := ihQc s1 tbl rest R hszr hp.2.1 (hp.1.1 _ htbl) hfix hnc hpc.1
                horest hurest
              refine ⟨hqc.1, ?_⟩
              intro t ht
              rw [rdemands_fields] at ht
              rcases List.mem_append.mp ht with hhead | htl
              · rcases List.mem_cons.mp hhead with hteq | hin
                · rw [hteq]
                  refine hq2.2.1.1 _ ?_
                  have := hp.2.2.1
                  rw [hchild] at this
                  exact this
                · exact hq2.2.1.1 _ (hcov_inner t hin)
              · exact hqc.2 t htl
            | arr elems =>
              cases elems with
              | nil =>
                have hunf : ensure_fields_fuel (n+1) s tbl ((k, .arr []) :: rest) =
                    ensure_fields_fuel n s tbl rest := by
                  show (if decide (sanitize_name k ∈ known_cols s tbl) then
                      ensure_fields_fuel n s tbl rest
                    else if get_sqlite_type (.arr []) = "REFERENCE" then
                      ensure_fields_fuel n s tbl rest
                    else _) = _
                  rw [if_neg (by simp [hk]), if_pos href]
                rw [hunf]
                have hq := ihQc s tbl rest R hszr hwf htbl hfix hnc hsub horest hurest
                refine ⟨hq.1, ?_⟩
                intro t ht
                exact hq.2 t (rdemands_cons_skip (Or.inr (Or.inl rfl)) ht)
              | cons e0 es =>
                by_cases hdict : isDict e0 = true
                · obtain ⟨g, rfl⟩ : ∃ g, e0 = .obj g := by
                    cases e0 <;> simp [isDict] at hdict <;> exact ⟨_, rfl⟩
                  have hsze : sizeV (.obj g) ≤ n := by
                    simp only [sizeF, sizeV, sizeE] at hsz
                    have := one_le_sizeF rest
                    have := one_le_sizeE es
                    simp only [sizeV]
                    omega
                  rcases hres : create_table_fuel n s (tbl ++ "__" ++ sanitize_name k)
                      (.obj g) (some tbl) with ⟨s1, r1⟩
                  have hp := (schema_main n).1 s (tbl ++ "__" ++ sanitize_name k)
                    (.obj g) (some tbl) hsze hwf
                  rw [hres] at hp
                  obtain ⟨hok, _, _⟩ := hp.2.2.2.2 g rfl
                  have hchild : sanitize_name (tbl ++ "__" ++ sanitize_name k) =
                      tbl ++ "__" ++ sanitize_name k :=
                    child_sanitize_fixed hfix (chars_fixed_sanitize k)
                  have huarr := hu2.1
                  rw [uniform_val, if_pos (by simp [isDict])] at huarr
                  simp only [Bool.and_eq_true] at huarr
                  have huarr2 := huarr
                  have hall : ∀ e ∈ es, e = JValue.obj g := by
                    intro e he
                    exact eq_of_beq (List.all_eq_true.mp huarr2.1 e he)
                  have hu0 : uniform_fields g = true := by
                    have := huarr2.2
                    rw [uniform_val] at this
                    exact this
                  have hargs : ∀ fields', JValue.obj g = JValue.obj fields' →
                      (∀ o ∈ occs_fields (sanitize_name (tbl ++ "__" ++ sanitize_name k))
                        fields', o ∈ R) ∧
                      uniform_fields fields' = true := by
                    intro fields' heq
                    cases heq
                    constructor
                    · rw [hchild]
                      intro o hoo
                      refine ho o ((occs_cons_arr_sub tbl k (.obj g) es rest hdict).2 o
                        (List.mem_append_left _ ?_))
                      rw [occs_val]
                      exact hoo
                    · exact hu0
                  have hpc := ihPc s (tbl ++ "__" ++ sanitize_name k) (.obj g)
                    (some tbl) R hsze hwf hnc hsub hargs
                  rw [hres] at hpc
                  have hcov_inner := hpc.2 g rfl
                  rw [hchild] at hcov_inner
                  have hunf : ensure_fields_fuel (n+1) s tbl
                      ((k, .arr (.obj g :: es)) :: rest) =
                      ensure_fields_fuel n s1 tbl rest := by
                    show (if decide (sanitize_name k ∈ known_cols s tbl) then
                        ensure_fields_fuel n s tbl rest
                      else if get_sqlite_type (.arr (.obj g :: es)) = "REFERENCE" then
                        if isDict (.obj g) then
                          match create_table_fuel n s (tbl ++ "__" ++ sanitize_name k)
                              (.obj g) (some tbl) with
                          | (s', .ok _) => ensure_fields_fuel n s' tbl rest
                          | (s', .error e) => (s', .error e)
                        else ensure_fields_fuel n s tbl rest
                      else _) = _
                    rw [if_neg (by simp [hk]), if_pos href, if_pos (by simp [isDict]),
                      hres]
                    have hok2 : r1 = Except.ok () := hok
                    simp only [hok2]
                  rw [hunf]
                  have hq2 := (schema_main n).2 s1 tbl rest hszr hp.2.1 (hp.1.1 _ htbl)
                    hfix
                  have hqc := ihQc s1 tbl rest R hszr hp.2.1 (hp.1.1 _ htbl) hfix hnc
                    hpc.1 horest hurest
                  refine ⟨hqc.1, ?_⟩
                  intro t ht
                  rw [rdemands_fields, if_pos (by simp [isDict])] at ht
                  rcases List.mem_append.mp ht with hhead | htl
                  · rcases List.mem_cons.mp hhead with hteq | hin
                    · rw [hteq]
                      refine hq2.2.1.1 _ ?_
                      have := hp.2.2.1
                      rw [hchild] at this
                      exact this
                    · rcases List.mem_append.mp hin with hv | hes
                      · rw [rdemands_val] at hv
                        exact hq2.2.1.1 _ (hcov_inner t hv)
                      · have := rdemands_elems_all_eq hall t hes
                        rw [rdemands_val] at this
                        exact hq2.2.1.1 _ (hcov_inner t this)
                  · exact hqc.2 t htl
                · have hunf : ensure_fields_fuel (n+1) s tbl
                      ((k, .arr (e0 :: es)) :: rest) =
                      ensure_fields_fuel n s tbl rest := by
                    show (if decide (sanitize_name k ∈ known_cols s tbl) then
                        ensure_fields_fuel n s tbl rest
                      else if get_sqlite_type (.arr (e0 :: es)) = "REFERENCE" then
                        if isDict e0 then
                          match create_table_fuel n s (tbl ++ "__" ++ sanitize_name k)
                              e0 (some tbl) with
                          | (s', .ok _) => ensure_fields_fuel n s' tbl rest
                          | (s', .error e) => (s', .error e)
                        else ensure_fields_fuel n s tbl rest
                      else _) = _
                    rw [if_neg (by simp [hk]), if_pos href, if_neg (by simp [hdict])]
                  rw [hunf]
                  have hq := ihQc s tbl rest R hszr hwf htbl hfix hnc hsub horest hurest
                  refine ⟨hq.1, ?_⟩
                  intro t ht
                  exact hq.2 t (rdemands_cons_skip
                    (Or.inr (Or.inr ⟨e0, es, rfl, by simpa using hdict⟩)) ht)
            | null => simp [get_sqlite_type, isinstance_bool, isinstance_int,
                isinstance_float, isDictOrList] at href
            | bool b => simp [get_sqlite_type, isinstance_bool, isinstance_int,
                isinstance_float, isDictOrList] at href
            | int m => simp [get_sqlite_type, isinstance_bool, isinstance_int,
                isinstance_float, isDictOrList] at href
            | real => simp [get_sqlite_type, isinstance_bool, isinstance_int,
                isinstance_float, isDictOrList] at href
            | str str => simp [get_sqlite_type, isinstance_bool, isinstance_int,
                isinstance_float, isDictOrList] at href
          · -- scalar value
            obtain ⟨s', heq, hm', hwf', htn', hktn', hcol', hother', hgrow', hdup'⟩ :=
              try_add_column_spec s tbl (sanitize_name k) (get_sqlite_type v) hwf htbl
            have hscalv : isDictOrList v = false := by
              rcases hb : isDictOrList v with _ | _
              · rfl
              · exact absurd ((get_ref_iff v).mpr hb) href
            have hunf : ensure_fields_fuel (n+1) s tbl ((k, v) :: rest) =
                ensure_fields_fuel n s' tbl rest := by
              cases v with
              | obj g => simp [isDictOrList] at hscalv
              | arr elems => simp [isDictOrList] at hscalv
              | null =>
                show (if decide (sanitize_name k ∈ known_cols s tbl) then
                    ensure_fields_fuel n s tbl rest
                  else if get_sqlite_type .null = "REFERENCE" then _
                  else
                    match try_add_column s tbl (sanitize_name k)
                        (get_sqlite_type .null) with
                    | (s', .ok _) => ensure_fields_fuel n s' tbl rest
                    | (s', .error e) => (s', .error e)) = _
                rw [if_neg (by simp [hk]), if_neg href, heq]
              | bool b =>
                show (if decide (sanitize_name k ∈ known_cols s tbl) then
                    ensure_fields_fuel n s tbl rest
                  else if get_sqlite_type (.bool b) = "REFERENCE" then _
                  else
                    match try_add_column s tbl (sanitize_name k)
                        (get_sqlite_type (.bool b)) with
                    | (s', .ok _) => ensure_fields_fuel n s' tbl rest
                    | (s', .error e) => (s', .error e)) = _
                rw [if_neg (by simp [hk]), if_neg href, heq]
              | int m =>
                show (if decide (sanitize_name k ∈ known_cols s tbl) then
                    ensure_fields_fuel n s tbl rest
                  else if get_sqlite_type (.int m) = "REFERENCE" then _
                  else
                    match try_add_column s tbl (sanitize_name k)
                        (get_sqlite_type (.int m)) with
                    | (s', .ok _) => ensure_fields_fuel n s' tbl rest
                    | (s', .error e) => (s', .error e)) = _
                rw [if_neg (by simp [hk]), if_neg href, heq]
              | real =>
                show (if decide (sanitize_name k ∈ known_cols s tbl) then
                    ensure_fields_fuel n s tbl rest
                  else if get_sqlite_type .real = "REFERENCE" then _
                  else
                    match try_add_column s tbl (sanitize_name k)
                        (get_sqlite_type .real) with
                    | (s', .ok _) => ensure_fields_fuel n s' tbl rest
                    | (s', .error e) => (s', .error e)) = _
                rw [if_neg (by simp [hk]), if_neg href, heq]
              | str str =>
                show (if decide (sanitize_name k ∈ known_cols s tbl) then
                    ensure_fields_fuel n s tbl rest
                  else if get_sqlite_type (.str str) = "REFERENCE" then _
                  else
                    match try_add_column s tbl (sanitize_name k)
                        (get_sqlite_type (.str str)) with
                    | (s', .ok _) => ensure_fields_fuel n s' tbl rest
                    | (s', .error e) => (s', .error e)) = _
                rw [if_neg (by simp [hk]), if_neg href, heq]
            rw [hunf]
            have hsub' : known_sub s' R := by
              intro t c hc
              have hc' : c ∈ known_cols
                  (try_add_column s tbl (sanitize_name k) (get_sqlite_type v)).1 t := by
                rw [heq]
                exact hc
              rcases try_add_column_known hc' with h1 | ⟨h1, h2⟩
              · exact hsub t c h1
              · rw [h1, h2]
                exact ho _ (occs_cons_scalar_head hscalv)
            have hq := ihQc s' tbl rest R hszr hwf' (by rw [htn']; exact htbl) hfix hnc
              hsub' horest hurest
            refine ⟨hq.1, ?_⟩
            intro t ht
            exact hq.2 t (rdemands_cons_skip (Or.inl hscalv) ht)

/-- Folding the coverage induction over a whole input array: the schema pass
succeeds, stays well-formed, writes no row, keeps the registry inside the
scalar occurrences, and materializes every child table any document's write
will demand. -/
theorem schema_pass_cover (root : String) :
    ∀ (ds : List JValue) (s : ConvState) (R : List (String × String × Bool)),
    wf_state s = true → no_conflict R → known_sub s R →
    (∀ d ∈ ds, is_doc d ∧ (∀ o ∈ doc_occs (sanitize_name root) d, o ∈ R) ∧
      doc_uniform d = true) →
    (schema_pass_array s root ds).2 = .ok () ∧
    wf_state (schema_pass_array s root ds).1 = true ∧
    known_sub (schema_pass_array s root ds).1 R ∧
    step_mono s (schema_pass_array s root ds).1 ∧
    (∀ d ∈ ds, ∀ t ∈ write_demands (sanitize_name root) d,
      t ∈ tableNames (schema_pass_array s root ds).1)
  | [], s, R, hwf, _, hsub, _ => by
    refine ⟨rfl, hwf, hsub, step_mono_refl s, ?_⟩
    intro d hd
    simp at hd
  | d :: ds, s, R, hwf, hnc, hsub, hds => by
    obtain ⟨hdoc, hocc, huni⟩ := hds d (List.mem_cons_self _ _)
    obtain ⟨fields, rfl⟩ : ∃ fields, d = .obj fields := by
      cases d with
      | obj fields => exact ⟨fields, rfl⟩
      | null => simp [is_doc, isDict] at hdoc
      | bool b => simp [is_doc, isDict] at hdoc
      | int m => simp [is_doc, isDict] at hdoc
      | real => simp [is_doc, isDict] at hdoc
      | str s2 => simp [is_doc, isDict] at hdoc
      | arr l => simp [is_doc, isDict] at hdoc
    rcases hres : create_table_if_not_exists s root (.obj fields) none with ⟨s1, r1⟩
    have hp := (schema_main (sizeV (JValue.obj fields))).1 s root (.obj fields) none
      (le_refl _) hwf
    have hargs : ∀ fields', JValue.obj fields = JValue.obj fields' →
        (∀ o ∈ occs_fields (sanitize_name root) fields', o ∈ R) ∧
        uniform_fields fields' = true := by
      intro fields' heq
      cases heq
      exact ⟨hocc, huni⟩
    have hpc := (cover_main (sizeV (JValue.obj fields))).1 s root (.obj fields) none R
      (le_refl _) hwf hnc hsub hargs
    rw [show create_table_fuel (sizeV (JValue.obj fields)) s root (.obj fields) none =
      (s1, r1) from hres] at hp hpc
    have hok : r1 = Except.ok () := (hp.2.2.2.2 fields rfl).1
    have hunf : schema_pass_array s root (.obj fields :: ds) =
        schema_pass_array s1 root ds := by
      rw [schema_pass_array, hres, hok]
    rw [hunf]
    have hrest : ∀ d' ∈ ds, is_doc d' ∧
        (∀ o ∈ doc_occs (sanitize_name root) d', o ∈ R) ∧ doc_uniform d' = true :=
      fun d' hd' => hds d' (List.mem_cons_of_mem _ hd')
    have ih := schema_pass_cover root ds s1 R hp.2.1 hnc hpc.1 hrest
    refine ⟨ih.1, ih.2.1, ih.2.2.1, step_mono_trans hp.1 ih.2.2.2.1, ?_⟩
    intro d' hd' t ht
    rcases List.mem_cons.mp hd' with heq | hmem
    · subst heq
      have hbr := (demands_bridge (sizeF fields)).1 (sanitize_name root) fields
        (le_refl _) t ht
      exact ih.2.2.2.1.1 t (hpc.2 fields rfl t hbr)
    · exact ih.2.2.2.2 d' hmem t ht

instance (d : JValue) : Decidable (is_doc d) := by
  unfold is_doc
  infer_instance

/-- C1 counterexample: on the array input `[{"a": 1}, {"a": {"x": 1}}]` the
schema pass completes successfully, yet the write pass of the second document
targets the child table `root__a`, which the schema pass never created: the
first document recorded column `a` as a scalar, so the second document's
composite field is skipped by the registry check. -/
theorem c1_counterexample :
    (schema_pass_array initState "root"
      [JValue.obj [("a", JValue.int 1)],
       JValue.obj [("a", JValue.obj [("x", JValue.int 1)])]]).2 = Except.ok () ∧
    "root__a" ∈ write_demands "root"
      (JValue.obj [("a", JValue.obj [("x", JValue.int 1)])]) ∧
    "root__a" ∉ tableNames (schema_pass_array initState "root"
      [JValue.obj [("a", JValue.int 1)],
       JValue.obj [("a", JValue.obj [("x", JValue.int 1)])]]).1 := by
  refine ⟨by decide, ?_, by decide⟩
  show "root__a" ∈ demands_obj "root" [("a", JValue.obj [("x", JValue.int 1)])]
  rw [demands_obj]
  have hpart : (partition_fields [("a", JValue.obj [("x", JValue.int 1)])]).2 =
      [("a", JValue.obj [("x", JValue.int 1)])] := by decide
  rw [hpart, demands_nested]
  have hs : ("root" : String) ++ "__" ++ "a" = "root__a" := by decide
  rw [hs]
  exact List.mem_append_left _ (List.mem_cons_self _ _)

/-- C1 (corrected): for array-backed input starting from a fresh database,
when every document is a JSON object, every decomposed array is uniform (all
elements equal to the first), and no table/column position occurs both as a
scalar and as a decomposed composite anywhere in the input, the
schema-discovery pass runs to completion without error and without writing
any row, and every child table any document's write pass will target exists
when insertion begins. Without the no-conflict condition the guarantee fails
(see the counterexample). -/
theorem c1_theorem (root : String) (items : List JValue)
    (hdocs : ∀ d ∈ items, is_doc d)
    (hnc : no_conflict (all_occs (sanitize_name root) items))
    (huni : ∀ d ∈ items, doc_uniform d = true) :
    (schema_pass_array initState root items).2 = .ok () ∧
    (∀ t, table_rows (schema_pass_array initState root items).1 t = []) ∧
    (∀ d ∈ items, ∀ t ∈ write_demands (sanitize_name root) d,
      t ∈ tableNames (schema_pass_array initState root items).1) := by
  have hcov := schema_pass_cover root items initState
    (all_occs (sanitize_name root) items) rfl hnc
    (fun t c hc => absurd hc (List.not_mem_nil c))
    (fun d hd => ⟨hdocs d hd,
      fun o hoo => List.mem_flatMap.mpr ⟨d, hd, hoo⟩, huni d hd⟩)
  refine ⟨hcov.1, ?_, hcov.2.2.2.2⟩
  intro t
  have hrows := hcov.2.2.2.1.2.2.2.2 t
  rw [hrows]
  rfl

/-- C1 witness: a concrete conflict-free array input on which the corrected
guarantee holds. -/
theorem c1_witness :
    (schema_pass_array initState "root"
      [JValue.obj [("id", JValue.int 1),
        ("addr", JValue.obj [("city", JValue.str "X")])]]).2 = Except.ok () ∧
    (∀ t, table_rows (schema_pass_array initState "root"
      [JValue.obj [("id", JValue.int 1),
        ("addr", JValue.obj [("city", JValue.str "X")])]]).1 t = []) ∧
    (∀ d ∈ [JValue.obj [("id", JValue.int 1),
        ("addr", JValue.obj [("city", JValue.str "X")])]],
      ∀ t ∈ write_demands (sanitize_name "root") d,
        t ∈ tableNames (schema_pass_array initState "root"
          [JValue.obj [("id", JValue.int 1),
            ("addr", JValue.obj [("city", JValue.str "X")])]]).1) :=
  c1_theorem "root" _ (by decide) (by decide) (by decide)

/-! ## Claim C9: arrays with a non-object later element -/

theorem insert_nonobj (n : Nat) (s : ConvState) (tname : String) (pid : Option Int)
    (e : JValue) (he : isDict e = false) :
    insert_data_fuel (n+1) s tname e pid = (s, .error .attributeError) := by
  cases e with
  | obj g => simp [isDict] at he
  | null => rfl
  | bool b => rfl
  | int m => rfl
  | real => rfl
  | str s2 => rfl
  | arr l => rfl

theorem insert_each_bad : ∀ (n : Nat) (s : ConvState) (child : String) (rid : Int)
    (elems : List JValue), (∃ e ∈ elems, isDict e = false) →
    ∃ er, (insert_each_fuel n s child rid elems).2 = .error er := by
  intro n
  induction n with
  | zero =>
    intro s child rid elems _
    exact ⟨.fuelExhausted, rfl⟩
  | succ n ih =>
    intro s child rid elems hbad
    obtain ⟨e, he, hde⟩ := hbad
    cases elems with
    | nil => simp at he
    | cons e1 es1 =>
      rcases hres : insert_data_fuel n s child e1 (some rid) with ⟨s', r'⟩
      cases r' with
      | error er =>
        refine ⟨er, ?_⟩
        show (match insert_data_fuel n s child e1 (some rid) with
          | (s', .ok _) => insert_each_fuel n s' child rid es1
          | (s', .error er) => (s', .error er)).2 = _
        rw [hres]
      | ok rid1 =>
        rcases List.mem_cons.mp he with heq | hmem
        · exfalso
          subst heq
          cases n with
          | zero =>
            have h0 : insert_data_fuel 0 s child e (some rid) =
                (s, .error .fuelExhausted) := rfl
            rw [h0] at hres
            simp at hres
          | succ m =>
            rw [insert_nonobj m s child (some rid) e hde] at hres
            simp at hres
        · obtain ⟨er, her⟩ := ih s' child rid es1 ⟨e, hmem, hde⟩
          refine ⟨er, ?_⟩
          show (match insert_data_fuel n s child e1 (some rid) with
            | (s', .ok _) => insert_each_fuel n s' child rid es1
            | (s', .error er) => (s', .error er)).2 = _
          rw [hres]
          exact her

theorem insert_nested_bad : ∀ (n : Nat) (s : ConvState) (tbl : String) (rid : Int)
    (l : List (String × JValue)) (col : String) (e0 : JValue) (es : List JValue),
    (col, .arr (e0 :: es)) ∈ l → isDict e0 = true → (∃ e ∈ es, isDict e = false) →
    ∃ er, (insert_nested_fuel n s tbl rid l).2 = .error er := by
  intro n
  induction n with
  | zero =>
    intro s tbl rid l col e0 es _ _ _
    exact ⟨.fuelExhausted, rfl⟩
  | succ n ih =>
    intro s tbl rid l col e0 es hmem hd0 hbad
    cases l with
    | nil => simp at hmem
    | cons cv rest =>
      obtain ⟨c, v⟩ := cv
      rcases List.mem_cons.mp hmem with heq | hmem'
      · injection heq with h1 h2
        subst h1
        subst h2
        obtain ⟨e, he, hde⟩ := hbad
        obtain ⟨er, her⟩ := insert_each_bad n s (tbl ++ "__" ++ col) rid (e0 :: es)
          ⟨e, List.mem_cons_of_mem _ he, hde⟩
        rcases hres : insert_each_fuel n s (tbl ++ "__" ++ col) rid (e0 :: es)
          with ⟨s', r'⟩
        rw [hres] at her
        have hr' : r' = .error er := her
        subst hr'
        refine ⟨er, ?_⟩
        show (if isDict e0 then
            match insert_each_fuel n s (tbl ++ "__" ++ col) rid (e0 :: es) with
            | (s', .ok _) => insert_nested_fuel n s' tbl rid rest
            | (s', .error e) => (s', .error e)
          else insert_nested_fuel n s tbl rid rest).2 = _
        rw [if_pos hd0, hres]
      · cases v with
        | obj g =>
          rcases hres : insert_data_fuel n s (tbl ++ "__" ++ c) (.obj g) (some rid)
            with ⟨s', r'⟩
          cases r' with
          | ok rid1 =>
            obtain ⟨er, her⟩ := ih s' tbl rid rest col e0 es hmem' hd0 hbad
            refine ⟨er, ?_⟩
            show (match insert_data_fuel n s (tbl ++ "__" ++ c) (.obj g) (some rid) with
              | (s', .ok _) => insert_nested_fuel n s' tbl rid rest
              | (s', .error e) => (s', .error e)).2 = _
            rw [hres]
            exact her
          | error er0 =>
            refine ⟨er0, ?_⟩
            show (match insert_data_fuel n s (tbl ++ "__" ++ c) (.obj g) (some rid) with
              | (s', .ok _) => insert_nested_fuel n s' tbl rid rest
              | (s', .error e) => (s', .error e)).2 = _
            rw [hres]
        | arr elems =>
          cases elems with
          | nil => exact ih s tbl rid rest col e0 es hmem' hd0 hbad
          | cons f0 fs =>
            by_cases hdf : isDict f0 = true
            · rcases hres : insert_each_fuel n s (tbl ++ "__" ++ c) rid (f0 :: fs)
                with ⟨s', r'⟩
              cases r' with
              | ok u =>
                obtain ⟨er, her⟩ := ih s' tbl rid rest col e0 es hmem' hd0 hbad
                refine ⟨er, ?_⟩
                show (if isDict f0 then
                    match insert_each_fuel n s (tbl ++ "__" ++ c) rid (f0 :: fs) with
                    | (s', .ok _) => insert_nested_fuel n s' tbl rid rest
                    | (s', .error e) => (s', .error e)
                  else insert_nested_fuel n s tbl rid rest).2 = _
                rw [if_pos hdf, hres]
                exact her
              | error er0 =>
                refine ⟨er0, ?_⟩
                show (if isDict f0 then
                    match insert_each_fuel n s (tbl ++ "__" ++ c) rid (f0 :: fs) with
                    | (s', .ok _) => insert_nested_fuel n s' tbl rid rest
                    | (s', .error e) => (s', .error e)
                  else insert_nested_fuel n s tbl rid rest).2 = _
                rw [if_pos hdf, hres]
            · obtain ⟨er, her⟩ := ih s tbl rid rest col e0 es hmem' hd0 hbad
              refine ⟨er, ?_⟩
              show (if isDict f0 then
                  match insert_each_fuel n s (tbl ++ "__" ++ c) rid (f0 :: fs) with
                  | (s', .ok _) => insert_nested_fuel n s' tbl rid rest
                  | (s', .error e) => (s', .error e)
                else insert_nested_fuel n s tbl rid rest).2 = _
              rw [if_neg (by simp [hdf])]
              exact her
        | null => exact ih s tbl rid rest col e0 es hmem' hd0 hbad
        | bool b => exact ih s tbl rid rest col e0 es hmem' hd0 hbad
        | int m => exact ih s tbl rid rest col e0 es hmem' hd0 hbad
        | real => exact ih s tbl rid rest col e0 es hmem' hd0 hbad
        | str s2 => exact ih s tbl rid rest col e0 es hmem' hd0 hbad

theorem insert_record_bad (n : Nat) (s : ConvState) (tname : String)
    (pid : Option Int) (fields : List (String × JValue)) (col : String) (e0 : JValue)
    (es : List JValue)
    (hmem : (col, .arr (e0 :: es)) ∈ (partition_fields fields).2)
    (hd0 : isDict e0 = true) (hbad : ∃ e ∈ es, isDict e = false) :
    ∃ er, (insert_data_fuel n s tname (.obj fields) pid).2 = .error er := by
  cases n with
  | zero => exact ⟨.fuelExhausted, rfl⟩
  | succ n =>
    rcases hres : insert_row_step s (sanitize_name tname) (partition_fields fields).1 pid
      with ⟨s1, r1⟩
    cases r1 with
    | error er =>
      refine ⟨er, ?_⟩
      show (match insert_row_step s (sanitize_name tname)
          (partition_fields fields).1 pid with
        | (s1, .error e) => ((s1, .error e) : ConvState × Except SqlError Int)
        | (s1, .ok rid) =>
          match insert_nested_fuel n s1 (sanitize_name tname) rid
              (partition_fields fields).2 with
          | (s2, .error e) => (s2, .error e)
          | (s2, .ok _) => (s2, .ok rid)).2 = _
      rw [hres]
    | ok rid =>
      obtain ⟨er, her⟩ := insert_nested_bad n s1 (sanitize_name tname) rid
        (partition_fields fields).2 col e0 es hmem hd0 hbad
      rcases hres2 : insert_nested_fuel n s1 (sanitize_name tname) rid
        (partition_fields fields).2 with ⟨s2, r2⟩
      rw [hres2] at her
      have hr2 : r2 = .error er := her
      subst hr2
      refine ⟨er, ?_⟩
      show (match insert_row_step s (sanitize_name tname)
          (partition_fields fields).1 pid with
        | (s1, .error e) => ((s1, .error e) : ConvState × Except SqlError Int)
        | (s1, .ok rid) =>
          match insert_nested_fuel n s1 (sanitize_name tname) rid
              (partition_fields fields).2 with
          | (s2, .error e) => (s2, .error e)
          | (s2, .ok _) => (s2, .ok rid)).2 = _
      rw [hres]
      show (match insert_nested_fuel n s1 (sanitize_name tname) rid
          (partition_fields fields).2 with
        | (s2, .error e) => ((s2, .error e) : ConvState × Except SqlError Int)
        | (s2, .ok _) => (s2, .ok rid)).2 = _
      rw [hres2]

/-- C9 counterexample: the document
`{"a!": [{"x": 1}, 5], "a?": {"y": 1}}` contains an array whose first element
is an object and whose second element is not, yet its insertion (after the
schema pass over it) succeeds with no raise: both field names sanitize to
`a_`, so the later object overwrites the array in the sanitized-keyed
`nested_data` dictionary and the offending array is never inserted. -/
theorem c9_counterexample :
    ("a!", JValue.arr [JValue.obj [("x", JValue.int 1)], JValue.int 5]) ∈
      [("a!", JValue.arr [JValue.obj [("x", JValue.int 1)], JValue.int 5]),
       ("a?", JValue.obj [("y", JValue.int 1)])] ∧
    isDict (JValue.obj [("x", JValue.int 1)]) = true ∧
    isDict (JValue.int 5) = false ∧
    (insert_data (schema_pass_array initState "root"
        [JValue.obj [("a!", JValue.arr [JValue.obj [("x", JValue.int 1)],
          JValue.int 5]), ("a?", JValue.obj [("y", JValue.int 1)])]]).1
      "root"
      (JValue.obj [("a!", JValue.arr [JValue.obj [("x", JValue.int 1)],
        JValue.int 5]), ("a?", JValue.obj [("y", JValue.int 1)])])
      none).2 = .ok 1 :=
  ⟨by decide, by decide, by decide, by decide⟩

/-- C9 (corrected): each non-object value handed to `_insert_data` raises
`AttributeError` at `data.items()` without touching the database, and
whenever an array whose first element is an object but with some non-object
later element actually survives the sanitized-name partitioning into
`nested_data`, the whole record's insertion returns an error instead of
inserting only the object-shaped elements. When the array is displaced from
`nested_data` by a sanitized-key collision, the record can insert
successfully (see the counterexample). -/
theorem c9_theorem (fields : List (String × JValue)) (col : String) (e0 : JValue)
    (es : List JValue)
    (hmem : (col, .arr (e0 :: es)) ∈ (partition_fields fields).2)
    (hd0 : isDict e0 = true)
    (hbad : ∃ e ∈ es, isDict e = false) :
    (∀ (s : ConvState) (tname : String) (pid : Option Int) (e : JValue),
      isDict e = false → insert_data s tname e pid = (s, .error .attributeError)) ∧
    (∀ (s : ConvState) (tname : String) (pid : Option Int),
      ∃ er, (insert_data s tname (.obj fields) pid).2 = .error er) := by
  constructor
  · intro s tname pid e he
    obtain ⟨m, hm⟩ : ∃ m, sizeV e = m + 1 :=
      ⟨sizeV e - 1, by have := one_le_sizeV e; omega⟩
    show insert_data_fuel (sizeV e) s tname e pid = _
    rw [hm]
    exact insert_nonobj m s tname pid e he
  · intro s tname pid
    exact insert_record_bad (sizeV (JValue.obj fields)) s tname pid fields col e0 es
      hmem hd0 hbad

/-- C9 witness: on `{"a": [{"x": 1}, 5]}` (no name collision) the corrected
guarantee applies at concrete inputs. -/
theorem c9_witness :
    (∀ (s : ConvState) (tname : String) (pid : Option Int) (e : JValue),
      isDict e = false → insert_data s tname e pid = (s, .error .attributeError)) ∧
    (∀ (s : ConvState) (tname : String) (pid : Option Int),
      ∃ er, (insert_data s tname
        (.obj [("a", JValue.arr [JValue.obj [("x", JValue.int 1)],
          JValue.int 5])]) pid).2 = .error er) :=
  c9_theorem [("a", JValue.arr [JValue.obj [("x", JValue.int 1)], JValue.int 5])]
    "a" (JValue.obj [("x", JValue.int 1)]) [JValue.int 5]
    (by decide) (by decide) ⟨JValue.int 5, by decide, by decide⟩

/-! ## Claim C3: child-row yield per parent row -/

theorem leads_append_self : ∀ (a b : List Char), leads a (a ++ b) = true
  | [], _ => rfl
  | c :: as, b => by
    simp only [List.cons_append, leads, Bool.and_eq_true]
    exact ⟨by simp, leads_append_self as b⟩

theorem leads_of_append : ∀ (a b c : List Char), leads (a ++ b) c = true → leads a c = true
  | [], _, _, _ => rfl
  | x :: as, b, [], h => by simp [leads] at h
  | x :: as, b, y :: cs, h => by
    simp only [List.cons_append, leads, Bool.and_eq_true] at h ⊢
    exact ⟨h.1, leads_of_append as b cs h.2⟩

theorem leads_length : ∀ {a b : List Char}, leads a b = true → a.length ≤ b.length
  | [], _, _ => by simp
  | x :: as, [], h => by simp [leads] at h
  | x :: as, y :: bs, h => by
    simp only [leads, Bool.and_eq_true] at h
    simp only [List.length_cons]
    have := leads_length h.2
    omega

theorem str_append_assoc (a b c : String) : (a ++ b) ++ c = a ++ (b ++ c) := by
  obtain ⟨la⟩ := a
  obtain ⟨lb⟩ := b
  obtain ⟨lc⟩ := c
  show String.mk ((la ++ lb) ++ lc) = String.mk (la ++ (lb ++ lc))
  rw [List.append_assoc]

theorem str_leads_extend (a b : String) : str_leads a (a ++ b) = true := by
  unfold str_leads
  rw [String.data_append]
  exact leads_append_self _ _

theorem str_leads_shorten {a b u : String} (h : str_leads (a ++ b) u = true) :
    str_leads a u = true := by
  unfold str_leads at h ⊢
  rw [String.data_append] at h
  exact leads_of_append _ _ _ h

theorem not_str_leads_dunder_self (t : String) : ¬ str_leads (t ++ "__") t = true := by
  intro h
  unfold str_leads at h
  have hlen := leads_length h
  rw [String.data_append] at hlen
  rw [List.length_append] at hlen
  have h2 : ("__" : String).data.length = 2 := rfl
  omega

theorem child_dunder_decomp (tbl c : String) :
    (tbl ++ "__" ++ c) ++ "__" = (tbl ++ "__") ++ (c ++ "__") :=
  str_append_assoc (tbl ++ "__") c "__"

/-- The cell list of the row `_insert_data` writes for one record (source
lines 131-165). -/
def row_cells (tbl : String) (simple : List (String × JValue)) (pid : Option Int) :
    List (String × JValue) :=
  match simple, pid with
  | [], some p => [(parent_ref_col tbl, .int p)]
  | [], none => []
  | c :: cs, some p => (c :: cs) ++ [(parent_ref_col tbl, .int p)]
  | c :: cs, none => c :: cs

theorem insert_row_step_eq (s : ConvState) (tbl : String)
    (simple : List (String × JValue)) (pid : Option Int) :
    insert_row_step s tbl simple pid = db_insert_row s tbl (row_cells tbl simple pid) := by
  cases simple <;> cases pid <;> rfl

theorem row_cells_parent (tbl : String) (simple : List (String × JValue)) (p : Int) :
    (parent_ref_col tbl, JValue.int p) ∈ row_cells tbl simple (some p) := by
  cases simple with
  | nil => exact List.mem_cons_self _ _
  | cons c cs => exact List.mem_append_right _ (List.mem_cons_self _ _)

theorem partition_keys_fixed {fields : List (String × JValue)} :
    ∀ cv ∈ (partition_fields fields).2, chars_fixed cv.1 = true := by
  intro cv hcv
  obtain ⟨c, v⟩ := cv
  obtain ⟨k, _, hks⟩ := partition_nested_sub hcv
  rw [← hks]
  exact chars_fixed_sanitize k

/-- Locality of the record writer: inserting a record into (the sanitization
of) `tname` changes the rows of no table other than that table and its
`__`-descendants. -/
theorem insert_local : ∀ n : Nat,
    (∀ s tname data pid u, u ≠ sanitize_name tname →
      ¬ str_leads (sanitize_name tname ++ "__") u = true →
      table_rows (insert_data_fuel n s tname data pid).1 u = table_rows s u) ∧
    (∀ s tbl rid l u, chars_fixed tbl = true →
      (∀ cv ∈ l, chars_fixed cv.1 = true) →
      ¬ str_leads (tbl ++ "__") u = true →
      table_rows (insert_nested_fuel n s tbl rid l).1 u = table_rows s u) ∧
    (∀ s child rid elems u, u ≠ sanitize_name child →
      ¬ str_leads (sanitize_name child ++ "__") u = true →
      table_rows (insert_each_fuel n s child rid elems).1 u = table_rows s u) := by
  intro n
  induction n with
  | zero =>
    refine ⟨?_, ?_, ?_⟩
    · intro s tname data pid u _ _
      rfl
    · intro s tbl rid l u _ _ _
      rfl
    · intro s child rid elems u _ _
      rfl
  | succ n ih =>
    obtain ⟨ihP, ihN, ihE⟩ := ih
    refine ⟨?_, ?_, ?_⟩
    · intro s tname data pid u hne hnl
      cases data with
      | obj fields =>
        rcases hres : insert_row_step s (sanitize_name tname)
          (partition_fields fields).1 pid with ⟨s1, r1⟩
        have h1 : table_rows s1 u = table_rows s u := by
          rw [insert_row_step_eq] at hres
          cases r1 with
          | ok rid0 => exact (db_insert_row_ok hres).2.1 u hne
          | error e => rw [db_insert_row_error hres]
        show table_rows (match insert_row_step s (sanitize_name tname)
            (partition_fields fields).1 pid with
          | (s1, .error e) => ((s1, .error e) : ConvState × Except SqlError Int)
          | (s1, .ok rid) =>
            match insert_nested_fuel n s1 (sanitize_name tname) rid
                (partition_fields fields).2 with
            | (s2, .error e) => (s2, .error e)
            | (s2, .ok _) => (s2, .ok rid)).1 u = _
        rw [hres]
        cases r1 with
        | error e => exact h1
        | ok rid0 =>
          rcases hres2 : insert_nested_fuel n s1 (sanitize_name tname) rid0
            (partition_fields fields).2 with ⟨s2, r2⟩
          have h2 : table_rows s2 u = table_rows s1 u := by
            have hloc := ihN s1 (sanitize_name tname) rid0 (partition_fields fields).2 u
              (chars_fixed_sanitize tname) partition_keys_fixed hnl
            rw [hres2] at hloc
            exact hloc
          show table_rows (match insert_nested_fuel n s1 (sanitize_name tname) rid0
              (partition_fields fields).2 with
            | (s2, .error e) => ((s2, .error e) : ConvState × Except SqlError Int)
            | (s2, .ok _) => (s2, .ok rid0)).1 u = _
          rw [hres2]
          cases r2 with
          | error e => exact h2.trans h1
          | ok w => exact h2.trans h1
      | null => rfl
      | bool b => rfl
      | int m => rfl
      | real => rfl
      | str s2 => rfl
      | arr l => rfl
    · intro s tbl rid l u hfix hkeys hnl
      cases l with
      | nil => rfl
      | cons cv rest =>
        obtain ⟨c, v⟩ := cv
        have hfc : chars_fixed c = true := hkeys (c, v) (List.mem_cons_self _ _)
        have hkr : ∀ cv ∈ rest, chars_fixed cv.1 = true :=
          fun cv h => hkeys cv (List.mem_cons_of_mem _ h)
        have hsanc : sanitize_name (tbl ++ "__" ++ c) = tbl ++ "__" ++ c :=
          child_sanitize_fixed hfix hfc
        have hne' : u ≠ sanitize_name (tbl ++ "__" ++ c) := by
          rw [hsanc]
          intro heq
          apply hnl
          rw [heq]
          exact str_leads_extend (tbl ++ "__") c
        have hnl' : ¬ str_leads (sanitize_name (tbl ++ "__" ++ c) ++ "__") u = true := by
          rw [hsanc]
          intro hlead
          apply hnl
          rw [child_dunder_decomp] at hlead
          exact str_leads_shorten hlead
        cases v with
        | obj g =>
          rcases hres : insert_data_fuel n s (tbl ++ "__" ++ c) (.obj g) (some rid)
            with ⟨s', r'⟩
          have h1 : table_rows s' u = table_rows s u := by
            have hloc := ihP s (tbl ++ "__" ++ c) (.obj g) (some rid) u hne' hnl'
            rw [hres] at hloc
            exact hloc
          show table_rows (match insert_data_fuel n s (tbl ++ "__" ++ c)
              (.obj g) (some rid) with
            | (s', .ok _) => insert_nested_fuel n s' tbl rid rest
            | (s', .error e) => (s', .error e)).1 u = _
          rw [hres]
          cases r' with
          | error e => exact h1
          | ok w => exact (ihN s' tbl rid rest u hfix hkr hnl).trans h1
        | arr elems =>
          cases elems with
          | nil => exact ihN s tbl rid rest u hfix hkr hnl
          | cons f0 fs =>
            by_cases hdf : isDict f0 = true
            · rcases hres : insert_each_fuel n s (tbl ++ "__" ++ c) rid (f0 :: fs)
                with ⟨s', r'⟩
              have h1 : table_rows s' u = table_rows s u := by
                have hloc := ihE s (tbl ++ "__" ++ c) rid (f0 :: fs) u hne' hnl'
                rw [hres] at hloc
                exact hloc
              show table_rows (if isDict f0 then
                  match insert_each_fuel n s (tbl ++ "__" ++ c) rid (f0 :: fs) with
                  | (s', .ok _) => insert_nested_fuel n s' tbl rid rest
                  | (s', .error e) => (s', .error e)
                else insert_nested_fuel n s tbl rid rest).1 u = _
              rw [if_pos hdf, hres]
              cases r' with
              | error e => exact h1
              | ok w => exact (ihN s' tbl rid rest u hfix hkr hnl).trans h1
            · show table_rows (if isDict f0 then
                  match insert_each_fuel n s (tbl ++ "__" ++ c) rid (f0 :: fs) with
                  | (s', .ok _) => insert_nested_fuel n s' tbl rid rest
                  | (s', .error e) => (s', .error e)
                else insert_nested_fuel n s tbl rid rest).1 u = _
              rw [if_neg (by simp [hdf])]
              exact ihN s tbl rid rest u hfix hkr hnl
        | null => exact ihN s tbl rid rest u hfix hkr hnl
        | bool b => exact ihN s tbl rid rest u hfix hkr hnl
        | int m => exact ihN s tbl rid rest u hfix hkr hnl
        | real => exact ihN s tbl rid rest u hfix hkr hnl
        | str s2 => exact ihN s tbl rid rest u hfix hkr hnl
    · intro s child rid elems u hne hnl
      cases elems with
      | nil => rfl
      | cons e es =>
        rcases hres : insert_data_fuel n s child e (some rid) with ⟨s', r'⟩
        have h1 : table_rows s' u = table_rows s u := by
          have hloc := ihP s child e (some rid) u hne hnl
          rw [hres] at hloc
          exact hloc
        show table_rows (match insert_data_fuel n s child e (some rid) with
          | (s', .ok _) => insert_each_fuel n s' child rid es
          | (s', .error er) => (s', .error er)).1 u = _
        rw [hres]
        cases r' with
        | error er => exact h1
        | ok w => exact (ihE s' child rid es u hne hnl).trans h1

/-- A successful record insertion appends exactly one row to the record's own
table, made of the simple fields plus (under a parent) the parent reference. -/
theorem insert_one_row : ∀ (n : Nat) (s : ConvState) (tname : String)
    (g : List (String × JValue)) (pid : Option Int) (s' : ConvState) (rid : Int),
    insert_data_fuel n s tname (.obj g) pid = (s', .ok rid) →
    table_rows s' (sanitize_name tname) = table_rows s (sanitize_name tname) ++
      [(rid, row_cells (sanitize_name tname) (partition_fields g).1 pid)] := by
  intro n
  cases n with
  | zero =>
    intro s tname g pid s' rid h
    have hh : ((s, .error .fuelExhausted) : ConvState × Except SqlError Int) =
        (s', .ok rid) := h
    simp at hh
  | succ n =>
    intro s tname g pid s' rid h
    have hh : (match insert_row_step s (sanitize_name tname)
        (partition_fields g).1 pid with
      | (s1, .error e) => ((s1, .error e) : ConvState × Except SqlError Int)
      | (s1, .ok rid) =>
        match insert_nested_fuel n s1 (sanitize_name tname) rid
            (partition_fields g).2 with
        | (s2, .error e) => (s2, .error e)
        | (s2, .ok _) => (s2, .ok rid)) = (s', .ok rid) := h
    rcases hres : insert_row_step s (sanitize_name tname) (partition_fields g).1 pid
      with ⟨s1, r1⟩
    rw [hres] at hh
    cases r1 with
    | error e => simp at hh
    | ok rid0 =>
      have hh2 : (match insert_nested_fuel n s1 (sanitize_name tname) rid0
          (partition_fields g).2 with
        | (s2, .error e) => ((s2, .error e) : ConvState × Except SqlError Int)
        | (s2, .ok _) => (s2, .ok rid0)) = (s', .ok rid) := hh
      rcases hres2 : insert_nested_fuel n s1 (sanitize_name tname) rid0
        (partition_fields g).2 with ⟨s2, r2⟩
      rw [hres2] at hh2
      cases r2 with
      | error e => simp at hh2
      | ok w =>
        simp only [Prod.mk.injEq, Except.ok.injEq] at hh2
        obtain ⟨hs', hrid⟩ := hh2
        subst hs'
        subst hrid
        rw [insert_row_step_eq] at hres
        have hrows1 := (db_insert_row_ok hres).1
        have hloc := (insert_local n).2.1 s1 (sanitize_name tname) rid0
          (partition_fields g).2 (sanitize_name tname) (chars_fixed_sanitize tname)
          partition_keys_fixed (not_str_leads_dunder_self _)
        rw [hres2] at hloc
        rw [hloc, hrows1]

/-- A successful per-element loop appends exactly one row per array element to
the child table, in array order, each carrying the same parent reference. -/
theorem insert_each_rows : ∀ (n : Nat) (s : ConvState) (child : String) (rid : Int)
    (elems : List JValue) (s' : ConvState),
    sanitize_name child = child →
    insert_each_fuel n s child rid elems = (s', .ok ()) →
    ∃ rows', table_rows s' child = table_rows s child ++ rows' ∧
      rows'.length = elems.length ∧
      (∀ r ∈ rows', (parent_ref_col child, JValue.int rid) ∈ r.2) := by
  intro n
  induction n with
  | zero =>
    intro s child rid elems s' _ h
    have hh : ((s, .error .fuelExhausted) : ConvState × Except SqlError Unit) =
        (s', .ok ()) := h
    simp at hh
  | succ n ih =>
    intro s child rid elems s' hsan h
    cases elems with
    | nil =>
      have hs : s = s' := by
        have hh : ((s, .ok ()) : ConvState × Except SqlError Unit) = (s', .ok ()) := h
        simp at hh
        exact hh
      subst hs
      exact ⟨[], by simp, rfl, by simp⟩
    | cons e es =>
      have hh : (match insert_data_fuel n s child e (some rid) with
        | (s', .ok _) => insert_each_fuel n s' child rid es
        | (s', .error er) => ((s', .error er) : ConvState × Except SqlError Unit)) =
          (s', .ok ()) := h
      rcases hres : insert_data_fuel n s child e (some rid) with ⟨s1, r1⟩
      rw [hres] at hh
      cases r1 with
      | error er => simp at hh
      | ok rid1 =>
        obtain ⟨g, rfl⟩ : ∃ g, e = .obj g := by
          cases e with
          | obj g => exact ⟨g, rfl⟩
          | null =>
            exfalso
            cases n with
            | zero =>
              have hz : ((s, .error .fuelExhausted) : ConvState × Except SqlError Int) =
                  (s1, .ok rid1) := hres
              simp at hz
            | succ m =>
              rw [insert_nonobj m s child (some rid) JValue.null rfl] at hres
              simp at hres
          | bool b =>
            exfalso
            cases n with
            | zero =>
              have hz : ((s, .error .fuelExhausted) : ConvState × Except SqlError Int) =
                  (s1, .ok rid1) := hres
              simp at hz
            | succ m =>
              rw [insert_nonobj m s child (some rid) (JValue.bool b) rfl] at hres
              simp at hres
          | int mm =>
            exfalso
            cases n with
            | zero =>
              have hz : ((s, .error .fuelExhausted) : ConvState × Except SqlError Int) =
                  (s1, .ok rid1) := hres
              simp at hz
            | succ m =>
              rw [insert_nonobj m s child (some rid) (JValue.int mm) rfl] at hres
              simp at hres
          | real =>
            exfalso
            cases n with
            | zero =>
              have hz : ((s, .error .fuelExhausted) : ConvState × Except SqlError Int) =
                  (s1, .ok rid1) := hres
              simp at hz
            | succ m =>
              rw [insert_nonobj m s child (some rid) JValue.real rfl] at hres
              simp at hres
          | str s2 =>
            exfalso
            cases n with
            | zero =>
              have hz : ((s, .error .fuelExhausted) : ConvState × Except SqlError Int) =
                  (s1, .ok rid1) := hres
              simp at hz
            | succ m =>
              rw [insert_nonobj m s child (some rid) (JValue.str s2) rfl] at hres
              simp at hres
          | arr l =>
            exfalso
            cases n with
            | zero =>
              have hz : ((s, .error .fuelExhausted) : ConvState × Except SqlError Int) =
                  (s1, .ok rid1) := hres
              simp at hz
            | succ m =>
              rw [insert_nonobj m s child (some rid) (JValue.arr l) rfl] at hres
              simp at hres
        have hone := insert_one_row n s child g (some rid) s1 rid1 hres
        rw [hsan] at hone
        obtain ⟨rows'', hr1, hr2, hr3⟩ := ih s1 child rid es s' hsan hh
        refine ⟨(rid1, row_cells child (partition_fields g).1 (some rid)) :: rows'',
          ?_, ?_, ?_⟩
        · rw [hr1, hone, List.append_assoc]
          rfl
        · simp [hr2]
        · intro r hr
          rcases List.mem_cons.mp hr with heq | hmem
          · rw [heq]
            exact row_cells_parent child _ rid
          · exact hr3 r hmem

/-- C3 counterexample: the document `{"a!": {"x": 1}, "a?": {"y": 2}}` has two
nested object fields, and its write succeeds, yet the database ends with
exactly one child row in one child table: both field names sanitize to `a_`,
so the second object displaces the first in the sanitized-keyed `nested_data`
dictionary, and the first object field yields zero child rows instead of
exactly one. -/
theorem c3_counterexample :
    (insert_data (schema_pass_array initState "root"
        [JValue.obj [("a!", JValue.obj [("x", JValue.int 1)]),
          ("a?", JValue.obj [("y", JValue.int 2)])]]).1
      "root"
      (JValue.obj [("a!", JValue.obj [("x", JValue.int 1)]),
        ("a?", JValue.obj [("y", JValue.int 2)])])
      none).2 = .ok 1 ∧
    row_count (insert_data (schema_pass_array initState "root"
        [JValue.obj [("a!", JValue.obj [("x", JValue.int 1)]),
          ("a?", JValue.obj [("y", JValue.int 2)])]]).1
      "root"
      (JValue.obj [("a!", JValue.obj [("x", JValue.int 1)]),
        ("a?", JValue.obj [("y", JValue.int 2)])])
      none).1 "root" = 1 ∧
    row_count (insert_data (schema_pass_array initState "root"
        [JValue.obj [("a!", JValue.obj [("x", JValue.int 1)]),
          ("a?", JValue.obj [("y", JValue.int 2)])]]).1
      "root"
      (JValue.obj [("a!", JValue.obj [("x", JValue.int 1)]),
        ("a?", JValue.obj [("y", JValue.int 2)])])
      none).1 "root__a_" = 1 ∧
    tableNames (insert_data (schema_pass_array initState "root"
        [JValue.obj [("a!", JValue.obj [("x", JValue.int 1)]),
          ("a?", JValue.obj [("y", JValue.int 2)])]]).1
      "root"
      (JValue.obj [("a!", JValue.obj [("x", JValue.int 1)]),
        ("a?", JValue.obj [("y", JValue.int 2)])])
      none).1 = ["root", "root__a_"] :=
  ⟨by decide, by decide, by decide, by decide⟩

/-- C3 (corrected): per write operation of the engine, (1) a successful record
insertion appends exactly one row to the record's own table, consisting of the
simple fields plus — under a parent — the parent-reference cell carrying the
parent's row id; (2) a successful per-element array loop appends exactly one
row per element to the child table, in array order, each carrying the same
parent row id; (3) an empty array or an array whose first element is not an
object contributes nothing: the write pass's nested loop and the schema
pass's field loop both treat such a field exactly as if it were absent (no
child row, no child table, no column). The per-field phrasing of the original
claim fails when sanitized field names collide (see the counterexample). -/
theorem c3_theorem :
    (∀ (n : Nat) (s : ConvState) (tname : String) (g : List (String × JValue))
      (pid : Option Int) (s' : ConvState) (rid : Int),
      insert_data_fuel n s tname (.obj g) pid = (s', .ok rid) →
      table_rows s' (sanitize_name tname) = table_rows s (sanitize_name tname) ++
        [(rid, row_cells (sanitize_name tname) (partition_fields g).1 pid)] ∧
      (∀ p, pid = some p → (parent_ref_col (sanitize_name tname), JValue.int p) ∈
        row_cells (sanitize_name tname) (partition_fields g).1 pid)) ∧
    (∀ (n : Nat) (s : ConvState) (child : String) (rid : Int) (elems : List JValue)
      (s' : ConvState), sanitize_name child = child →
      insert_each_fuel n s child rid elems = (s', .ok ()) →
      ∃ rows', table_rows s' child = table_rows s child ++ rows' ∧
        rows'.length = elems.length ∧
        (∀ r ∈ rows', (parent_ref_col child, JValue.int rid) ∈ r.2)) ∧
    (∀ (n : Nat) (s : ConvState) (tbl : String) (rid : Int) (c : String)
      (rest : List (String × JValue)),
      insert_nested_fuel (n+1) s tbl rid ((c, .arr []) :: rest) =
        insert_nested_fuel n s tbl rid rest) ∧
    (∀ (n : Nat) (s : ConvState) (tbl : String) (rid : Int) (c : String) (e0 : JValue)
      (es : List JValue) (rest : List (String × JValue)), isDict e0 = false →
      insert_nested_fuel (n+1) s tbl rid ((c, .arr (e0 :: es)) :: rest) =
        insert_nested_fuel n s tbl rid rest) ∧
    (∀ (n : Nat) (s : ConvState) (tbl k : String) (rest : List (String × JValue)),
      ensure_fields_fuel (n+1) s tbl ((k, .arr []) :: rest) =
        ensure_fields_fuel n s tbl rest) ∧
    (∀ (n : Nat) (s : ConvState) (tbl k : String) (e0 : JValue) (es : List JValue)
      (rest : List (String × JValue)), isDict e0 = false →
      ensure_fields_fuel (n+1) s tbl ((k, .arr (e0 :: es)) :: rest) =
        ensure_fields_fuel n s tbl rest) := by
  refine ⟨?_, ?_, ?_, ?_, ?_, ?_⟩
  · intro n s tname g pid s' rid h
    refine ⟨insert_one_row n s tname g pid s' rid h, ?_⟩
    intro p hp
    rw [hp]
    exact row_cells_parent _ _ p
  · intro n s child rid elems s' hsan h
    exact insert_each_rows n s child rid elems s' hsan h
  · intro n s tbl rid c rest
    rfl
  · intro n s tbl rid c e0 es rest hd
    show (if isDict e0 then
        match insert_each_fuel n s (tbl ++ "__" ++ c) rid (e0 :: es) with
        | (s', .ok _) => insert_nested_fuel n s' tbl rid rest
        | (s', .error e) => (s', .error e)
      else insert_nested_fuel n s tbl rid rest) = _
    rw [if_neg (by simp [hd])]
  · intro n s tbl k rest
    show (if decide (sanitize_name k ∈ known_cols s tbl) then
        ensure_fields_fuel n s tbl rest
      else if get_sqlite_type (.arr []) = "REFERENCE" then
        ensure_fields_fuel n s tbl rest
      else _) = _
    by_cases hk : decide (sanitize_name k ∈ known_cols s tbl) = true
    · rw [if_pos hk]
    · rw [if_neg hk, if_pos (show get_sqlite_type (.arr []) = "REFERENCE" from rfl)]
  · intro n s tbl k e0 es rest hd
    show (if decide (sanitize_name k ∈ known_cols s tbl) then
        ensure_fields_fuel n s tbl rest
      else if get_sqlite_type (.arr (e0 :: es)) = "REFERENCE" then
        if isDict e0 then
          match create_table_fuel n s (tbl ++ "__" ++ sanitize_name k) e0 (some tbl) with
          | (s', .ok _) => ensure_fields_fuel n s' tbl rest
          | (s', .error e) => (s', .error e)
        else ensure_fields_fuel n s tbl rest
      else _) = _
    by_cases hk : decide (sanitize_name k ∈ known_cols s tbl) = true
    · rw [if_pos hk]
    · rw [if_neg hk,
        if_pos (show get_sqlite_type (.arr (e0 :: es)) = "REFERENCE" from rfl),
        if_neg (by simp [hd])]

/-! ## Claim C4: root-row accounting across failing records -/

theorem partition_go_simple_sub :
    ∀ (fields : List (String × JValue)) (simple nested : List (String × JValue))
      {c : String} {v : JValue},
    (c, v) ∈ (partition_go simple nested fields).1 →
    (c, v) ∈ simple ∨ ∃ k, (k, v) ∈ fields ∧ sanitize_name k = c ∧ isDictOrList v = false
  | [], simple, nested, c, v, h => Or.inl h
  | (k', v') :: rest, simple, nested, c, v, h => by
    rw [partition_go] at h
    by_cases hc : isDictOrList v' = true
    · rw [if_pos hc] at h
      rcases partition_go_simple_sub rest _ _ h with h1 | h1
      · exact Or.inl h1
      · obtain ⟨k2, hk2, hs2, hsc⟩ := h1
        exact Or.inr ⟨k2, List.mem_cons_of_mem _ hk2, hs2, hsc⟩
    · rw [if_neg hc] at h
      rcases partition_go_simple_sub rest _ _ h with h1 | h1
      · rcases mem_upsert h1 with h2 | ⟨h2, h3⟩
        · exact Or.inl h2
        · refine Or.inr ⟨k', ?_, ?_, ?_⟩
          · rw [h3]
            exact List.mem_cons_self _ _
          · rw [h2]
          · rw [h3]
            simpa using hc
      · obtain ⟨k2, hk2, hs2, hsc⟩ := h1
        exact Or.inr ⟨k2, List.mem_cons_of_mem _ hk2, hs2, hsc⟩

theorem partition_simple_sub {fields : List (String × JValue)} {c : String} {v : JValue}
    (h : (c, v) ∈ (partition_fields fields).1) :
    ∃ k, (k, v) ∈ fields ∧ sanitize_name k = c ∧ isDictOrList v = false := by
  rcases partition_go_simple_sub fields [] [] h with h1 | h1
  · simp at h1
  · exact h1

theorem row_count_eq (s : ConvState) (t : String) :
    row_count s t = (table_rows s t).length := by
  unfold row_count table_rows
  rcases hl : lookupA s.tables t with _ | tb <;> simp [hl]

theorem db_col_names_eq_map (s : ConvState) (t : String) :
    db_col_names s t = (db_cols s t).map Prod.fst := by
  unfold db_col_names db_cols colNames
  rcases hl : lookupA s.tables t with _ | tb <;> simp [hl]

theorem db_insert_row_succeeds {s : ConvState} {t : String}
    {cells : List (String × JValue)} (htbl : t ∈ tableNames s)
    (hcols : ∀ c ∈ cells.map Prod.fst, c ∈ db_col_names s t) :
    ∃ s' rid, db_insert_row s t cells = (s', .ok rid) := by
  obtain ⟨tb, hdb⟩ := lookupA_some_of_mem_keys htbl
  have hfind : (cells.map Prod.fst).find? (fun c => !decide (c ∈ colNames tb)) = none := by
    rw [List.find?_eq_none]
    intro c hc
    have hmem := hcols c hc
    rw [db_col_names_of_some hdb] at hmem
    simp [hmem]
  unfold db_insert_row
  simp only [hdb, hfind]
  exact ⟨_, _, rfl⟩

/-- The record writer never changes the set of tables nor any table's column
list: all its mutations are row insertions. -/
def same_schema (s s' : ConvState) : Prop :=
  tableNames s' = tableNames s ∧ ∀ u, db_col_names s' u = db_col_names s u

theorem same_schema_refl (s : ConvState) : same_schema s s := ⟨rfl, fun _ => rfl⟩

theorem same_schema_trans {s1 s2 s3 : ConvState} (h1 : same_schema s1 s2)
    (h2 : same_schema s2 s3) : same_schema s1 s3 :=
  ⟨h2.1.trans h1.1, fun u => (h2.2 u).trans (h1.2 u)⟩

theorem db_insert_row_schema {s : ConvState} {t : String}
    {cells : List (String × JValue)} {s' : ConvState} {r : Except SqlError Int}
    (h : db_insert_row s t cells = (s', r)) : same_schema s s' := by
  cases r with
  | ok rid =>
    obtain ⟨_, _, hmain, hother, htn, _⟩ := db_insert_row_ok h
    refine ⟨htn, ?_⟩
    intro u
    rw [db_col_names_eq_map, db_col_names_eq_map]
    by_cases hu : u = t
    · subst hu
      rw [hmain]
    · rw [hother u hu]
  | error e =>
    rw [db_insert_row_error h]
    exact same_schema_refl s

theorem create_nonobj (n : Nat) (s : ConvState) (tname : String)
    (parent : Option String) (d : JValue) (hd : isDict d = false) :
    (create_table_fuel (n+1) s tname d parent).2 = .error .attributeError := by
  cases d with
  | obj g => simp [isDict] at hd
  | null => rfl
  | bool b => rfl
  | int m => rfl
  | real => rfl
  | str s2 => rfl
  | arr l => rfl

theorem insert_data_nonobj (s : ConvState) (tname : String) (pid : Option Int)
    (e : JValue) (he : isDict e = false) :
    insert_data s tname e pid = (s, .error .attributeError) := by
  obtain ⟨m, hm⟩ : ∃ m, sizeV e = m + 1 :=
    ⟨sizeV e - 1, by have := one_le_sizeV e; omega⟩
  show insert_data_fuel (sizeV e) s tname e pid = _
  rw [hm]
  exact insert_nonobj m s tname pid e he

theorem insert_keeps_schema : ∀ n : Nat,
    (∀ s tname data pid, same_schema s (insert_data_fuel n s tname data pid).1) ∧
    (∀ s tbl rid l, same_schema s (insert_nested_fuel n s tbl rid l).1) ∧
    (∀ s child rid elems, same_schema s (insert_each_fuel n s child rid elems).1) := by
  intro n
  induction n with
  | zero =>
    refine ⟨?_, ?_, ?_⟩
    · intro s tname data pid
      exact same_schema_refl s
    · intro s tbl rid l
      exact same_schema_refl s
    · intro s child rid elems
      exact same_schema_refl s
  | succ n ih =>
    obtain ⟨ihP, ihN, ihE⟩ := ih
    refine ⟨?_, ?_, ?_⟩
    · intro s tname data pid
      cases data with
      | obj fields =>
        rcases hres : insert_row_step s (sanitize_name tname)
          (partition_fields fields).1 pid with ⟨s1, r1⟩
        have h1 : same_schema s s1 := by
          rw [insert_row_step_eq] at hres
          exact db_insert_row_schema hres
        show same_schema s (match insert_row_step s (sanitize_name tname)
            (partition_fields fields).1 pid with
          | (s1, .error e) => ((s1, .error e) : ConvState × Except SqlError Int)
          | (s1, .ok rid) =>
            match insert_nested_fuel n s1 (sanitize_name tname) rid
                (partition_fields fields).2 with
            | (s2, .error e) => (s2, .error e)
            | (s2, .ok _) => (s2, .ok rid)).1
        rw [hres]
        cases r1 with
        | error e => exact h1
        | ok rid0 =>
          rcases hres2 : insert_nested_fuel n s1 (sanitize_name tname) rid0
            (partition_fields fields).2 with ⟨s2, r2⟩
          have h2 : same_schema s1 s2 := by
            have := ihN s1 (sanitize_name tname) rid0 (partition_fields fields).2
            rw [hres2] at this
            exact this
          show same_schema s (match insert_nested_fuel n s1 (sanitize_name tname) rid0
              (partition_fields fields).2 with
            | (s2, .error e) => ((s2, .error e) : ConvState × Except SqlError Int)
            | (s2, .ok _) => (s2, .ok rid0)).1
          rw [hres2]
          cases r2 with
          | error e => exact same_schema_trans h1 h2
          | ok w => exact same_schema_trans h1 h2
      | null => exact same_schema_refl s
      | bool b => exact same_schema_refl s
      | int m => exact same_schema_refl s
      | real => exact same_schema_refl s
      | str s2 => exact same_schema_refl s
      | arr l => exact same_schema_refl s
    · intro s tbl rid l
      cases l with
      | nil => exact same_schema_refl s
      | cons cv rest =>
        obtain ⟨c, v⟩ := cv
        cases v with
        | obj g =>
          rcases hres : insert_data_fuel n s (tbl ++ "__" ++ c) (.obj g) (some rid)
            with ⟨s', r'⟩
          have h1 : same_schema s s' := by
            have := ihP s (tbl ++ "__" ++ c) (.obj g) (some rid)
            rw [hres] at this
            exact this
          show same_schema s (match insert_data_fuel n s (tbl ++ "__" ++ c)
              (.obj g) (some rid) with
            | (s', .ok _) => insert_nested_fuel n s' tbl rid rest
            | (s', .error e) => (s', .error e)).1
          rw [hres]
          cases r' with
          | error e => exact h1
          | ok w => exact same_schema_trans h1 (ihN s' tbl rid rest)
        | arr elems =>
          cases elems with
          | nil => exact ihN s tbl rid rest
          | cons f0 fs =>
            by_cases hdf : isDict f0 = true
            · rcases hres : insert_each_fuel n s (tbl ++ "__" ++ c) rid (f0 :: fs)
                with ⟨s', r'⟩
              have h1 : same_schema s s' := by
                have := ihE s (tbl ++ "__" ++ c) rid (f0 :: fs)
                rw [hres] at this
                exact this
              show same_schema s (if isDict f0 then
                  match insert_each_fuel n s (tbl ++ "__" ++ c) rid (f0 :: fs) with
                  | (s', .ok _) => insert_nested_fuel n s' tbl rid rest
                  | (s', .error e) => (s', .error e)
                else insert_nested_fuel n s tbl rid rest).1
              rw [if_pos hdf, hres]
              cases r' with
              | error e => exact h1
              | ok w => exact same_schema_trans h1 (ihN s' tbl rid rest)
            · show same_schema s (if isDict f0 then
                  match insert_each_fuel n s (tbl ++ "__" ++ c) rid (f0 :: fs) with
                  | (s', .ok _) => insert_nested_fuel n s' tbl rid rest
                  | (s', .error e) => (s', .error e)
                else insert_nested_fuel n s tbl rid rest).1
              rw [if_neg (by simp [hdf])]
              exact ihN s tbl rid rest
        | null => exact ihN s tbl rid rest
        | bool b => exact ihN s tbl rid rest
        | int m => exact ihN s tbl rid rest
        | real => exact ihN s tbl rid rest
        | str s2 => exact ihN s tbl rid rest
    · intro s child rid elems
      cases elems with
      | nil => exact same_schema_refl s
      | cons e es =>
        rcases hres : insert_data_fuel n s child e (some rid) with ⟨s', r'⟩
        have h1 : same_schema s s' := by
          have := ihP s child e (some rid)
          rw [hres] at this
          exact this
        show same_schema s (match insert_data_fuel n s child e (some rid) with
          | (s', .ok _) => insert_each_fuel n s' child rid es
          | (s', .error er) => (s', .error er)).1
        rw [hres]
        cases r' with
        | error er => exact h1
        | ok w => exact same_schema_trans h1 (ihE s' child rid es)

/-- When the root table and every simple-field column exist, writing a record
adds exactly one row to the record's own table — regardless of whether the
nested child insertions afterwards succeed or fail. -/
theorem insert_root_row (n : Nat) (s : ConvState) (tname : String)
    (fields : List (String × JValue))
    (htbl : sanitize_name tname ∈ tableNames s)
    (hcols : ∀ k v, (k, v) ∈ fields → isDictOrList v = false →
      sanitize_name k ∈ db_col_names s (sanitize_name tname)) :
    row_count (insert_data_fuel (n+1) s tname (.obj fields) none).1 (sanitize_name tname)
      = row_count s (sanitize_name tname) + 1 := by
  have hcells : ∀ c ∈ (row_cells (sanitize_name tname)
      (partition_fields fields).1 none).map Prod.fst,
      c ∈ db_col_names s (sanitize_name tname) := by
    intro c hc
    rcases hs : (partition_fields fields).1 with _ | ⟨a, l⟩
    · rw [hs] at hc
      simp [row_cells] at hc
    · rw [hs] at hc
      have hrc : row_cells (sanitize_name tname) (a :: l) none = a :: l := rfl
      rw [hrc] at hc
      obtain ⟨⟨c', v⟩, hm, hceq⟩ := List.mem_map.mp hc
      have hc' : c' = c := hceq
      subst hc'
      have hmem : (c', v) ∈ (partition_fields fields).1 := by
        rw [hs]
        exact hm
      obtain ⟨k, hk, hks, hscal⟩ := partition_simple_sub hmem
      rw [← hks]
      exact hcols k v hk hscal
  obtain ⟨s1, rid, heq⟩ := db_insert_row_succeeds htbl hcells
  have hrs : insert_row_step s (sanitize_name tname) (partition_fields fields).1 none =
      (s1, .ok rid) := by
    rw [insert_row_step_eq]
    exact heq
  show row_count (match insert_row_step s (sanitize_name tname)
      (partition_fields fields).1 none with
    | (s1, .error e) => ((s1, .error e) : ConvState × Except SqlError Int)
    | (s1, .ok rid) =>
      match insert_nested_fuel n s1 (sanitize_name tname) rid
          (partition_fields fields).2 with
      | (s2, .error e) => (s2, .error e)
      | (s2, .ok _) => (s2, .ok rid)).1 (sanitize_name tname) = _
  rw [hrs]
  rcases hres2 : insert_nested_fuel n s1 (sanitize_name tname) rid
    (partition_fields fields).2 with ⟨s2, r2⟩
  have hloc : table_rows s2 (sanitize_name tname) = table_rows s1 (sanitize_name tname)
      := by
    have := (insert_local n).2.1 s1 (sanitize_name tname) rid
      (partition_fields fields).2 (sanitize_name tname) (chars_fixed_sanitize tname)
      partition_keys_fixed (not_str_leads_dunder_self _)
    rw [hres2] at this
    exact this
  have hrows1 := (db_insert_row_ok heq).1
  show row_count (match insert_nested_fuel n s1 (sanitize_name tname) rid
      (partition_fields fields).2 with
    | (s2, .error e) => ((s2, .error e) : ConvState × Except SqlError Int)
    | (s2, .ok _) => (s2, .ok rid)).1 (sanitize_name tname) = _
  rw [hres2]
  cases r2 with
  | error e =>
    rw [row_count_eq, row_count_eq, hloc, hrows1]
    simp
  | ok w =>
    rw [row_count_eq, row_count_eq, hloc, hrows1]
    simp

/-- Root-row accounting for the per-line write pass: every line that parsed
to an object contributes exactly one root row, whether or not its nested
child insertions fail; parse failures and non-object lines contribute none. -/
theorem write_pass_lines_count (root : String) :
    ∀ (lines : List (Option JValue)) (s : ConvState),
    (∀ d ∈ lines, ∀ fields, d = some (.obj fields) →
      sanitize_name root ∈ tableNames s ∧
      (∀ k v, (k, v) ∈ fields → isDictOrList v = false →
        sanitize_name k ∈ db_col_names s (sanitize_name root))) →
    row_count (write_pass_lines s root lines) (sanitize_name root) =
      row_count s (sanitize_name root) + count_obj_lines lines
  | [], s, _ => by
    show row_count s (sanitize_name root) = row_count s (sanitize_name root) + 0
    omega
  | none :: ls, s, h => by
    have ih := write_pass_lines_count root ls s
      (fun d hd => h d (List.mem_cons_of_mem _ hd))
    exact ih
  | some d :: ls, s, h => by
    cases d with
    | obj fields =>
      have hh := h (some (.obj fields)) (List.mem_cons_self _ _) fields rfl
      have hql : insert_data s root (JValue.obj fields) none
          = insert_data_fuel (sizeF fields + 1) s root (JValue.obj fields) none := by
        show insert_data_fuel (sizeV (JValue.obj fields)) s root (JValue.obj fields) none
          = _
        rw [show sizeV (JValue.obj fields) = sizeF fields + 1 from by
          simp only [sizeV]; omega]
      have hrow := insert_root_row (sizeF fields) s root fields hh.1 hh.2
      have hsch : same_schema s
          (insert_data_fuel (sizeF fields + 1) s root (JValue.obj fields) none).1 :=
        (insert_keeps_schema (sizeF fields + 1)).1 s root (.obj fields) none
      have ih := write_pass_lines_count root ls
        (insert_data_fuel (sizeF fields + 1) s root (JValue.obj fields) none).1
        (fun d' hd' fields' heq => by
          obtain ⟨ht, hc⟩ := h d' (List.mem_cons_of_mem _ hd') fields' heq
          refine ⟨by rw [hsch.1]; exact ht, ?_⟩
          intro k v hkv hscal
          rw [hsch.2]
          exact hc k v hkv hscal)
      have hcount : count_obj_lines (some (JValue.obj fields) :: ls) =
          count_obj_lines ls + 1 := rfl
      show row_count (write_pass_lines (insert_data s root (JValue.obj fields) none).1
        root ls) (sanitize_name root) = _
      rw [hql, ih, hrow, hcount]
      omega
    | null =>
      have hne : (insert_data s root JValue.null none).1 = s := by
        rw [insert_data_nonobj s root none JValue.null rfl]
      have ih := write_pass_lines_count root ls s
        (fun d hd => h d (List.mem_cons_of_mem _ hd))
      show row_count (write_pass_lines (insert_data s root JValue.null none).1
        root ls) (sanitize_name root) = _
      rw [hne, ih]
      rfl
    | bool b =>
      have hne : (insert_data s root (JValue.bool b) none).1 = s := by
        rw [insert_data_nonobj s root none (JValue.bool b) rfl]
      have ih := write_pass_lines_count root ls s
        (fun d hd => h d (List.mem_cons_of_mem _ hd))
      show row_count (write_pass_lines (insert_data s root (JValue.bool b) none).1
        root ls) (sanitize_name root) = _
      rw [hne, ih]
      rfl
    | int m =>
      have hne : (insert_data s root (JValue.int m) none).1 = s := by
        rw [insert_data_nonobj s root none (JValue.int m) rfl]
      have ih := write_pass_lines_count root ls s
        (fun d hd => h d (List.mem_cons_of_mem _ hd))
      show row_count (write_pass_lines (insert_data s root (JValue.int m) none).1
        root ls) (sanitize_name root) = _
      rw [hne, ih]
      rfl
    | real =>
      have hne : (insert_data s root JValue.real none).1 = s := by
        rw [insert_data_nonobj s root none JValue.real rfl]
      have ih := write_pass_lines_count root ls s
        (fun d hd => h d (List.mem_cons_of_mem _ hd))
      show row_count (write_pass_lines (insert_data s root JValue.real none).1
        root ls) (sanitize_name root) = _
      rw [hne, ih]
      rfl
    | str s2 =>
      have hne : (insert_data s root (JValue.str s2) none).1 = s := by
        rw [insert_data_nonobj s root none (JValue.str s2) rfl]
      have ih := write_pass_lines_count root ls s
        (fun d hd => h d (List.mem_cons_of_mem _ hd))
      show row_count (write_pass_lines (insert_data s root (JValue.str s2) none).1
        root ls) (sanitize_name root) = _
      rw [hne, ih]
      rfl
    | arr l =>
      have hne : (insert_data s root (JValue.arr l) none).1 = s := by
        rw [insert_data_nonobj s root none (JValue.arr l) rfl]
      have ih := write_pass_lines_count root ls s
        (fun d hd => h d (List.mem_cons_of_mem _ hd))
      show row_count (write_pass_lines (insert_data s root (JValue.arr l) none).1
        root ls) (sanitize_name root) = _
      rw [hne, ih]
      rfl

/-- The per-line schema pass never fails the run, preserves well-formedness,
and materializes the root table and every scalar column of every line that
parsed to an object. -/
theorem schema_pass_lines_cols (root : String) :
    ∀ (lines : List (Option JValue)) (s : ConvState), wf_state s = true →
    wf_state (schema_pass_lines s root lines) = true ∧
    step_mono s (schema_pass_lines s root lines) ∧
    (∀ d ∈ lines, ∀ fields, d = some (.obj fields) →
      sanitize_name root ∈ tableNames (schema_pass_lines s root lines) ∧
      (∀ k v, (k, v) ∈ fields → isDictOrList v = false →
        sanitize_name k ∈ db_col_names (schema_pass_lines s root lines)
          (sanitize_name root)))
  | [], s, hwf =>
    ⟨hwf, step_mono_refl s, fun d hd => absurd hd (List.not_mem_nil d)⟩
  | none :: ls, s, hwf => by
    have ih := schema_pass_lines_cols root ls s hwf
    refine ⟨ih.1, ih.2.1, ?_⟩
    intro d hd fields heq
    rcases List.mem_cons.mp hd with h1 | h1
    · rw [h1] at heq
      cases heq
    · exact ih.2.2 d h1 fields heq
  | some d0 :: ls, s, hwf => by
    rcases hres : create_table_if_not_exists s root d0 none with ⟨s1, r1⟩
    have hp := (schema_main (sizeV d0)).1 s root d0 none (le_refl _) hwf
    rw [show create_table_fuel (sizeV d0) s root d0 none = (s1, r1) from hres] at hp
    have hstep : schema_pass_lines s root (some d0 :: ls) =
        schema_pass_lines s1 root ls := by
      show schema_pass_lines (create_table_if_not_exists s root d0 none).1 root ls = _
      rw [hres]
    have ih := schema_pass_lines_cols root ls s1 hp.2.1
    rw [hstep]
    refine ⟨ih.1, step_mono_trans hp.1 ih.2.1, ?_⟩
    intro d hd fields heq
    rcases List.mem_cons.mp hd with h1 | h1
    · rw [h1] at heq
      injection heq with h2
      subst h2
      obtain ⟨_, _, hcols⟩ := hp.2.2.2.2 fields rfl
      exact ⟨ih.2.1.1 _ hp.2.2.1,
        fun k v hkv hscal => ih.2.1.2.1 _ _ (hcols k v hkv hscal)⟩
    · exact ih.2.2 d h1 fields heq

/-- The whole-array schema pass, when it succeeds, implies every element is an
object and materializes the root table and all scalar columns. -/
theorem schema_pass_array_cols (root : String) :
    ∀ (items : List JValue) (s S : ConvState), wf_state s = true →
    schema_pass_array s root items = (S, .ok ()) →
    wf_state S = true ∧ step_mono s S ∧
    (∀ d ∈ items, ∃ fields, d = .obj fields ∧
      sanitize_name root ∈ tableNames S ∧
      (∀ k v, (k, v) ∈ fields → isDictOrList v = false →
        sanitize_name k ∈ db_col_names S (sanitize_name root)))
  | [], s, S, hwf, h => by
    have hh : ((s, .ok ()) : ConvState × Except SqlError Unit) = (S, .ok ()) := h
    simp only [Prod.mk.injEq] at hh
    rw [← hh.1]
    exact ⟨hwf, step_mono_refl s, fun d hd => absurd hd (List.not_mem_nil d)⟩
  | d :: ds, s, S, hwf, h => by
    rcases hres : create_table_if_not_exists s root d none with ⟨s1, r1⟩
    have hh : (match create_table_if_not_exists s root d none with
      | (s'', .ok _) => schema_pass_array s'' root ds
      | (s'', .error e) => ((s'', .error e) : ConvState × Except SqlError Unit)) =
        (S, .ok ()) := h
    rw [hres] at hh
    cases r1 with
    | error e => simp at hh
    | ok u =>
      obtain ⟨fields, rfl⟩ : ∃ fields, d = .obj fields := by
        cases d with
        | obj fields => exact ⟨fields, rfl⟩
        | null =>
          exfalso
          obtain ⟨m, hm⟩ : ∃ m, sizeV JValue.null = m + 1 := ⟨0, rfl⟩
          have hcn : (create_table_if_not_exists s root JValue.null none).2 =
              .error .attributeError := by
            show (create_table_fuel (sizeV JValue.null) s root JValue.null none).2 = _
            rw [hm]
            exact create_nonobj m s root none JValue.null rfl
          rw [hres] at hcn
          simp at hcn
        | bool b =>
          exfalso
          obtain ⟨m, hm⟩ : ∃ m, sizeV (JValue.bool b) = m + 1 := ⟨0, rfl⟩
          have hcn : (create_table_if_not_exists s root (JValue.bool b) none).2 =
              .error .attributeError := by
            show (create_table_fuel (sizeV (JValue.bool b)) s root (JValue.bool b)
              none).2 = _
            rw [hm]
            exact create_nonobj m s root none (JValue.bool b) rfl
          rw [hres] at hcn
          simp at hcn
        | int m0 =>
          exfalso
          obtain ⟨m, hm⟩ : ∃ m, sizeV (JValue.int m0) = m + 1 := ⟨0, rfl⟩
          have hcn : (create_table_if_not_exists s root (JValue.int m0) none).2 =
              .error .attributeError := by
            show (create_table_fuel (sizeV (JValue.int m0)) s root (JValue.int m0)
              none).2 = _
            rw [hm]
            exact create_nonobj m s root none (JValue.int m0) rfl
          rw [hres] at hcn
          simp at hcn
        | real =>
          exfalso
          obtain ⟨m, hm⟩ : ∃ m, sizeV JValue.real = m + 1 := ⟨0, rfl⟩
          have hcn : (create_table_if_not_exists s root JValue.real none).2 =
              .error .attributeError := by
            show (create_table_fuel (sizeV JValue.real) s root JValue.real none).2 = _
            rw [hm]
            exact create_nonobj m s root none JValue.real rfl
          rw [hres] at hcn
          simp at hcn
        | str s2 =>
          exfalso
          obtain ⟨m, hm⟩ : ∃ m, sizeV (JValue.str s2) = m + 1 := ⟨0, rfl⟩
          have hcn : (create_table_if_not_exists s root (JValue.str s2) none).2 =
              .error .attributeError := by
            show (create_table_fuel (sizeV (JValue.str s2)) s root (JValue.str s2)
              none).2 = _
            rw [hm]
            exact create_nonobj m s root none (JValue.str s2) rfl
          rw [hres] at hcn
          simp at hcn
        | arr l =>
          exfalso
          obtain ⟨m, hm⟩ : ∃ m, sizeV (JValue.arr l) = m + 1 :=
            ⟨sizeE l, by simp only [sizeV]; omega⟩
          have hcn : (create_table_if_not_exists s root (JValue.arr l) none).2 =
              .error .attributeError := by
            show (create_table_fuel (sizeV (JValue.arr l)) s root (JValue.arr l)
              none).2 = _
            rw [hm]
            exact create_nonobj m s root none (JValue.arr l) rfl
          rw [hres] at hcn
          simp at hcn
      have hp := (schema_main (sizeV (JValue.obj fields))).1 s root (.obj fields) none
        (le_refl _) hwf
      rw [show create_table_fuel (sizeV (JValue.obj fields)) s root (JValue.obj fields)
        none = (s1, .ok u) from hres] at hp
      have ih := schema_pass_array_cols root ds s1 S hp.2.1 hh
      refine ⟨ih.1, step_mono_trans hp.1 ih.2.1, ?_⟩
      intro d' hd'
      rcases List.mem_cons.mp hd' with heq | hmem
      · subst heq
        obtain ⟨_, _, hcols⟩ := hp.2.2.2.2 fields rfl
        exact ⟨fields, rfl, ih.2.1.1 _ hp.2.2.1,
          fun k v hkv hscal => ih.2.1.2.1 _ _ (hcols k v hkv hscal)⟩
      · exact ih.2.2 d' hmem

theorem write_pass_array_eq_lines (root : String) : ∀ (items : List JValue)
    (s : ConvState),
    write_pass_array s root items = write_pass_lines s root (items.map some)
  | [], _ => rfl
  | d :: ds, s => write_pass_array_eq_lines root ds (insert_data s root d none).1

theorem count_obj_map_some : ∀ (items : List JValue),
    (∀ d ∈ items, isDict d = true) →
    count_obj_lines (items.map some) = items.length
  | [], _ => rfl
  | d :: ds, h => by
    have hd := h d (List.mem_cons_self _ _)
    obtain ⟨fields, rfl⟩ : ∃ fields, d = .obj fields := by
      cases d with
      | obj fields => exact ⟨fields, rfl⟩
      | null => simp [isDict] at hd
      | bool b => simp [isDict] at hd
      | int m => simp [isDict] at hd
      | real => simp [isDict] at hd
      | str s2 => simp [isDict] at hd
      | arr l => simp [isDict] at hd
    have ih := count_obj_map_some ds (fun d' h' => h d' (List.mem_cons_of_mem _ h'))
    show count_obj_lines (some (JValue.obj fields) :: ds.map some) = ds.length + 1
    have hstep : count_obj_lines (some (JValue.obj fields) :: ds.map some) =
        count_obj_lines (ds.map some) + 1 := rfl
    rw [hstep, ih]

/-- C4 counterexample: on the array input `[{"a": 1}, {"a": {"x": 1}}]` the
run completes with two rows in the root table, although the second record's
write fails (its child table `root__a` was never created, because the schema
pass had recorded column `a` as a scalar): a record whose write fails can
still contribute a root row, since the root row is inserted before the nested
failure and mutations are not rolled back. -/
theorem c4_counterexample :
    (process_json_file initState "root"
      (.arr [JValue.obj [("a", JValue.int 1)],
        JValue.obj [("a", JValue.obj [("x", JValue.int 1)])]])).2 = .ok () ∧
    row_count (process_json_file initState "root"
      (.arr [JValue.obj [("a", JValue.int 1)],
        JValue.obj [("a", JValue.obj [("x", JValue.int 1)])]])).1 "root" = 2 ∧
    (insert_data (schema_pass_array initState "root"
        [JValue.obj [("a", JValue.int 1)],
          JValue.obj [("a", JValue.obj [("x", JValue.int 1)])]]).1
      "root" (JValue.obj [("a", JValue.int 1)]) none).2 = .ok 1 ∧
    (insert_data (insert_data (schema_pass_array initState "root"
          [JValue.obj [("a", JValue.int 1)],
            JValue.obj [("a", JValue.obj [("x", JValue.int 1)])]]).1
        "root" (JValue.obj [("a", JValue.int 1)]) none).1
      "root" (JValue.obj [("a", JValue.obj [("x", JValue.int 1)])]) none).2 =
        .error (.noSuchTable "root__a") :=
  ⟨by decide, by decide, by decide, by decide⟩

/-- C4 (corrected): a malformed or failing record never prevents other
records from being written, and from a fresh database the number of rows in
the root table equals the number of input records that parsed to a JSON
object — including records whose write subsequently failed in a nested child
insertion, since the root row is written before the children and is not
rolled back. For JSON-Lines input this holds unconditionally; for array input
it holds whenever the run completes (in which case every element is an
object). -/
theorem c4_theorem (root : String) (lines : List (Option JValue)) :
    row_count (process_jsonlines_file initState root lines) (sanitize_name root) =
      count_obj_lines lines ∧
    (∀ (items : List JValue) (s' : ConvState),
      process_json_file initState root (.arr items) = (s', .ok ()) →
      row_count s' (sanitize_name root) = items.length) := by
  constructor
  · show row_count (write_pass_lines (schema_pass_lines initState root lines) root
      lines) (sanitize_name root) = _
    have hs := schema_pass_lines_cols root lines initState rfl
    have h0 : row_count (schema_pass_lines initState root lines) (sanitize_name root)
        = 0 := by
      rw [row_count_eq, hs.2.1.2.2.2.2 (sanitize_name root)]
      rfl
    have hw := write_pass_lines_count root lines (schema_pass_lines initState root lines)
      (fun d hd fields heq => hs.2.2 d hd fields heq)
    rw [hw, h0]
    omega
  · intro items s' h
    rcases hsch : schema_pass_array initState root items with ⟨S, r⟩
    have hh : (match schema_pass_array initState root items with
      | (s'', .error e) => ((s'', .error e) : ConvState × Except SqlError Unit)
      | (s'', .ok _) => (write_pass_array s'' root items, .ok ())) = (s', .ok ()) := h
    rw [hsch] at hh
    cases r with
    | error e => simp at hh
    | ok u =>
      obtain ⟨⟩ := u
      have hs' : write_pass_array S root items = s' := by
        have hh2 : ((write_pass_array S root items, Except.ok ()) :
            ConvState × Except SqlError Unit) = (s', .ok ()) := hh
        simp only [Prod.mk.injEq] at hh2
        exact hh2.1
      have hc := schema_pass_array_cols root items initState S rfl hsch
      have h0 : row_count S (sanitize_name root) = 0 := by
        rw [row_count_eq, hc.2.1.2.2.2.2 (sanitize_name root)]
        rfl
      have hobj : ∀ d ∈ items, isDict d = true := by
        intro d hd
        obtain ⟨fields, rfl, _⟩ := hc.2.2 d hd
        rfl
      have hargs : ∀ d ∈ items.map some, ∀ fields, d = some (.obj fields) →
          sanitize_name root ∈ tableNames S ∧
          (∀ k v, (k, v) ∈ fields → isDictOrList v = false →
            sanitize_name k ∈ db_col_names S (sanitize_name root)) := by
        intro d hd fields heq
        obtain ⟨d0, hd0, rfl⟩ := List.mem_map.mp hd
        injection heq with h2
        subst h2
        obtain ⟨fields0, heq0, hmem, hcols⟩ := hc.2.2 (.obj fields) hd0
        injection heq0 with h3
        subst h3
        exact ⟨hmem, hcols⟩
      have hw := write_pass_lines_count root (items.map some) S hargs
      rw [← hs', write_pass_array_eq_lines root items S, hw, h0,
        count_obj_map_some items hobj]
      omega

/-- C4 witness: a JSON-Lines input with a parse failure and a non-object line
amid two valid objects still writes both objects, and the root-row count is
exactly the number of object lines. -/
theorem c4_witness :
    row_count (process_jsonlines_file initState "root"
      [some (JValue.obj [("a", JValue.int 1)]), none, some (JValue.str "x"),
        some (JValue.obj [("b", JValue.int 2)])]) (sanitize_name "root") =
      count_obj_lines
        [some (JValue.obj [("a", JValue.int 1)]), none, some (JValue.str "x"),
          some (JValue.obj [("b", JValue.int 2)])] ∧
    (∀ (items : List JValue) (s' : ConvState),
      process_json_file initState "root" (.arr items) = (s', .ok ()) →
      row_count s' (sanitize_name "root") = items.length) :=
  c4_theorem "root"
    [some (JValue.obj [("a", JValue.int 1)]), none, some (JValue.str "x"),
      some (JValue.obj [("b", JValue.int 2)])]

end JsonToSqlite
